import Mathlib

/-!
# ATParser: a shallow embedding of `ATParser.cpp`

The development models the AT command parser of `src/ATParser.cpp`:

* memory (`_buffer`, the caller's template string) is a total map from
  addresses to bytes; a write outside `[0, _buffer_size)` is undefined
  behaviour and stops the machine in `Ctl.undef`, a read outside returns
  whatever the surrounding memory holds (so theorems quantify over it);
* the serial channel is the list of outcomes of the successive single-byte
  reads (`some c`, or `none` for a read that timed out) and of the successive
  single-byte writes;
* `vrecv` is a step machine: `Ctl.start` is the label `vrecv_start` (the head
  of the outer `while`), `Ctl.reading` the head of the inner `while (true)`;
* `vscanf` is a function of the list of read outcomes, `none` being a write
  outside the buffer;
* the C library (`sscanf`, `vsscanf`, `vsprintf`) is a parameter of the
  parser; `libcScan` and `libcPrint` give the ISO C behaviour on the fragment
  of formats used in the scenarios.
-/

namespace ATParser

/-! ## Memory and C strings -/

/-- The byte that terminates a C string. -/
def NUL : Char := Char.ofNat 0

/-- Byte-addressed memory. -/
abbrev Mem := Int → Char

/-- Store one byte. -/
def Mem.set (m : Mem) (a : Int) (c : Char) : Mem :=
  fun k => if k = a then c else m k

/-- Store the bytes of `l` at consecutive addresses from `a`. -/
def Mem.write (m : Mem) (a : Int) : List Char → Mem
  | [] => m
  | c :: l => (m.set a c).write (a + 1) l

/-- The `n` bytes starting at address `a`. -/
def slice (m : Mem) (a : Int) : Nat → List Char
  | 0 => []
  | n + 1 => m a :: slice m (a + 1) n

/-- The C string starting at address `a`: the bytes before the first NUL
(at most `bound` of them are inspected). -/
def cstr (m : Mem) (a : Int) : Nat → List Char
  | 0 => []
  | bound + 1 => if m a = NUL then [] else m a :: cstr m (a + 1) bound

/-- The C string held by a byte list: its bytes before the first NUL. -/
def cstrOf : List Char → List Char
  | [] => []
  | c :: l => if c = NUL then [] else c :: cstrOf l

/-- The function `strlen` on a byte list: it stops at the first NUL. -/
def strlen (s : List Char) : Nat := (cstrOf s).length

/-- The comparison `memcmp(m + a, d, |d|) == 0`. -/
def memEq (m : Mem) (a : Int) : List Char → Bool
  | [] => true
  | c :: d => m a == c && memEq m (a + 1) d

/-- The comparison `strcmp(m + a, d) == 0` for a NUL-free string `d`. -/
def strEq (m : Mem) (a : Int) : List Char → Bool
  | [] => m a == NUL
  | c :: d => m a == c && strEq m (a + 1) d

/-- Copy `n` bytes of `src` starting at `p` to the front of `dst`
(`memcpy(dst, src + p, n)`). -/
def memcpy (dst src : Mem) (p : Int) (n : Nat) : Mem :=
  fun k => if 0 ≤ k ∧ k < n then src (p + k) else dst k

/-! ## Values, channel, parser object -/

/-- A value written through an output pointer by `sscanf`. -/
inductive Val
  | int (v : Int)
  | str (s : List Char)
  | chr (c : Char)
  | cnt (n : Nat)
  deriving DecidableEq

/-- The mutable resources shared by the parser and the OOB handlers: the two
directions of the serial channel, the scratch buffer and the dispatch flag `t`
(a variable of `vrecv` declared outside `ATParser.cpp`).
`rx` lists the outcomes of the coming `getc` calls (`none`: the read timed
out), `txq` those of the coming `putc` calls (`false`: the write timed out),
`tx` the bytes written so far. An exhausted list means a silent channel. -/
structure World where
  rx : List (Option Char)
  txq : List Bool
  tx : List Char
  buf : Mem
  t : Bool

/-- An entry of `_oobs`. -/
structure Oob where
  len : Nat
  pfx : List Char
  cb : World → World

/-- The fields of the parser that stay fixed during a call, and the C library
functions it calls: `sscanf input format` returns the values stored through
the output pointers, in order; `vsprintf format args` returns the formatted
text, or `none` for a negative return value. -/
structure Parser where
  bufferSize : Nat
  delimiter : List Char
  oobs : List Oob
  sscanf : List Char → List Char → List Val
  vsprintf : List Char → List Val → Option (List Char)

/-- Modelled from the spec: `_delim_size`, which `setDelimiter` (declared
outside `ATParser.cpp`) sets together with `_delimiter`, is the cached length
of the delimiter string. -/
def Parser.delimSize (P : Parser) : Nat := strlen P.delimiter

/-- `ATParser::oob`: append an entry, caching the length of its prefix. -/
def oob (oobs : List Oob) (pfx : List Char) (cb : World → World) : List Oob :=
  oobs ++ [⟨strlen pfx, pfx, cb⟩]

/-- `ATParser::getc`: the next read outcome. -/
def getc (w : World) : Option Char × World :=
  match w.rx with
  | [] => (none, w)
  | r :: rest => (r, { w with rx := rest })

/-- `ATParser::putc`: the next write outcome. -/
def putc (w : World) (c : Char) : Bool × World :=
  match w.txq with
  | [] => (false, w)
  | ok :: q =>
    if ok then (true, { w with txq := q, tx := w.tx ++ [c] })
    else (false, { w with txq := q })

/-! ## The template compiler -/

/-- The loop of `vrecv` (lines 214-225) that copies one line of the response
template `resp + p` into the buffer, turning captures into discards. Returns
the final `i`, `offset` and buffer; `none` is a write past the buffer. Every
iteration that continues writes at least one byte, so `bufferSize + 1`
iterations always suffice. -/
def compileLine (P : Parser) (resp : Mem) (p : Int) :
    Nat → Nat → Nat → Mem → Option (Nat × Nat × Mem)
  | 0, _, _, _ => none
  | fuel + 1, i, offset, buf =>
    if resp (p + i) = NUL then some (i, offset, buf)
    else if memEq resp (p + i + 1 - P.delimSize) (P.delimiter.take P.delimSize) then
      some (i + 1, offset, buf)
    else if resp (p + i) = '%' ∧ resp (p + i + 1) ≠ '%' ∧ resp (p + i + 1) ≠ '*' then
      if offset + 1 < P.bufferSize then
        compileLine P resp p fuel (i + 1) (offset + 2)
          ((buf.set offset '%').set (offset + 1) '*')
      else none
    else
      if offset < P.bufferSize then
        compileLine P resp p fuel (i + 1) (offset + 1) (buf.set offset (resp (p + i)))
      else none

/-- Lines 230-232: append the consumed-length marker and the terminator. -/
def appendMarker (P : Parser) (offset : Nat) (buf : Mem) : Option (Nat × Mem) :=
  if offset + 2 < P.bufferSize then
    some (offset + 3, ((buf.set offset '%').set (offset + 1) 'n').set (offset + 2) NUL)
  else none

/-! ## The matcher -/

/-- The value of `count` after `sscanf(input, format, &count)` when `count`
was `-1` before: the first value stored, if any. -/
def countOf : List Val → Int
  | Val.cnt n :: _ => n
  | Val.int v :: _ => v
  | _ => -1

/-- The loop over `_oobs` (lines 253-276): the first entry, with its index,
whose length is `j` and whose prefix equals the accumulated bytes, provided
the dispatch flag is set. -/
def oobScan (buf : Mem) (offset j : Nat) (t : Bool) : List Oob → Nat → Option (Nat × Oob)
  | [], _ => none
  | o :: rest, k =>
    if t = true ∧ j = o.len ∧ memEq buf offset (o.pfx.take o.len) = true then some (k, o)
    else oobScan buf offset j t rest (k + 1)

/-- What `vrecv` did, in order (ghost state, for stating properties of a call). -/
inductive Event
  | byte (c : Char)
  | timeout
  | compiled (p : Int) (i offset : Nat)
  | oob (k : Nat) (acc : List Char)
  | matched (acc : List Char) (vals : List Val)
  | discard (acc : List Char)
  deriving DecidableEq

/-- Control points of `vrecv`: `start p` is the label `vrecv_start` with
`response = p`; `reading p i offset j` is the head of the inner loop;
`ret b` is `return b`; `undef` is a write outside the buffer. -/
inductive Ctl
  | start (p : Int)
  | reading (p : Int) (i offset j : Nat)
  | ret (b : Bool)
  | undef
  deriving DecidableEq

/-- Machine state: the shared resources, the values stored by the second
(value-extracting) pass of each matched line, and the event log. -/
structure St where
  w : World
  stored : List (List Val)
  events : List Event

/-- One control step of `vrecv` on the template memory `resp`. -/
def step (P : Parser) (resp : Mem) : Ctl → St → Ctl × St
  | Ctl.start p, s =>
    if resp p = NUL then (Ctl.ret true, s)
    else
      match compileLine P resp p (P.bufferSize + 1) 0 0 s.w.buf with
      | none => (Ctl.undef, s)
      | some (i, off, buf) =>
        match appendMarker P off buf with
        | none => (Ctl.undef, s)
        | some (offset, buf) =>
          (Ctl.reading p i offset 0,
            { s with w := { s.w with buf := buf },
                     events := s.events ++ [Event.compiled p i offset] })
  | Ctl.reading p i offset j, s =>
    match getc s.w with
    | (none, w) => (Ctl.ret false, { s with w := w, events := s.events ++ [Event.timeout] })
    | (some c, w) =>
      if offset + j + 1 < P.bufferSize then
        let buf := (w.buf.set (offset + j) c).set (offset + j + 1) NUL
        let j := j + 1
        let acc := slice buf offset j
        match oobScan buf offset j w.t P.oobs 0 with
        | some (k, o) =>
          let w1 := o.cb { w with buf := buf, t := false }
          (Ctl.start p,
            { s with w := { w1 with t := true },
                     events := s.events ++ [Event.byte c, Event.oob k acc] })
        | none =>
          let count := countOf (P.sscanf (cstr buf offset P.bufferSize) (cstr buf 0 P.bufferSize))
          if count = j then
            if i < P.bufferSize then
              let buf2 := (memcpy buf resp p i).set i NUL
              let vals := P.sscanf (cstr buf2 offset P.bufferSize) (cstr buf2 0 P.bufferSize)
              (Ctl.start (p + i),
                { s with w := { w with buf := buf2 },
                         stored := s.stored ++ [vals],
                         events := s.events ++ [Event.byte c, Event.matched acc vals] })
            else (Ctl.undef, { s with w := { w with buf := buf } })
          else if (j : Int) + 1 ≥ (P.bufferSize : Int) - offset ∨
              strEq buf ((offset : Int) + j - P.delimSize) (P.delimiter.take P.delimSize) = true then
            (Ctl.reading p i offset 0,
              { s with w := { w with buf := buf },
                       events := s.events ++ [Event.byte c, Event.discard acc] })
          else
            (Ctl.reading p i offset j,
              { s with w := { w with buf := buf }, events := s.events ++ [Event.byte c] })
      else (Ctl.undef, { s with w := w })
  | Ctl.ret b, s => (Ctl.ret b, s)
  | Ctl.undef, s => (Ctl.undef, s)

/-- Run at most `fuel` control steps. -/
def run (P : Parser) (resp : Mem) : Nat → Ctl → St → Ctl × St
  | 0, c, s => (c, s)
  | fuel + 1, c, s => run P resp fuel (step P resp c s).1 (step P resp c s).2

/-- `ATParser::vrecv` on the template at `resp + p`, run for `fuel` steps. -/
def vrecv (P : Parser) (resp : Mem) (p : Int) (fuel : Nat) (w : World) : Ctl × St :=
  run P resp fuel (Ctl.start p) ⟨w, [], []⟩

/-- Reading of an event log: the bytes read since the last reset (a line
compiled, a handler invoked, a line matched or discarded), starting from
`cur`; `none` when some logged accumulation differs from the bytes read since
the reset before it. -/
def replay : List Event → List Char → Option (List Char)
  | [], cur => some cur
  | Event.byte c :: es, cur => replay es (cur ++ [c])
  | Event.timeout :: es, cur => replay es cur
  | Event.compiled _ _ _ :: es, _ => replay es []
  | Event.oob _ acc :: es, cur => if acc = cur then replay es [] else none
  | Event.matched acc _ :: es, cur => if acc = cur then replay es [] else none
  | Event.discard acc :: es, cur => if acc = cur then replay es [] else none

/-! ## Sending -/

/-- A loop `for (...) if (putc(c) < 0) return false;` over the bytes `l`:
whether every write succeeded, and the resources afterwards. -/
def putAll : List Char → World → Bool × World
  | [], w => (true, w)
  | c :: l, w => if (putc w c).1 then putAll l (putc w c).2 else (false, (putc w c).2)

/-- `ATParser::vsend`: format the command into the buffer, write the C string
found there, then the delimiter. `none` is a write past the buffer by
`vsprintf` (which is not given the buffer size). -/
def vsend (P : Parser) (command : List Char) (args : List Val) (w : World) :
    Option (Bool × World) :=
  match P.vsprintf command args with
  | none => some (false, w)
  | some s =>
    if s.length < P.bufferSize then
      if (putAll (cstr ((w.buf.write 0 s).set s.length NUL) 0 P.bufferSize)
          { w with buf := (w.buf.write 0 s).set s.length NUL }).1 then
        some (putAll (cstrOf P.delimiter)
          (putAll (cstr ((w.buf.write 0 s).set s.length NUL) 0 P.bufferSize)
            { w with buf := (w.buf.write 0 s).set s.length NUL }).2)
      else
        some (false,
          (putAll (cstr ((w.buf.write 0 s).set s.length NUL) 0 P.bufferSize)
            { w with buf := (w.buf.write 0 s).set s.length NUL }).2)
    else none

/-! ## The C library on the fragment of formats used here -/

/-- The C locale's `isspace`. -/
def isSpace (c : Char) : Bool :=
  c = ' ' || c = '\t' || c = '\n' || c = Char.ofNat 11 || c = Char.ofNat 12 || c = '\r'

/-- The C locale's `isdigit`. -/
def isDigit (c : Char) : Bool := decide ('0' ≤ c) && decide (c ≤ '9')

/-- Drop leading white space. -/
def skipSpace (inp : List Char) : List Char := inp.dropWhile isSpace

/-- Value of a run of decimal digits. -/
def digitsVal (ds : List Char) : Nat := ds.foldl (fun a d => 10 * a + (d.toNat - 48)) 0

/-- The input item of `%d`: an optional sign followed by at least one digit.
Returns the value and the remaining input; `none` is a matching failure. -/
def scanInt (inp : List Char) : Option (Int × List Char) :=
  let body : List Char → Option (Nat × List Char) := fun r =>
    if (r.takeWhile isDigit).isEmpty then none
    else some (digitsVal (r.takeWhile isDigit), r.dropWhile isDigit)
  match inp with
  | [] => none
  | c :: r =>
    if c = '-' then (body r).map (fun x => (-(x.1 : Int), x.2))
    else if c = '+' then (body r).map (fun x => ((x.1 : Int), x.2))
    else (body (c :: r)).map (fun x => ((x.1 : Int), x.2))

/-- Execute the conversion `d` (`%`, `n`, `d`, `s` or `c`, without width or
length modifier) on `inp` when `n` characters were consumed before it.
Returns the converted value (if the conversion has one), the remaining input
and the new consumed count; `none` is a failure, or a conversion outside the
modelled fragment. -/
def scanConv (d : Char) (inp : List Char) (n : Nat) : Option (Option Val × List Char × Nat) :=
  if d = 'n' then some (some (Val.cnt n), inp, n)
  else if d = 'c' then
    match inp with
    | [] => none
    | x :: r => some (some (Val.chr x), r, n + 1)
  else if d = '%' then
    match skipSpace inp with
    | [] => none
    | x :: r => if x = '%' then some (none, r, n + (inp.length - r.length)) else none
  else if d = 'd' then
    match scanInt (skipSpace inp) with
    | none => none
    | some (v, r) => some (some (Val.int v), r, n + (inp.length - r.length))
  else if d = 's' then
    if ((skipSpace inp).takeWhile (fun c => !isSpace c)).isEmpty then none
    else
      some (some (Val.str ((skipSpace inp).takeWhile (fun c => !isSpace c))),
        (skipSpace inp).dropWhile (fun c => !isSpace c),
        n + (inp.length - ((skipSpace inp).dropWhile (fun c => !isSpace c)).length))
  else none

/-- What the head of a format string asks for: white space, an ordinary
character, a conversion (with or without assignment suppression), or a
conversion that is cut short. -/
inductive Dir
  | space
  | ordinary (c : Char)
  | conv (suppress : Bool) (d : Char)
  | invalid
  deriving DecidableEq

/-- Split the first directive off a format. -/
def nextDir : List Char → Option (Dir × List Char)
  | [] => none
  | c :: f =>
    if c = '%' then
      match f with
      | [] => some (Dir.invalid, [])
      | d :: f1 =>
        if d = '*' then
          match f1 with
          | [] => some (Dir.invalid, [])
          | e :: f2 => some (Dir.conv true e, f2)
        else some (Dir.conv false d, f1)
    else if isSpace c then some (Dir.space, f)
    else some (Dir.ordinary c, f)

/-- The directives of `sscanf` executed left to right on the input, `n`
being the number of characters consumed so far; the result lists the values
stored. Scanning stops at the first failure. The first argument bounds the
number of directives executed. -/
def libcScanGo : Nat → List Char → List Char → Nat → List Val
  | 0, _, _, _ => []
  | fuel + 1, fmt, inp, n =>
    match nextDir fmt with
    | none => []
    | some (Dir.invalid, _) => []
    | some (Dir.space, f) =>
      libcScanGo fuel f (skipSpace inp) (n + (inp.length - (skipSpace inp).length))
    | some (Dir.ordinary c, f) =>
      match inp with
      | [] => []
      | x :: r => if x = c then libcScanGo fuel f r (n + 1) else []
    | some (Dir.conv suppress d, f) =>
      match scanConv d inp n with
      | none => []
      | some x =>
        if suppress then libcScanGo fuel f x.2.1 x.2.2
        else x.1.toList ++ libcScanGo fuel f x.2.1 x.2.2

/-- ISO C `sscanf(input, format, ...)` on the modelled fragment. A directive
takes at least one character of the format, so `|format| + 1` rounds reach
its end. -/
def libcScan (input format : List Char) : List Val :=
  libcScanGo (format.length + 1) format input 0

/-- Decimal digits of a natural number. -/
def decimal (n : Nat) : List Char := Nat.toDigits 10 n

/-- `%d` applied to an integer. -/
def printInt (v : Int) : List Char :=
  if v < 0 then '-' :: decimal v.natAbs else decimal v.natAbs

/-- ISO C `vsprintf(format, args)` on the modelled fragment: ordinary
characters, `%%`, `%d`, `%s`, `%c`. `none` is a negative return value (here:
a directive outside the fragment or an argument of the wrong kind). -/
def libcPrint : List Char → List Val → Option (List Char)
  | [], _ => some []
  | c :: f, args =>
    if c = '%' then
      match f with
      | [] => none
      | d :: f1 =>
        if d = '%' then (libcPrint f1 args).map (fun r => '%' :: r)
        else
          match d, args with
          | 'd', Val.int v :: rest => (libcPrint f1 rest).map (fun r => printInt v ++ r)
          | 's', Val.str s :: rest => (libcPrint f1 rest).map (fun r => s ++ r)
          | 'c', Val.chr x :: rest => (libcPrint f1 rest).map (fun r => x :: r)
          | _, _ => none
    else (libcPrint f args).map (fun r => c :: r)

/-! ## List-level counterparts of the buffer reads -/

/-- The capture-to-discard rewrite performed by the compile loops, as a
function on the text of a line; `nxt` is the byte that follows the line in
memory (the loops look one byte ahead of a `%`). -/
def discardVariant : List Char → Char → List Char
  | [], _ => []
  | c :: rest, nxt =>
    if c = '%' ∧ rest.headD nxt ≠ '%' ∧ rest.headD nxt ≠ '*' then
      '%' :: '*' :: discardVariant rest nxt
    else c :: discardVariant rest nxt

/-- A template string `s` laid out at address `0`, after arbitrary memory
`behind` and followed by its terminator. -/
def strMem (behind : Mem) (s : List Char) : Mem :=
  fun a => if a < 0 then behind a else s.getD a.toNat NUL

/-- List-level form of `oobScan`: `acc` are the accumulated bytes. -/
def oobFind (acc : List Char) (t : Bool) : List Oob → Nat → Option (Nat × Oob)
  | [], _ => none
  | o :: rest, k =>
    if t = true ∧ acc.length = o.len ∧
        acc.take (o.pfx.take o.len).length = o.pfx.take o.len then some (k, o)
    else oobFind acc t rest (k + 1)

/-- List-level form of the `strcmp` of line 311: the accumulated bytes end
with the delimiter. -/
def endsWithDelim (P : Parser) (acc : List Char) : Bool :=
  decide (P.delimSize ≤ acc.length ∧
    acc.drop (acc.length - P.delimSize) = P.delimiter.take P.delimSize)

/-- The buffer holds the compiled template `fmt` with its terminator in
`[0, offset)` and the accumulated bytes `acc` from `offset` on. -/
structure Ready (N : Nat) (buf : Mem) (fmt acc : List Char) (offset : Nat) : Prop where
  hoff : offset = fmt.length + 1
  hfmt : slice buf 0 fmt.length = fmt
  hfnul : buf fmt.length = NUL
  hclean : NUL ∉ fmt
  hacc : slice buf offset acc.length = acc
  hN : offset ≤ N

/-- How the inner loop of one line ends: a read timed out, the handler of
entry `k` was dispatched, the line matched (with the values of the second
pass), or a write left the buffer. `evs` are the events logged, `rest` the
read outcomes not yet consumed. -/
inductive LineEnd
  | timeout (evs : List Event) (rest : List (Option Char))
  | fired (k : Nat) (evs : List Event) (rest : List (Option Char))
  | matched (vals : List Val) (evs : List Event) (rest : List (Option Char))
  | overflow
  deriving DecidableEq

/-- The inner loop of `vrecv` for one line, on lists: `fmt` is the compiled
template, `line` the text of the line, `acc` the bytes accumulated so far,
`evs` the events logged so far. -/
def lineLoop (P : Parser) (fmt line : List Char) (offset : Nat) (t : Bool) :
    List (Option Char) → List Char → List Event → LineEnd
  | [], _, evs => LineEnd.timeout (evs ++ [Event.timeout]) []
  | none :: rest, _, evs => LineEnd.timeout (evs ++ [Event.timeout]) rest
  | some c :: rest, acc, evs =>
    if offset + acc.length + 1 < P.bufferSize then
      match oobFind (acc ++ [c]) t P.oobs 0 with
      | some (k, _) =>
        LineEnd.fired k (evs ++ [Event.byte c, Event.oob k (acc ++ [c])]) rest
      | none =>
        if countOf (P.sscanf (cstrOf (acc ++ [c])) fmt) = ((acc ++ [c]).length : Nat) then
          LineEnd.matched (P.sscanf (cstrOf (acc ++ [c])) (cstrOf line))
            (evs ++ [Event.byte c, Event.matched (acc ++ [c])
              (P.sscanf (cstrOf (acc ++ [c])) (cstrOf line))]) rest
        else if P.bufferSize ≤ (acc ++ [c]).length + 1 + offset ∨
            endsWithDelim P (acc ++ [c]) = true then
          lineLoop P fmt line offset t rest [] (evs ++ [Event.byte c, Event.discard (acc ++ [c])])
        else lineLoop P fmt line offset t rest (acc ++ [c]) (evs ++ [Event.byte c])
    else LineEnd.overflow

/-- The values of the second pass when the inner loop ended with a match. -/
def LineEnd.vals? : LineEnd → Option (List Val)
  | LineEnd.matched vals _ _ => some vals
  | _ => none

/-- The machine configuration `cfg` is the one in which the inner loop of the
line at `p` ends as `e`, when it was entered with the resources `w`, the stored
values `stored` and the events `ev0`. The final contents of the buffer are
left open. -/
def EndsIn (P : Parser) (p : Int) (i : Nat) (w : World) (stored : List (List Val))
    (ev0 : List Event) : LineEnd → Ctl × St → Prop
  | LineEnd.timeout evs rest, cfg =>
    ∃ buf, cfg = (Ctl.ret false, ⟨⟨rest, w.txq, w.tx, buf, w.t⟩, stored, ev0 ++ evs⟩)
  | LineEnd.matched vals evs rest, cfg =>
    ∃ buf, cfg = (Ctl.start (p + i), ⟨⟨rest, w.txq, w.tx, buf, w.t⟩, stored ++ [vals], ev0 ++ evs⟩)
  | LineEnd.fired k evs rest, cfg =>
    ∃ buf o, P.oobs.get? k = some o ∧
      cfg = (Ctl.start p,
        ⟨{ o.cb ⟨rest, w.txq, w.tx, buf, false⟩ with t := true }, stored, ev0 ++ evs⟩)
  | LineEnd.overflow, cfg => cfg.1 = Ctl.undef

/-- The parser with the C library of `libcScan` and `libcPrint`. -/
def stdParser (bufferSize : Nat) (delimiter : List Char) (oobs : List Oob) : Parser :=
  ⟨bufferSize, delimiter, oobs, libcScan, libcPrint⟩

/-- A channel that delivers the bytes of `input` and then falls silent (and
accepts no write), with buffer contents `buf` and dispatch enabled. -/
def rxWorld (input : List Char) (buf : Mem) : World :=
  ⟨input.map some, [], [], buf, true⟩

/-! ## Literal templates and discarded input -/

/-- A literal template: no conversion and no white space. -/
def Literal (L : List Char) : Prop := ∀ c ∈ L, c ≠ '%' ∧ isSpace c = false

/-- A chunk of input that the inner loop of the line `L` discards as a whole:
it ends with the delimiter, none of its shorter non-empty prefixes does, it
leaves room in the buffer, and none of its prefixes is `L`. -/
def IsChunk (P : Parser) (L : List Char) (offset : Nat) (c : List Char) : Prop :=
  c ≠ [] ∧ endsWithDelim P c = true ∧
    (∀ m, m < c.length → 1 ≤ m → endsWithDelim P (c.take m) = false) ∧
    c.length + 1 + offset < P.bufferSize ∧
    ∀ m, m < c.length + 1 → c.take m ≠ L

/-- A run of input bytes that the inner loop of the line `L` accumulates and
then drops: it is not empty, none of its prefixes is `L`, and it stops at the
first point where it ends with the delimiter or fills the buffer. -/
def Discard (P : Parser) (L : List Char) (offset : Nat) (c : List Char) : Prop :=
  c ≠ [] ∧ offset + c.length < P.bufferSize ∧
    (∀ m, m < c.length + 1 → c.take m ≠ L) ∧
    (∀ m, m < c.length → 1 ≤ m →
      endsWithDelim P (c.take m) = false ∧ m + 1 + offset < P.bufferSize) ∧
    (endsWithDelim P c = true ∨ P.bufferSize ≤ c.length + 1 + offset)

/-- The accumulation `acc` never reaches a match or a reset: every non-empty
prefix of it differs from `L`, does not end with the delimiter and leaves
room in the buffer. -/
def Clean (P : Parser) (L : List Char) (offset : Nat) (acc : List Char) : Prop :=
  ∀ m, m < acc.length + 1 → 1 ≤ m →
    acc.take m ≠ L ∧ endsWithDelim P (acc.take m) = false ∧ m + 1 + offset < P.bufferSize

/-! ## Single-shot `scanf` -/

/-- The loop of `vscanf` (lines 116-124) that copies the format into the
buffer, turning captures into discards. The format is given by its bytes; the
loop stops at its terminator and reads no byte after it (`format[i+1]` is at
most the terminator). Returns the final `offset` and buffer; `none` is a write
past the buffer. -/
def compileFormat (P : Parser) : List Char → Nat → Mem → Option (Nat × Mem)
  | [], offset, buf => some (offset, buf)
  | c :: rest, offset, buf =>
    if c = NUL then some (offset, buf)
    else if c = '%' ∧ rest.headD NUL ≠ '%' ∧ rest.headD NUL ≠ '*' then
      if offset + 1 < P.bufferSize then
        compileFormat P rest (offset + 2) ((buf.set offset '%').set (offset + 1) '*')
      else none
    else
      if offset < P.bufferSize then compileFormat P rest (offset + 1) (buf.set offset c)
      else none

/-- What `vscanf` returns: the `int` result (the number of bytes read on
success, `0` for `false`, `-1` for a timed-out read), the resources afterwards
and the values stored by the second pass. -/
structure ScanRes where
  ret : Int
  w : World
  stored : List Val

/-- The loop of `vscanf` (lines 142-165) on the read outcomes `rx`, with `j`
bytes accumulated at `offset`. `none` is a write outside the buffer. -/
def scanLoop (P : Parser) (format : List Char) (offset : Nat) (w : World) :
    List (Option Char) → Nat → Mem → Option ScanRes
  | rx, j, buf =>
    if (j : Int) + 1 ≥ (P.bufferSize : Int) - offset then
      some ⟨0, { w with rx := rx, buf := buf }, []⟩
    else
      match rx with
      | [] => some ⟨-1, { w with rx := [], buf := buf }, []⟩
      | none :: rest => some ⟨-1, { w with rx := rest, buf := buf }, []⟩
      | some c :: rest =>
        if offset + j + 1 < P.bufferSize then
          if countOf (P.sscanf
                (cstr ((buf.set (offset + j) c).set (offset + j + 1) NUL) offset P.bufferSize)
                (cstr ((buf.set (offset + j) c).set (offset + j + 1) NUL) 0 P.bufferSize))
              = ((j + 1 : Nat) : Int) then
            some ⟨((j + 1 : Nat) : Int),
              { w with rx := rest, buf := (buf.set (offset + j) c).set (offset + j + 1) NUL },
              P.sscanf
                (cstr ((buf.set (offset + j) c).set (offset + j + 1) NUL) offset P.bufferSize)
                (cstrOf format)⟩
          else
            scanLoop P format offset w rest (j + 1)
              ((buf.set (offset + j) c).set (offset + j + 1) NUL)
        else none

/-- `ATParser::vscanf`: compile the format, append the marker, run the loop. -/
def vscanf (P : Parser) (format : List Char) (w : World) : Option ScanRes :=
  match compileFormat P format 0 w.buf with
  | none => none
  | some (off, buf) =>
    match appendMarker P off buf with
    | none => none
    | some (offset, buf) => scanLoop P format offset w w.rx 0 buf

/-! ## Templates spelled as literal characters and captures (the view of the specification) -/

/-- An element of a template without escapes: a literal character or a capture
directive `%c`. -/
inductive TItem
  | lit (c : Char)
  | cap (c : Char)
  deriving DecidableEq

/-- The text of an element in the template. -/
def TItem.text : TItem → List Char
  | TItem.lit c => [c]
  | TItem.cap c => ['%', c]

/-- The text of an element with the capture `%c` replaced by `%*c`. -/
def TItem.discard : TItem → List Char
  | TItem.lit c => [c]
  | TItem.cap c => ['%', '*', c]

/-- A literal character is not `%`, the character of a capture is neither `%`
nor `*`, and no character is the terminator. -/
def TItem.ok : TItem → Prop
  | TItem.lit c => c ≠ '%' ∧ c ≠ NUL
  | TItem.cap c => c ≠ '%' ∧ c ≠ '*' ∧ c ≠ NUL

/-- The template spelled by a list of elements. -/
def templateOf (items : List TItem) : List Char := (items.map TItem.text).flatten

/-- The template with every capture `%c` replaced by `%*c`. -/
def discardOf (items : List TItem) : List Char := (items.map TItem.discard).flatten

/-- The number of capture directives. -/
def numCaps (items : List TItem) : Nat :=
  (items.filter (fun it => match it with | TItem.cap _ => true | TItem.lit _ => false)).length

/-! ## Basic facts about memory -/

theorem Mem.set_same (m : Mem) (a : Int) (c : Char) : (m.set a c) a = c := by
  simp [Mem.set]

theorem Mem.set_other (m : Mem) {a k : Int} (c : Char) (h : k ≠ a) : (m.set a c) k = m k := by
  simp [Mem.set, h]

theorem slice_length (m : Mem) (a : Int) (n : Nat) : (slice m a n).length = n := by
  induction n generalizing a with
  | zero => rfl
  | succ n ih => simp [slice, ih]

theorem slice_congr {m m2 : Mem} {a : Int} {n : Nat}
    (h : ∀ k : Nat, k < n → m2 (a + k) = m (a + k)) : slice m2 a n = slice m a n := by
  induction n generalizing a with
  | zero => rfl
  | succ n ih =>
    simp only [slice]
    have h0 := h 0 (Nat.succ_pos n)
    simp only [Nat.cast_zero, add_zero] at h0
    rw [h0, ih]
    intro k hk
    have := h (k + 1) (Nat.succ_lt_succ hk)
    simpa [add_assoc, add_comm 1 (k : Int)] using this

theorem slice_ext {m m2 : Mem} {a b : Int} {n : Nat}
    (h : ∀ k : Nat, k < n → m2 (a + k) = m (b + k)) : slice m2 a n = slice m b n := by
  induction n generalizing a b with
  | zero => rfl
  | succ n ih =>
    simp only [slice]
    have h0 := h 0 (Nat.succ_pos n)
    simp only [Nat.cast_zero, add_zero] at h0
    rw [h0, ih]
    intro k hk
    have := h (k + 1) (Nat.succ_lt_succ hk)
    simpa [add_assoc, add_comm 1 (k : Int)] using this

theorem slice_snoc (m : Mem) (a : Int) (n : Nat) :
    slice m a (n + 1) = slice m a n ++ [m (a + n)] := by
  induction n generalizing a with
  | zero => simp [slice]
  | succ n ih =>
    rw [slice, ih (a + 1)]
    simp [slice, add_assoc, add_comm 1 (n : Int)]

theorem slice_eq_cons {m : Mem} {a : Int} {n : Nat} {c : Char} {l : List Char}
    (h : slice m a n = c :: l) : m a = c ∧ slice m (a + 1) l.length = l := by
  cases n with
  | zero => simp [slice] at h
  | succ n =>
    simp only [slice, List.cons.injEq] at h
    have hl : l.length = n := by rw [← h.2, slice_length]
    exact ⟨h.1, by rw [hl]; exact h.2⟩

theorem slice_get {m : Mem} {a : Int} {l : List Char} (h : slice m a l.length = l)
    (k : Nat) (hk : k < l.length) : m (a + k) = l.get ⟨k, hk⟩ := by
  induction l generalizing a k with
  | nil => simp at hk
  | cons c l ih =>
    have h2 := slice_eq_cons h
    cases k with
    | zero => simpa using h2.1
    | succ k =>
      have := ih h2.2 k (Nat.lt_of_succ_lt_succ hk)
      simpa [add_assoc, add_comm 1 (k : Int)] using this

theorem memEq_iff (m : Mem) (a : Int) (l : List Char) :
    memEq m a l = true ↔ slice m a l.length = l := by
  induction l generalizing a with
  | nil => simp [memEq, slice]
  | cons c l ih => simp [memEq, slice, ih]

theorem strEq_iff (m : Mem) (a : Int) (l : List Char) :
    strEq m a l = true ↔ slice m a l.length = l ∧ m (a + l.length) = NUL := by
  induction l generalizing a with
  | nil => simp [strEq, slice]
  | cons c l ih =>
    simp [strEq, slice, ih, add_assoc, add_comm 1 (l.length : Int), and_assoc]

theorem cstr_eq_cstrOf {m : Mem} {a : Int} {l : List Char} {bound : Nat}
    (h : slice m a l.length = l) (hnul : m (a + l.length) = NUL) (hb : l.length < bound) :
    cstr m a bound = cstrOf l := by
  induction l generalizing a bound with
  | nil =>
    cases bound with
    | zero => simp at hb
    | succ b =>
      have : m a = NUL := by simpa using hnul
      simp [cstr, cstrOf, this]
  | cons c l ih =>
    cases bound with
    | zero => simp at hb
    | succ b =>
      have h2 := slice_eq_cons h
      have hn : m (a + 1 + l.length) = NUL := by
        have : a + 1 + (l.length : Int) = a + ((c :: l).length : Nat) := by
          simp [add_assoc, add_comm 1 (l.length : Int)]
        rw [this]; exact hnul
      have hb2 : l.length < b := by simpa using hb
      by_cases hc : c = NUL
      · simp [cstr, cstrOf, h2.1, hc]
      · simp [cstr, cstrOf, h2.1, hc, ih h2.2 hn hb2]

theorem cstrOf_eq_self {l : List Char} (h : NUL ∉ l) : cstrOf l = l := by
  induction l with
  | nil => rfl
  | cons c l ih =>
    simp only [List.mem_cons, not_or] at h
    have hc : c ≠ NUL := fun e => h.1 e.symm
    simp [cstrOf, hc, ih h.2]

theorem cstrOf_not_mem (l : List Char) : NUL ∉ cstrOf l := by
  induction l with
  | nil => simp [cstrOf]
  | cons c l ih =>
    by_cases hc : c = NUL
    · simp [cstrOf, hc]
    · have hc2 : ¬ NUL = c := fun e => hc e.symm
      simp [cstrOf, hc, hc2, ih]

theorem take_strlen (l : List Char) : l.take (strlen l) = cstrOf l := by
  induction l with
  | nil => rfl
  | cons c l ih =>
    simp only [strlen] at ih ⊢
    by_cases hc : c = NUL
    · simp [cstrOf, hc]
    · simp [cstrOf, hc, ih]

theorem Mem.write_out (m : Mem) (a : Int) (l : List Char) (k : Int)
    (h : k < a ∨ a + l.length ≤ k) : (m.write a l) k = m k := by
  induction l generalizing m a with
  | nil => rfl
  | cons c l ih =>
    simp only [Mem.write]
    rw [ih]
    · apply Mem.set_other
      rcases h with h | h
      · omega
      · simp at h; omega
    · rcases h with h | h
      · left; omega
      · right; simp at h; omega

theorem slice_write (m : Mem) (a : Int) (l : List Char) :
    slice (m.write a l) a l.length = l := by
  induction l generalizing m a with
  | nil => rfl
  | cons c l ih =>
    simp only [Mem.write, List.length_cons, slice]
    rw [ih, Mem.write_out _ _ _ _ (Or.inl (by omega)), Mem.set_same]

theorem Mem.write_append (m : Mem) (a : Int) (l1 l2 : List Char) :
    m.write a (l1 ++ l2) = (m.write a l1).write (a + l1.length) l2 := by
  induction l1 generalizing m a with
  | nil => simp [Mem.write]
  | cons c l ih =>
    change (m.set a c).write (a + 1) (l ++ l2) = _
    rw [ih]
    have e : a + 1 + (l.length : Int) = a + ((l.length + 1 : Nat) : Int) := by
      push_cast; ring
    simp only [Mem.write, List.length_cons, e]

/-! ## The compile loop computes the discard variant -/

theorem headD_of_slice {m : Mem} {a : Int} {rest : List Char}
    (h : slice m a rest.length = rest) : rest.headD (m (a + rest.length)) = m a := by
  cases rest with
  | nil => simp
  | cons c l => simpa using (slice_eq_cons h).1.symm

/-- The compile loop of `vrecv`, started at index `i` of a line whose
remaining text is `rem` (NUL-free, no delimiter ending inside it) and which is
followed in memory by the terminator or by the last byte of a delimiter,
writes the discard variant of `rem` at `offset` and stops behind the line. -/
theorem compileLine_spec (P : Parser) (resp : Mem) (p : Int) (rem : List Char) :
    ∀ (fuel i offset : Nat) (buf : Mem),
      slice resp (p + i) rem.length = rem →
      NUL ∉ rem →
      (∀ k : Nat, k < rem.length →
        memEq resp (p + i + k + 1 - P.delimSize) (P.delimiter.take P.delimSize) = false) →
      (resp (p + i + rem.length) = NUL ∨
        memEq resp (p + i + rem.length + 1 - P.delimSize)
          (P.delimiter.take P.delimSize) = true) →
      offset + (discardVariant rem (resp (p + i + rem.length))).length ≤ P.bufferSize →
      rem.length < fuel →
      compileLine P resp p fuel i offset buf =
        some (if resp (p + i + rem.length) = NUL then i + rem.length else i + rem.length + 1,
              offset + (discardVariant rem (resp (p + i + rem.length))).length,
              buf.write offset (discardVariant rem (resp (p + i + rem.length)))) := by
  induction rem with
  | nil =>
    intro fuel i offset buf _ _ _ hend _ hfuel
    cases fuel with
    | zero => simp at hfuel
    | succ fuel =>
      simp only [List.length_nil, Nat.cast_zero, add_zero] at hend ⊢
      by_cases h0 : resp (p + i) = NUL
      · simp [compileLine, h0, discardVariant, Mem.write]
      · have hd := hend.resolve_left h0
        simp [compileLine, h0, hd, discardVariant, Mem.write]
  | cons c rest ih =>
    intro fuel i offset buf hs hnul hnd hend hfit hfuel
    cases fuel with
    | zero => simp at hfuel
    | succ fuel =>
      have h2 := slice_eq_cons hs
      have hc : resp (p + i) = c := h2.1
      have hcn : c ≠ NUL := fun e => hnul (by simp [e])
      have hrn : NUL ∉ rest := fun e => hnul (List.mem_cons_of_mem _ e)
      have e1 : p + ((i + 1 : Nat) : Int) = p + i + 1 := by push_cast; ring
      have e2 : p + (i : Int) + ((c :: rest).length : Nat) = p + ((i + 1 : Nat) : Int) + rest.length := by
        simp only [List.length_cons]; push_cast; ring
      have hd0 : memEq resp (p + i + 1 - P.delimSize) (P.delimiter.take P.delimSize) = false := by
        have := hnd 0 (by simp)
        simpa using this
      have hs2 : slice resp (p + ((i + 1 : Nat) : Int)) rest.length = rest := by
        rw [e1]; exact h2.2
      have hnd2 : ∀ k : Nat, k < rest.length →
          memEq resp (p + ((i + 1 : Nat) : Int) + k + 1 - P.delimSize)
            (P.delimiter.take P.delimSize) = false := by
        intro k hk
        have := hnd (k + 1) (by simpa using hk)
        have e3 : p + (i : Int) + ((k + 1 : Nat) : Int) + 1 - P.delimSize
            = p + ((i + 1 : Nat) : Int) + k + 1 - P.delimSize := by push_cast; ring
        rw [← e3]; exact this
      have hnext : resp (p + i + 1) = rest.headD (resp (p + i + ((c :: rest).length : Nat))) := by
        rw [e2, ← e1]
        exact (headD_of_slice hs2).symm
      rw [e2] at hend hfit ⊢
      have hfuel2 : rest.length < fuel := by simpa using hfuel
      by_cases hpc : c = '%' ∧ rest.headD (resp (p + ((i + 1 : Nat) : Int) + rest.length)) ≠ '%' ∧
          rest.headD (resp (p + ((i + 1 : Nat) : Int) + rest.length)) ≠ '*'
      · have hdv : discardVariant (c :: rest) (resp (p + ((i + 1 : Nat) : Int) + rest.length))
            = '%' :: '*' :: discardVariant rest (resp (p + ((i + 1 : Nat) : Int) + rest.length)) := by
          simp only [discardVariant]; rw [if_pos hpc]
        rw [hdv] at hfit ⊢
        simp only [List.length_cons] at hfit
        have hcond : resp (p + i) = '%' ∧ resp (p + i + 1) ≠ '%' ∧ resp (p + i + 1) ≠ '*' := by
          rw [hnext, e2, hc]; exact hpc
        have hb : offset + 1 < P.bufferSize := by omega
        rw [compileLine, if_neg (by rw [hc]; exact hcn), hd0, if_neg (by simp), if_pos hcond,
          if_pos hb, ih fuel (i + 1) (offset + 2) _ hs2 hrn hnd2 hend (by omega) hfuel2]
        have e4 : ((offset : Int) + 1) = ((offset + 1 : Nat) : Int) := by push_cast; rfl
        have e5 : ((offset : Int) + 1 + 1) = ((offset + 2 : Nat) : Int) := by push_cast; ring
        simp only [Mem.write, List.length_cons, e4, e5]
        congr 2
        · congr 1
          · omega
          · omega
        · congr 1
          omega
      · have hdv : discardVariant (c :: rest) (resp (p + ((i + 1 : Nat) : Int) + rest.length))
            = c :: discardVariant rest (resp (p + ((i + 1 : Nat) : Int) + rest.length)) := by
          simp only [discardVariant]; rw [if_neg hpc]
        rw [hdv] at hfit ⊢
        simp only [List.length_cons] at hfit
        have hcond : ¬ (resp (p + i) = '%' ∧ resp (p + i + 1) ≠ '%' ∧ resp (p + i + 1) ≠ '*') := by
          rw [hnext, e2, hc]; exact hpc
        have hb : offset < P.bufferSize := by omega
        rw [compileLine, if_neg (by rw [hc]; exact hcn), hd0, if_neg (by simp), if_neg hcond,
          if_pos hb, ih fuel (i + 1) (offset + 1) _ hs2 hrn hnd2 hend (by omega) hfuel2]
        have e4 : ((offset : Int) + 1) = ((offset + 1 : Nat) : Int) := by push_cast; rfl
        simp only [Mem.write, List.length_cons, e4, hc]
        congr 2
        · congr 1
          · omega
          · omega
        · congr 1
          omega

/-! ## Reads of the buffer under the invariant -/

theorem slice_take {m : Mem} {a : Int} {l : List Char} (h : slice m a l.length = l)
    (n : Nat) (hn : n ≤ l.length) : slice m a n = l.take n := by
  induction l generalizing a n with
  | nil =>
    have : n = 0 := by simpa using hn
    subst this; rfl
  | cons c l ih =>
    have h2 := slice_eq_cons h
    cases n with
    | zero => rfl
    | succ n =>
      simp only [slice, List.take_succ_cons, h2.1]
      rw [ih h2.2 n (by simpa using hn)]

theorem slice_drop {m : Mem} {a : Int} {l : List Char} (h : slice m a l.length = l)
    (n : Nat) (hn : n ≤ l.length) : slice m (a + n) (l.length - n) = l.drop n := by
  induction l generalizing a n with
  | nil =>
    have : n = 0 := by simpa using hn
    subst this; rfl
  | cons c l ih =>
    have h2 := slice_eq_cons h
    cases n with
    | zero => simpa using h
    | succ n =>
      have := ih h2.2 n (by simpa using hn)
      have e : a + ((n + 1 : Nat) : Int) = a + 1 + n := by push_cast; ring
      simp only [List.length_cons, List.drop_succ_cons, e, Nat.add_sub_add_right]
      exact this

theorem oobScan_eq_oobFind {buf : Mem} {offset : Nat} {acc : List Char}
    (h : slice buf offset acc.length = acc) (t : Bool) (oobs : List Oob) (k : Nat) :
    oobScan buf offset acc.length t oobs k = oobFind acc t oobs k := by
  induction oobs generalizing k with
  | nil => rfl
  | cons o rest ih =>
    simp only [oobScan, oobFind, ih]
    by_cases hl : acc.length = o.len
    · have hle : (o.pfx.take o.len).length ≤ acc.length := by
        rw [hl]; simp
      have : memEq buf offset (o.pfx.take o.len) = true ↔
          acc.take (o.pfx.take o.len).length = o.pfx.take o.len := by
        rw [memEq_iff, slice_take h _ hle]
      simp only [this]
    · simp [hl]

/-- The two writes of lines 249-250 keep the invariant and terminate the
accumulated text. -/
theorem Ready.push {N : Nat} {buf : Mem} {fmt acc : List Char} {offset : Nat}
    (h : Ready N buf fmt acc offset) (c : Char) :
    Ready N ((buf.set (offset + acc.length) c).set (offset + acc.length + 1) NUL)
        fmt (acc ++ [c]) offset ∧
      ((buf.set (offset + acc.length) c).set (offset + acc.length + 1) NUL)
        (offset + (acc ++ [c]).length) = NUL := by
  have hoff := h.hoff
  refine ⟨⟨h.hoff, ?_, ?_, h.hclean, ?_, h.hN⟩, ?_⟩
  · have e : slice ((buf.set (offset + acc.length) c).set (offset + acc.length + 1) NUL)
        0 fmt.length = slice buf 0 fmt.length := by
      apply slice_congr
      intro k hk
      rw [Mem.set_other _ _ (by omega), Mem.set_other _ _ (by omega)]
    rw [e, h.hfmt]
  · rw [Mem.set_other _ _ (by omega), Mem.set_other _ _ (by omega)]
    exact h.hfnul
  · rw [List.length_append, List.length_singleton, slice_snoc]
    have e : slice ((buf.set (offset + acc.length) c).set (offset + acc.length + 1) NUL)
        offset acc.length = slice buf offset acc.length := by
      apply slice_congr
      intro k hk
      rw [Mem.set_other _ _ (by omega), Mem.set_other _ _ (by omega)]
    rw [e, h.hacc, Mem.set_other _ _ (by omega), Mem.set_same]
  · rw [List.length_append, List.length_singleton]
    have e : (offset : Int) + ((acc.length + 1 : Nat) : Int) = offset + acc.length + 1 := by
      push_cast; ring
    rw [e, Mem.set_same]

theorem Ready.cstr_fmt {N : Nat} {buf : Mem} {fmt acc : List Char} {offset : Nat}
    (h : Ready N buf fmt acc offset) : cstr buf 0 N = fmt := by
  have h1 : slice buf (0 : Int) fmt.length = fmt := h.hfmt
  have h2 : buf ((0 : Int) + fmt.length) = NUL := by simpa using h.hfnul
  have h3 : fmt.length < N := by have := h.hoff; have := h.hN; omega
  rw [cstr_eq_cstrOf h1 h2 h3, cstrOf_eq_self h.hclean]

theorem Ready.cstr_acc {N : Nat} {buf : Mem} {fmt acc : List Char} {offset : Nat}
    (h : Ready N buf fmt acc offset) (hnul : buf (offset + acc.length) = NUL)
    (hb : offset + acc.length < N) : cstr buf offset N = cstrOf acc :=
  cstr_eq_cstrOf h.hacc hnul (by omega)

theorem Ready.strEq_delim {N : Nat} {buf : Mem} {fmt acc : List Char} {offset : Nat}
    (h : Ready N buf fmt acc offset) (hnul : buf (offset + acc.length) = NUL) (P : Parser) :
    strEq buf ((offset : Int) + acc.length - P.delimSize) (P.delimiter.take P.delimSize)
      = endsWithDelim P acc := by
  have hdlen : (P.delimiter.take P.delimSize).length = P.delimSize := by
    rw [Parser.delimSize, take_strlen, strlen]
  have hdn : NUL ∉ P.delimiter.take P.delimSize := by
    rw [Parser.delimSize, take_strlen]; exact cstrOf_not_mem _
  rw [Bool.eq_iff_iff, strEq_iff, endsWithDelim, decide_eq_true_iff, hdlen]
  generalize P.delimiter.take P.delimSize = d at hdlen hdn ⊢
  by_cases hle : P.delimSize ≤ acc.length
  · have e1 : (offset : Int) + acc.length - P.delimSize
        = offset + ((acc.length - P.delimSize : Nat) : Int) := by
      rw [Nat.cast_sub hle]; ring
    have e2 : (offset : Int) + ((acc.length - P.delimSize : Nat) : Int) + P.delimSize
        = offset + acc.length := by
      rw [Nat.cast_sub hle]; ring
    have hsl := slice_drop h.hacc (acc.length - P.delimSize) (Nat.sub_le _ _)
    have e3 : acc.length - (acc.length - P.delimSize) = P.delimSize := by omega
    rw [e3] at hsl
    rw [e1, e2, hsl]
    simp [hle, hnul]
  · constructor
    · intro ⟨hs, _⟩
      exfalso
      have hk : P.delimSize - acc.length - 1 < d.length := by
        rw [hdlen]; omega
      rw [← hdlen] at hs
      have hg := slice_get hs (P.delimSize - acc.length - 1) hk
      have e : (offset : Int) + acc.length - (d.length : Nat)
          + ((P.delimSize - acc.length - 1 : Nat) : Int) = (fmt.length : Nat) := by
        have := h.hoff
        rw [hdlen]
        omega
      rw [e, h.hfnul] at hg
      exact hdn (hg ▸ List.get_mem _ _ _)
    · intro ⟨h1, _⟩
      exact absurd h1 hle

/-! ## One iteration of the inner loop, in terms of the accumulated text -/

theorem memcpy_reads {buf : Mem} (resp : Mem) (p : Int) {i offset : Nat} {acc : List Char} {N : Nat}
    (hi : i < offset) (hacc : slice buf offset acc.length = acc)
    (hnul : buf (offset + acc.length) = NUL) (hb : offset + acc.length < N) :
    cstr ((memcpy buf resp p i).set i NUL) 0 N = cstrOf (slice resp p i) ∧
      cstr ((memcpy buf resp p i).set i NUL) offset N = cstrOf acc := by
  constructor
  · have h1 : slice ((memcpy buf resp p i).set i NUL) (0 : Int) (slice resp p i).length
        = slice resp p i := by
      rw [slice_length]
      apply slice_ext
      intro k hk
      rw [Mem.set_other _ _ (by omega)]
      simp only [memcpy]
      rw [if_pos (by omega)]
      simp
    have h2 : ((memcpy buf resp p i).set i NUL) ((0 : Int) + (slice resp p i).length) = NUL := by
      rw [slice_length]; simp [Mem.set]
    exact cstr_eq_cstrOf h1 h2 (by rw [slice_length]; omega)
  · have h1 : slice ((memcpy buf resp p i).set i NUL) offset acc.length = acc := by
      conv_rhs => rw [← hacc]
      apply slice_congr
      intro k hk
      rw [Mem.set_other _ _ (by omega)]
      simp only [memcpy]
      rw [if_neg (by omega)]
    have h2 : ((memcpy buf resp p i).set i NUL) (offset + acc.length) = NUL := by
      rw [Mem.set_other _ _ (by omega)]
      simp only [memcpy]
      rw [if_neg (by omega)]
      exact hnul
    exact cstr_eq_cstrOf h1 h2 (by omega)

/-- One iteration of the inner loop that reads the byte `c`, written with the
list of accumulated bytes in place of the reads of the buffer. -/
theorem step_reading (P : Parser) (resp : Mem) (p : Int) (i offset : Nat) (s : St)
    (fmt acc : List Char) (c : Char) (rest : List (Option Char))
    (hR : Ready P.bufferSize s.w.buf fmt acc offset)
    (hrx : s.w.rx = some c :: rest)
    (hb : offset + acc.length + 1 < P.bufferSize)
    (hi : i < offset) :
    step P resp (Ctl.reading p i offset acc.length) s =
      match oobFind (acc ++ [c]) s.w.t P.oobs 0 with
      | some (k, o) =>
        (Ctl.start p,
          ⟨{ o.cb ⟨rest, s.w.txq, s.w.tx,
              (s.w.buf.set (offset + acc.length) c).set (offset + acc.length + 1) NUL, false⟩
              with t := true },
            s.stored, s.events ++ [Event.byte c, Event.oob k (acc ++ [c])]⟩)
      | none =>
        if countOf (P.sscanf (cstrOf (acc ++ [c])) fmt) = ((acc ++ [c]).length : Nat) then
          (Ctl.start (p + i),
            ⟨⟨rest, s.w.txq, s.w.tx,
                (memcpy ((s.w.buf.set (offset + acc.length) c).set (offset + acc.length + 1) NUL)
                  resp p i).set i NUL, s.w.t⟩,
              s.stored ++ [P.sscanf (cstrOf (acc ++ [c])) (cstrOf (slice resp p i))],
              s.events ++ [Event.byte c, Event.matched (acc ++ [c])
                (P.sscanf (cstrOf (acc ++ [c])) (cstrOf (slice resp p i)))]⟩)
        else if P.bufferSize ≤ (acc ++ [c]).length + 1 + offset ∨
            endsWithDelim P (acc ++ [c]) = true then
          (Ctl.reading p i offset 0,
            ⟨⟨rest, s.w.txq, s.w.tx,
                (s.w.buf.set (offset + acc.length) c).set (offset + acc.length + 1) NUL, s.w.t⟩,
              s.stored, s.events ++ [Event.byte c, Event.discard (acc ++ [c])]⟩)
        else
          (Ctl.reading p i offset (acc ++ [c]).length,
            ⟨⟨rest, s.w.txq, s.w.tx,
                (s.w.buf.set (offset + acc.length) c).set (offset + acc.length + 1) NUL, s.w.t⟩,
              s.stored, s.events ++ [Event.byte c]⟩) := by
  obtain ⟨hR2, hnul⟩ := hR.push c
  have hlen : (acc ++ [c]).length = acc.length + 1 := by simp
  have hb2 : offset + (acc ++ [c]).length < P.bufferSize := by rw [hlen]; omega
  have hsl : slice ((s.w.buf.set (offset + acc.length) c).set (offset + acc.length + 1) NUL)
      offset (acc.length + 1) = acc ++ [c] := by
    rw [← hlen]; exact hR2.hacc
  have hoob := oobScan_eq_oobFind hR2.hacc s.w.t P.oobs 0
  rw [hlen] at hoob
  have hfmt := hR2.cstr_fmt
  have hacc := hR2.cstr_acc hnul hb2
  have hstr := hR2.strEq_delim hnul P
  have hcp := memcpy_reads resp p hi hR2.hacc hnul hb2
  have hiN : i < P.bufferSize := by omega
  have hge : ((((acc.length + 1 : Nat) : Int) + 1 ≥ (P.bufferSize : Int) - offset)) ↔
      P.bufferSize ≤ (acc ++ [c]).length + 1 + offset := by
    rw [hlen]; omega
  rw [hlen] at hstr
  simp only [step, getc, hrx, if_pos hb, hoob, hsl, hfmt, hacc, hstr, hge, hcp.1, hcp.2,
    if_pos hiN, hlen]

/-! ## Running the machine -/

theorem run_succ (P : Parser) (resp : Mem) (n : Nat) (c : Ctl) (s : St) :
    run P resp (n + 1) c s = run P resp n (step P resp c s).1 (step P resp c s).2 := rfl

theorem run_one (P : Parser) (resp : Mem) (c : Ctl) (s : St) :
    run P resp 1 c s = step P resp c s := rfl

theorem run_add (P : Parser) (resp : Mem) (m n : Nat) (c : Ctl) (s : St) :
    run P resp (m + n) c s = run P resp n (run P resp m c s).1 (run P resp m c s).2 := by
  induction m generalizing c s with
  | zero => simp [run]
  | succ m ih =>
    rw [Nat.succ_add, run_succ, run_succ, ih]

theorem run_ret (P : Parser) (resp : Mem) (n : Nat) (b : Bool) (s : St) :
    run P resp n (Ctl.ret b) s = (Ctl.ret b, s) := by
  induction n with
  | zero => rfl
  | succ n ih => rw [run_succ]; exact ih

theorem run_undef (P : Parser) (resp : Mem) (n : Nat) (s : St) :
    run P resp n Ctl.undef s = (Ctl.undef, s) := by
  induction n with
  | zero => rfl
  | succ n ih => rw [run_succ]; exact ih

/-- Once the machine has returned, more fuel changes nothing. -/
theorem run_mono (P : Parser) (resp : Mem) {n : Nat} {c : Ctl} {s s2 : St} {b : Bool}
    (h : run P resp n c s = (Ctl.ret b, s2)) {m : Nat} (hm : n ≤ m) :
    run P resp m c s = (Ctl.ret b, s2) := by
  obtain ⟨k, rfl⟩ := Nat.exists_eq_add_of_le hm
  rw [run_add, h]
  exact run_ret P resp k b s2

theorem oobFind_get {acc : List Char} {t : Bool} {oobs : List Oob} {k0 k : Nat} {o : Oob}
    (h : oobFind acc t oobs k0 = some (k, o)) :
    k0 ≤ k ∧ oobs.get? (k - k0) = some o ∧ t = true ∧ acc.length = o.len ∧
      acc.take (o.pfx.take o.len).length = o.pfx.take o.len := by
  induction oobs generalizing k0 with
  | nil => simp [oobFind] at h
  | cons o1 rest ih =>
    simp only [oobFind] at h
    split at h
    · next hc =>
      simp only [Option.some.injEq, Prod.mk.injEq] at h
      obtain ⟨rfl, rfl⟩ := h
      exact ⟨le_refl _, by simp, hc.1, hc.2.1, hc.2.2⟩
    · have := ih h
      refine ⟨by omega, ?_, this.2.2⟩
      have e : k - k0 = (k - (k0 + 1)) + 1 := by omega
      rw [e]
      simpa using this.2.1

/-- The inner loop of the machine ends as `lineLoop` computes, within one
step per read outcome (and one more on a silent channel). -/
theorem lineLoop_sim (P : Parser) (resp : Mem) (p : Int) (i offset : Nat) (fmt : List Char)
    (hi : i < offset) (ev0 : List Event) :
    ∀ (rx : List (Option Char)) (acc : List Char) (evs : List Event) (s : St),
      s.w.rx = rx → s.events = ev0 ++ evs → Ready P.bufferSize s.w.buf fmt acc offset →
      ∃ n, n ≤ rx.length + 1 ∧
        EndsIn P p i s.w s.stored ev0
          (lineLoop P fmt (slice resp p i) offset s.w.t rx acc evs)
          (run P resp n (Ctl.reading p i offset acc.length) s) := by
  intro rx
  induction rx with
  | nil =>
    intro acc evs s hrx hev hR
    refine ⟨1, by simp, ?_⟩
    rw [run_one]
    simp only [lineLoop, EndsIn, step, getc, hrx, hev]
    exact ⟨s.w.buf, by simp [← hrx, List.append_assoc]⟩
  | cons r rest ih =>
    intro acc evs s hrx hev hR
    cases r with
    | none =>
      refine ⟨1, by simp, ?_⟩
      rw [run_one]
      simp only [lineLoop, EndsIn, step, getc, hrx, hev]
      exact ⟨s.w.buf, by simp [List.append_assoc]⟩
    | some c =>
      by_cases hb : offset + acc.length + 1 < P.bufferSize
      · have hstep := step_reading P resp p i offset s fmt acc c rest hR hrx hb hi
        obtain ⟨hR2, _⟩ := hR.push c
        simp only [lineLoop, if_pos hb]
        cases hf : oobFind (acc ++ [c]) s.w.t P.oobs 0 with
        | some ko =>
          obtain ⟨k, o⟩ := ko
          refine ⟨1, by simp, ?_⟩
          rw [run_one, hstep, hf]
          have hg := oobFind_get hf
          simp only [EndsIn]
          exact ⟨(s.w.buf.set (offset + acc.length) c).set (offset + acc.length + 1) NUL, o,
            by simpa using hg.2.1, by rw [hev, List.append_assoc]⟩
        | none =>
          rw [hf] at hstep
          simp only at hstep ⊢
          by_cases hm : countOf (P.sscanf (cstrOf (acc ++ [c])) fmt) = ((acc ++ [c]).length : Nat)
          · rw [if_pos hm] at hstep ⊢
            refine ⟨1, by simp, ?_⟩
            rw [run_one, hstep]
            simp only [EndsIn]
            exact ⟨(memcpy ((s.w.buf.set (offset + acc.length) c).set (offset + acc.length + 1) NUL)
              resp p i).set i NUL, by rw [hev, List.append_assoc]⟩
          · rw [if_neg hm] at hstep ⊢
            by_cases hd : P.bufferSize ≤ (acc ++ [c]).length + 1 + offset ∨
                endsWithDelim P (acc ++ [c]) = true
            · rw [if_pos hd] at hstep ⊢
              have hR3 : Ready P.bufferSize
                  ((s.w.buf.set (offset + acc.length) c).set (offset + acc.length + 1) NUL)
                  fmt [] offset :=
                ⟨hR2.hoff, hR2.hfmt, hR2.hfnul, hR2.hclean, rfl, hR2.hN⟩
              obtain ⟨n, hn, hend⟩ := ih [] (evs ++ [Event.byte c, Event.discard (acc ++ [c])])
                ⟨⟨rest, s.w.txq, s.w.tx,
                  (s.w.buf.set (offset + acc.length) c).set (offset + acc.length + 1) NUL, s.w.t⟩,
                  s.stored, s.events ++ [Event.byte c, Event.discard (acc ++ [c])]⟩
                rfl (by simp [hev, List.append_assoc]) hR3
              refine ⟨n + 1, by simp; omega, ?_⟩
              rw [Nat.add_comm, run_add, run_one, hstep]
              exact hend
            · rw [if_neg hd] at hstep ⊢
              obtain ⟨n, hn, hend⟩ := ih (acc ++ [c]) (evs ++ [Event.byte c])
                ⟨⟨rest, s.w.txq, s.w.tx,
                  (s.w.buf.set (offset + acc.length) c).set (offset + acc.length + 1) NUL, s.w.t⟩,
                  s.stored, s.events ++ [Event.byte c]⟩
                rfl (by simp [hev, List.append_assoc]) hR2
              refine ⟨n + 1, by simp; omega, ?_⟩
              rw [Nat.add_comm, run_add, run_one, hstep]
              exact hend
      · refine ⟨1, by simp, ?_⟩
        rw [run_one]
        simp only [lineLoop, if_neg hb, EndsIn, step, getc, hrx]

/-! ## Compiling a line and entering its inner loop -/

theorem discardVariant_length_ge (l : List Char) (nxt : Char) :
    l.length ≤ (discardVariant l nxt).length := by
  induction l with
  | nil => simp [discardVariant]
  | cons c l ih =>
    simp only [discardVariant]
    split <;> simp <;> omega

theorem discardVariant_clean {l : List Char} (nxt : Char) (h : NUL ∉ l) :
    NUL ∉ discardVariant l nxt := by
  induction l with
  | nil => simp [discardVariant]
  | cons c l ih =>
    simp only [List.mem_cons, not_or] at h
    have h1 : NUL ≠ '%' := by decide
    have h2 : NUL ≠ '*' := by decide
    simp only [discardVariant]
    split <;> simp [h.1, ih h.2, h1, h2]

/-- The step taken at `vrecv_start` on a non-empty line: the line is compiled
and the inner loop entered with the buffer ready. -/
theorem step_start (P : Parser) (resp : Mem) (p : Int) (text : List Char) (s : St)
    (hp : resp p ≠ NUL)
    (hs : slice resp p text.length = text) (hn : NUL ∉ text)
    (hnd : ∀ k : Nat, k < text.length →
      memEq resp (p + k + 1 - P.delimSize) (P.delimiter.take P.delimSize) = false)
    (hend : resp (p + text.length) = NUL ∨
      memEq resp (p + text.length + 1 - P.delimSize) (P.delimiter.take P.delimSize) = true)
    (hfit : (discardVariant text (resp (p + text.length))).length + 3 ≤ P.bufferSize) :
    ∃ buf,
      step P resp (Ctl.start p) s =
        (Ctl.reading p (if resp (p + text.length) = NUL then text.length else text.length + 1)
            ((discardVariant text (resp (p + text.length))).length + 3) 0,
          ⟨⟨s.w.rx, s.w.txq, s.w.tx, buf, s.w.t⟩, s.stored,
            s.events ++ [Event.compiled p
              (if resp (p + text.length) = NUL then text.length else text.length + 1)
              ((discardVariant text (resp (p + text.length))).length + 3)]⟩) ∧
      Ready P.bufferSize buf (discardVariant text (resp (p + text.length)) ++ ['%', 'n']) []
        ((discardVariant text (resp (p + text.length))).length + 3) := by
  have hc := compileLine_spec P resp p text (P.bufferSize + 1) 0 0 s.w.buf
    (by simpa using hs) hn (by simpa using hnd) (by simpa using hend)
    (by simp; omega)
    (by have := discardVariant_length_ge text (resp (p + text.length)); omega)
  simp only [Nat.cast_zero, add_zero, Nat.zero_add] at hc
  generalize hdv : discardVariant text (resp (p + text.length)) = dv at hc hfit ⊢
  have hclean : NUL ∉ dv := by rw [← hdv]; exact discardVariant_clean _ hn
  refine ⟨(((s.w.buf.write 0 dv).set dv.length '%').set (dv.length + 1) 'n').set
    (dv.length + 2) NUL, ?_, ?_⟩
  · have hb : dv.length + 2 < P.bufferSize := by omega
    simp only [step, if_neg hp, hc, appendMarker, if_pos hb]
  · refine ⟨by simp, ?_, ?_, ?_, rfl, by omega⟩
    · rw [List.length_append, List.length_cons, List.length_singleton]
      have e : dv.length + (0 + 1 + 1) = dv.length + 1 + 1 := rfl
      rw [e, slice_snoc, slice_snoc]
      have e1 : slice ((((s.w.buf.write 0 dv).set dv.length '%').set (dv.length + 1) 'n').set
          (dv.length + 2) NUL) 0 dv.length = slice (s.w.buf.write 0 dv) 0 dv.length := by
        apply slice_congr
        intro k hk
        rw [Mem.set_other _ _ (by omega), Mem.set_other _ _ (by omega),
          Mem.set_other _ _ (by omega)]
      rw [e1, slice_write]
      have e2 : ((0 : Int) + ((dv.length + 1 : Nat) : Int)) = (dv.length : Int) + 1 := by
        push_cast; ring
      rw [Mem.set_other _ _ (by omega), Mem.set_other _ _ (by omega), zero_add, Mem.set_same, e2,
        Mem.set_other _ _ (by omega), Mem.set_same]
      simp
    · have e : (((dv ++ ['%', 'n']).length : Nat) : Int) = (dv.length : Int) + 2 := by
        simp
      rw [e, Mem.set_same]
    · have h1 : NUL ≠ '%' := by decide
      have h2 : NUL ≠ 'n' := by decide
      simp [hclean, h1, h2]

/-- From `vrecv_start` on a non-empty line, the machine ends the line as
`lineLoop` computes, within one step per read outcome and two more. -/
theorem line_sim (P : Parser) (resp : Mem) (p : Int) (text : List Char) (s : St)
    (hp : resp p ≠ NUL)
    (hs : slice resp p text.length = text) (hn : NUL ∉ text)
    (hnd : ∀ k : Nat, k < text.length →
      memEq resp (p + k + 1 - P.delimSize) (P.delimiter.take P.delimSize) = false)
    (hend : resp (p + text.length) = NUL ∨
      memEq resp (p + text.length + 1 - P.delimSize) (P.delimiter.take P.delimSize) = true)
    (hfit : (discardVariant text (resp (p + text.length))).length + 3 ≤ P.bufferSize) :
    ∃ n, n ≤ s.w.rx.length + 2 ∧
      EndsIn P p (if resp (p + text.length) = NUL then text.length else text.length + 1)
        s.w s.stored s.events
        (lineLoop P (discardVariant text (resp (p + text.length)) ++ ['%', 'n'])
          (slice resp p (if resp (p + text.length) = NUL then text.length else text.length + 1))
          ((discardVariant text (resp (p + text.length))).length + 3) s.w.t s.w.rx []
          [Event.compiled p
            (if resp (p + text.length) = NUL then text.length else text.length + 1)
            ((discardVariant text (resp (p + text.length))).length + 3)])
        (run P resp n (Ctl.start p) s) := by
  obtain ⟨buf, hstep, hR⟩ := step_start P resp p text s hp hs hn hnd hend hfit
  have hi : (if resp (p + text.length) = NUL then text.length else text.length + 1)
      < (discardVariant text (resp (p + text.length))).length + 3 := by
    have := discardVariant_length_ge text (resp (p + text.length))
    split <;> omega
  obtain ⟨n, hn, he⟩ := lineLoop_sim P resp p _ _ _ hi s.events s.w.rx []
    [Event.compiled p (if resp (p + text.length) = NUL then text.length else text.length + 1)
      ((discardVariant text (resp (p + text.length))).length + 3)]
    ⟨⟨s.w.rx, s.w.txq, s.w.tx, buf, s.w.t⟩, s.stored, s.events ++ [Event.compiled p
      (if resp (p + text.length) = NUL then text.length else text.length + 1)
      ((discardVariant text (resp (p + text.length))).length + 3)]⟩ rfl rfl hR
  refine ⟨1 + n, by omega, ?_⟩
  rw [run_add, run_one, hstep]
  exact he

/-! ## Single-line templates -/

theorem slice_of_get {m : Mem} {a : Int} {l : List Char}
    (h : ∀ (k : Nat) (hk : k < l.length), m (a + k) = l.get ⟨k, hk⟩) :
    slice m a l.length = l := by
  induction l generalizing a with
  | nil => rfl
  | cons c l ih =>
    simp only [List.length_cons, slice]
    have h0 := h 0 (by simp)
    simp only [Nat.cast_zero, add_zero] at h0
    rw [h0, ih]
    · rfl
    · intro k hk
      have := h (k + 1) (by simpa using hk)
      simpa [add_assoc, add_comm 1 (k : Int)] using this

theorem strMem_slice (behind : Mem) (T : List Char) :
    slice (strMem behind T) 0 T.length = T := by
  apply slice_of_get
  intro k hk
  simp only [strMem]
  rw [if_neg (by omega)]
  simp [List.getElem?_eq_getElem hk]

theorem strMem_end (behind : Mem) (T : List Char) : strMem behind T (T.length : Nat) = NUL := by
  simp [strMem]

theorem strMem_head (behind : Mem) {T : List Char} (hne : T ≠ []) (hn : NUL ∉ T) :
    strMem behind T 0 ≠ NUL := by
  cases T with
  | nil => exact absurd rfl hne
  | cons c l =>
    simp only [List.mem_cons, not_or] at hn
    simp only [strMem]
    intro h
    apply hn.1
    simpa using h.symm

/-- No delimiter ends inside a text that does not contain the last byte of the
delimiter, whatever precedes the text in memory. -/
theorem noDelim_of_last {resp : Mem} {p : Int} {T d : List Char} {z : Char}
    (hs : slice resp p T.length = T) (hz : d.getLast? = some z) (hT : z ∉ T) :
    ∀ k : Nat, k < T.length → memEq resp (p + k + 1 - d.length) d = false := by
  intro k hk
  rw [Bool.eq_false_iff]
  intro h
  rw [memEq_iff] at h
  have hd : d ≠ [] := by intro e; simp [e] at hz
  have hlen : 0 < d.length := List.length_pos.mpr hd
  have hg := slice_get h (d.length - 1) (by omega)
  have e : p + (k : Int) + 1 - d.length + ((d.length - 1 : Nat) : Int) = p + k := by omega
  rw [e, slice_get hs k hk] at hg
  have hl : d.get ⟨d.length - 1, by omega⟩ = z := by
    rw [List.getLast?_eq_getLast _ hd] at hz
    simp only [Option.some.injEq] at hz
    rw [← hz, List.getLast_eq_getElem]
    rfl
  rw [hl] at hg
  exact hT (hg ▸ List.get_mem _ _ _)

/-- A single-line template whose inner loop ends with a match makes the whole
call return `true`. -/
theorem single_matched (P : Parser) (resp : Mem) (p : Int) (T : List Char) (s : St)
    (hp : resp p ≠ NUL) (hs : slice resp p T.length = T) (hn : NUL ∉ T)
    (hnd : ∀ k : Nat, k < T.length →
      memEq resp (p + k + 1 - P.delimSize) (P.delimiter.take P.delimSize) = false)
    (hend : resp (p + T.length) = NUL)
    (hfit : (discardVariant T NUL).length + 3 ≤ P.bufferSize)
    {vals : List Val} {evs : List Event} {rest : List (Option Char)}
    (hl : lineLoop P (discardVariant T NUL ++ ['%', 'n']) T ((discardVariant T NUL).length + 3)
      s.w.t s.w.rx [] [Event.compiled p T.length ((discardVariant T NUL).length + 3)]
      = LineEnd.matched vals evs rest) :
    ∃ n, n ≤ s.w.rx.length + 3 ∧ ∃ buf,
      run P resp n (Ctl.start p) s =
        (Ctl.ret true, ⟨⟨rest, s.w.txq, s.w.tx, buf, s.w.t⟩, s.stored ++ [vals], s.events ++ evs⟩) := by
  obtain ⟨n, hn, he⟩ := line_sim P resp p T s hp hs hn hnd (Or.inl hend) (by rw [hend]; exact hfit)
  simp only [hend, if_true, hs] at he hl
  rw [hl] at he
  obtain ⟨buf, hrun⟩ := he
  refine ⟨n + 1, by omega, buf, ?_⟩
  rw [run_add, hrun, run_one]
  simp [step, hend]

/-- A single-line template whose inner loop ends with a timed-out read makes
the call return `false`. -/
theorem single_timeout (P : Parser) (resp : Mem) (p : Int) (T : List Char) (s : St)
    (hp : resp p ≠ NUL) (hs : slice resp p T.length = T) (hn : NUL ∉ T)
    (hnd : ∀ k : Nat, k < T.length →
      memEq resp (p + k + 1 - P.delimSize) (P.delimiter.take P.delimSize) = false)
    (hend : resp (p + T.length) = NUL)
    (hfit : (discardVariant T NUL).length + 3 ≤ P.bufferSize)
    {evs : List Event} {rest : List (Option Char)}
    (hl : lineLoop P (discardVariant T NUL ++ ['%', 'n']) T ((discardVariant T NUL).length + 3)
      s.w.t s.w.rx [] [Event.compiled p T.length ((discardVariant T NUL).length + 3)]
      = LineEnd.timeout evs rest) :
    ∃ n, n ≤ s.w.rx.length + 3 ∧ ∃ buf,
      run P resp n (Ctl.start p) s =
        (Ctl.ret false, ⟨⟨rest, s.w.txq, s.w.tx, buf, s.w.t⟩, s.stored, s.events ++ evs⟩) := by
  obtain ⟨n, hn, he⟩ := line_sim P resp p T s hp hs hn hnd (Or.inl hend) (by rw [hend]; exact hfit)
  simp only [hend, if_true, hs] at he hl
  rw [hl] at he
  obtain ⟨buf, hrun⟩ := he
  exact ⟨n, by omega, buf, hrun⟩

/-- A single-line template whose inner loop ends with the dispatch of entry
`k`: the handler runs with the flag cleared and control is back at
`vrecv_start` on the same line. -/
theorem single_fired (P : Parser) (resp : Mem) (p : Int) (T : List Char) (s : St)
    (hp : resp p ≠ NUL) (hs : slice resp p T.length = T) (hn : NUL ∉ T)
    (hnd : ∀ k : Nat, k < T.length →
      memEq resp (p + k + 1 - P.delimSize) (P.delimiter.take P.delimSize) = false)
    (hend : resp (p + T.length) = NUL)
    (hfit : (discardVariant T NUL).length + 3 ≤ P.bufferSize)
    {k : Nat} {evs : List Event} {rest : List (Option Char)}
    (hl : lineLoop P (discardVariant T NUL ++ ['%', 'n']) T ((discardVariant T NUL).length + 3)
      s.w.t s.w.rx [] [Event.compiled p T.length ((discardVariant T NUL).length + 3)]
      = LineEnd.fired k evs rest) :
    ∃ n, n ≤ s.w.rx.length + 3 ∧ ∃ buf o, P.oobs.get? k = some o ∧
      run P resp n (Ctl.start p) s =
        (Ctl.start p,
          ⟨{ o.cb ⟨rest, s.w.txq, s.w.tx, buf, false⟩ with t := true }, s.stored,
            s.events ++ evs⟩) := by
  obtain ⟨n, hn, he⟩ := line_sim P resp p T s hp hs hn hnd (Or.inl hend) (by rw [hend]; exact hfit)
  simp only [hend, if_true, hs] at he hl
  rw [hl] at he
  obtain ⟨buf, o, ho, hrun⟩ := he
  exact ⟨n, by omega, buf, o, ho, hrun⟩

/-! ## The inner loop does not depend on the handlers nor on a large buffer size -/

theorem oobFind_congr (acc : List Char) (t : Bool) :
    ∀ (oobs oobs2 : List Oob) (k0 : Nat),
      oobs.map (fun o => (o.len, o.pfx)) = oobs2.map (fun o => (o.len, o.pfx)) →
      (oobFind acc t oobs k0).map Prod.fst = (oobFind acc t oobs2 k0).map Prod.fst := by
  intro oobs
  induction oobs with
  | nil =>
    intro oobs2 k0 h
    cases oobs2 with
    | nil => rfl
    | cons o2 r2 => simp at h
  | cons o r ih =>
    intro oobs2 k0 h
    cases oobs2 with
    | nil => simp at h
    | cons o2 r2 =>
      simp only [List.map_cons, List.cons.injEq, Prod.mk.injEq] at h
      obtain ⟨⟨hl, hp⟩, hr⟩ := h
      simp only [oobFind, hl, hp]
      split
      · rfl
      · exact ih r2 (k0 + 1) hr

theorem endsWithDelim_congr {P P2 : Parser} (hd : P.delimiter = P2.delimiter) (acc : List Char) :
    endsWithDelim P acc = endsWithDelim P2 acc := by
  simp only [endsWithDelim, Parser.delimSize, hd]

/-- Two parsers with the same delimiter, C library and OOB prefixes, and
buffers too large to fill up on the given input, run the same inner loop. -/
theorem lineLoop_congr (P P2 : Parser) (fmt line : List Char) (offset : Nat) (t : Bool)
    (hd : P.delimiter = P2.delimiter) (hs : P.sscanf = P2.sscanf)
    (ho : P.oobs.map (fun o => (o.len, o.pfx)) = P2.oobs.map (fun o => (o.len, o.pfx))) :
    ∀ (rx : List (Option Char)) (acc : List Char) (evs : List Event),
      offset + acc.length + rx.length + 1 < P.bufferSize →
      offset + acc.length + rx.length + 1 < P2.bufferSize →
      lineLoop P fmt line offset t rx acc evs = lineLoop P2 fmt line offset t rx acc evs := by
  intro rx
  induction rx with
  | nil => intro acc evs _ _; rfl
  | cons r rest ih =>
    intro acc evs h1 h2
    cases r with
    | none => rfl
    | some c =>
      simp only [List.length_cons] at h1 h2
      have hb1 : offset + acc.length + 1 < P.bufferSize := by omega
      have hb2 : offset + acc.length + 1 < P2.bufferSize := by omega
      have hlen : (acc ++ [c]).length = acc.length + 1 := by simp
      have hn1 : ¬ P.bufferSize ≤ (acc ++ [c]).length + 1 + offset := by rw [hlen]; omega
      have hn2 : ¬ P2.bufferSize ≤ (acc ++ [c]).length + 1 + offset := by rw [hlen]; omega
      have hf := oobFind_congr (acc ++ [c]) t P.oobs P2.oobs 0 ho
      simp only [lineLoop, if_pos hb1, if_pos hb2, hn1, hn2, false_or, hs,
        endsWithDelim_congr hd]
      cases h3 : oobFind (acc ++ [c]) t P.oobs 0 with
      | some ko =>
        cases h4 : oobFind (acc ++ [c]) t P2.oobs 0 with
        | some ko2 =>
          rw [h3, h4] at hf
          simp only [Option.map_some', Option.some.injEq] at hf
          obtain ⟨k, o⟩ := ko
          obtain ⟨k2, o2⟩ := ko2
          simp only at hf
          subst hf
          rfl
        | none => rw [h3, h4] at hf; simp at hf
      | none =>
        cases h4 : oobFind (acc ++ [c]) t P2.oobs 0 with
        | some ko2 => rw [h3, h4] at hf; simp at hf
        | none =>
          simp only
          rw [ih [] _ (by simp; omega) (by simp; omega),
            ih (acc ++ [c]) _ (by rw [hlen]; omega) (by rw [hlen]; omega)]

theorem delim_clean {P : Parser} (h : NUL ∉ P.delimiter) :
    P.delimSize = P.delimiter.length ∧ P.delimiter.take P.delimSize = P.delimiter := by
  have e : P.delimiter.take P.delimSize = P.delimiter := by
    rw [Parser.delimSize, take_strlen, cstrOf_eq_self h]
  exact ⟨by rw [Parser.delimSize, strlen, cstrOf_eq_self h], e⟩

/-- No delimiter ends inside a text free of the last byte of a NUL-free
delimiter. -/
theorem noDelim_clean {P : Parser} {resp : Mem} {p : Int} {T : List Char} {z : Char}
    (hs : slice resp p T.length = T) (hc : NUL ∉ P.delimiter)
    (hz : P.delimiter.getLast? = some z) (hT : z ∉ T) :
    ∀ k : Nat, k < T.length →
      memEq resp (p + k + 1 - P.delimSize) (P.delimiter.take P.delimSize) = false := by
  rw [(delim_clean hc).2, (delim_clean hc).1]
  exact noDelim_of_last hs hz hT

/-! ## Scenario C: `recv("VALUE:%d", &x)` on `"VALUE:42\r\n"` -/

/-- C1, as stated, fails: on a 256-byte zeroed buffer, with delimiter `"\r\n"`
and no OOB entry, `recv("VALUE:%d", &x)` on the input `"VALUE:42\r\n"` returns
`true` with `x = 4`, not `42`: the match completes as soon as the first digit
has been read, and `"2\r\n"` is left unread. -/
theorem C1_first_digit_counterexample :
    (vrecv (stdParser 256 "\r\n".toList []) (strMem (fun _ => NUL) "VALUE:%d".toList) 0 16
        (rxWorld "VALUE:42\r\n".toList (fun _ => NUL))).1 = Ctl.ret true ∧
      (vrecv (stdParser 256 "\r\n".toList []) (strMem (fun _ => NUL) "VALUE:%d".toList) 0 16
        (rxWorld "VALUE:42\r\n".toList (fun _ => NUL))).2.stored = [[Val.int 4]] ∧
      (vrecv (stdParser 256 "\r\n".toList []) (strMem (fun _ => NUL) "VALUE:%d".toList) 0 16
        (rxWorld "VALUE:42\r\n".toList (fun _ => NUL))).2.stored ≠ [[Val.int 42]] ∧
      (vrecv (stdParser 256 "\r\n".toList []) (strMem (fun _ => NUL) "VALUE:%d".toList) 0 16
        (rxWorld "VALUE:42\r\n".toList (fun _ => NUL))).2.w.rx = "2\r\n".toList.map some := by
  decide

/-- C1, amended: with delimiter `"\r\n"` and no OOB entry, for every buffer of
at least 32 bytes, whatever it holds and whatever precedes the template in
memory, `recv("VALUE:%d", &x)` on the input `"VALUE:42\r\n"` returns `true`
(given fuel for 13 steps) after reading exactly `"VALUE:4"`: the value stored
is `4` and `"2\r\n"` stays in the channel. -/
theorem C1_recv_value_first_digit (N : Nat) (hN : 32 ≤ N) (behind buf0 : Mem)
    (fuel : Nat) (hfuel : 13 ≤ fuel) :
    ∃ buf,
      vrecv (stdParser N "\r\n".toList []) (strMem behind "VALUE:%d".toList) 0 fuel
          (rxWorld "VALUE:42\r\n".toList buf0) =
        (Ctl.ret true,
          ⟨⟨"2\r\n".toList.map some, [], [], buf, true⟩,
            [[Val.int 4]],
            [Event.compiled 0 8 12, Event.byte 'V', Event.byte 'A', Event.byte 'L',
              Event.byte 'U', Event.byte 'E', Event.byte ':', Event.byte '4',
              Event.matched "VALUE:4".toList [Val.int 4]]⟩) := by
  have hs := strMem_slice behind "VALUE:%d".toList
  have hlen : ("VALUE:%d".toList).length = 8 := by decide
  have hdv : (discardVariant "VALUE:%d".toList NUL).length = 9 := by decide
  have hl : lineLoop (stdParser N "\r\n".toList [])
      (discardVariant "VALUE:%d".toList NUL ++ ['%', 'n']) "VALUE:%d".toList
      ((discardVariant "VALUE:%d".toList NUL).length + 3) true
      ("VALUE:42\r\n".toList.map some) []
      [Event.compiled 0 ("VALUE:%d".toList).length
        ((discardVariant "VALUE:%d".toList NUL).length + 3)]
      = LineEnd.matched [Val.int 4]
          [Event.compiled 0 8 12, Event.byte 'V', Event.byte 'A', Event.byte 'L',
              Event.byte 'U', Event.byte 'E', Event.byte ':', Event.byte '4',
              Event.matched "VALUE:4".toList [Val.int 4]]
          ("2\r\n".toList.map some) := by
    rw [lineLoop_congr (stdParser N "\r\n".toList []) (stdParser 32 "\r\n".toList [])
      _ _ _ _ rfl rfl rfl _ _ _
      (by rw [hdv]; simp [stdParser]; omega) (by decide)]
    decide
  obtain ⟨n, hn, buf, hrun⟩ := single_matched (stdParser N "\r\n".toList [])
    (strMem behind "VALUE:%d".toList) 0 "VALUE:%d".toList
    ⟨rxWorld "VALUE:42\r\n".toList buf0, [], []⟩
    (strMem_head behind (by decide) (by decide)) hs (by decide)
    (noDelim_clean (z := '\n') hs (show NUL ∉ "\r\n".toList by decide)
      (show "\r\n".toList.getLast? = some '\n' by decide) (by decide))
    (by simpa using strMem_end behind "VALUE:%d".toList)
    (by rw [hdv]; simp [stdParser]; omega) hl
  have hn1 : n ≤ 10 + 3 := hn
  exact ⟨buf, run_mono _ _ hrun (by omega)⟩

/-- Witness for C1, amended: a 32-byte zeroed buffer and 13 steps of fuel. -/
theorem C1_recv_value_first_digit_witness :
    32 ≤ 32 ∧ 13 ≤ 13 ∧ ∃ buf,
      vrecv (stdParser 32 "\r\n".toList []) (strMem (fun _ => NUL) "VALUE:%d".toList) 0 13
          (rxWorld "VALUE:42\r\n".toList (fun _ => NUL)) =
        (Ctl.ret true,
          ⟨⟨"2\r\n".toList.map some, [], [], buf, true⟩,
            [[Val.int 4]],
            [Event.compiled 0 8 12, Event.byte 'V', Event.byte 'A', Event.byte 'L',
              Event.byte 'U', Event.byte 'E', Event.byte ':', Event.byte '4',
              Event.matched "VALUE:4".toList [Val.int 4]]⟩) :=
  ⟨by decide, by decide,
    C1_recv_value_first_digit 32 (by decide) (fun _ => NUL) (fun _ => NUL) 13 (by decide)⟩

/-! ## Failure means a timed-out read -/

theorem step_start_shape (P : Parser) (resp : Mem) (p : Int) (s : St) :
    step P resp (Ctl.start p) s = (Ctl.ret true, s) ∨
    step P resp (Ctl.start p) s = (Ctl.undef, s) ∨
    ∃ i offset buf, step P resp (Ctl.start p) s =
      (Ctl.reading p i offset 0,
        ⟨⟨s.w.rx, s.w.txq, s.w.tx, buf, s.w.t⟩, s.stored,
          s.events ++ [Event.compiled p i offset]⟩) := by
  simp only [step]
  split
  · exact Or.inl rfl
  · split
    · exact Or.inr (Or.inl rfl)
    · split
      · exact Or.inr (Or.inl rfl)
      · exact Or.inr (Or.inr ⟨_, _, _, rfl⟩)

theorem step_reading_shape (P : Parser) (resp : Mem) (p : Int) (i offset j : Nat) (s : St) :
    ((∀ b rest, s.w.rx ≠ some b :: rest) ∧
      ∃ w, step P resp (Ctl.reading p i offset j) s =
        (Ctl.ret false, ⟨w, s.stored, s.events ++ [Event.timeout]⟩)) ∨
    (∃ b rest, s.w.rx = some b :: rest ∧
      (step P resp (Ctl.reading p i offset j) s).1 ≠ Ctl.ret false ∧
      ∃ evs, (step P resp (Ctl.reading p i offset j) s).2.events = s.events ++ evs ∧
        Event.timeout ∉ evs) := by
  cases hrx : s.w.rx with
  | nil =>
    left
    refine ⟨by simp, s.w, ?_⟩
    simp [step, getc, hrx]
  | cons r rest =>
    cases r with
    | none =>
      left
      refine ⟨by simp, ⟨rest, s.w.txq, s.w.tx, s.w.buf, s.w.t⟩, ?_⟩
      simp only [step, getc, hrx]
    | some b =>
      right
      refine ⟨b, rest, rfl, ?_⟩
      simp only [step, getc, hrx]
      split
      · split
        · exact ⟨by simp, _, rfl, by simp⟩
        · split
          · split
            · exact ⟨by simp, _, rfl, by simp⟩
            · exact ⟨by simp, [], by simp, by simp⟩
          · split
            · exact ⟨by simp, _, rfl, by simp⟩
            · exact ⟨by simp, _, rfl, by simp⟩
      · exact ⟨by simp, [], by simp, by simp⟩

/-- Either the machine has returned `false` and the log ends with its only
timeout, or it has not returned `false` and the log has no timeout. -/
theorem step_timeout_inv (P : Parser) (resp : Mem) (c : Ctl) (s : St)
    (h : (c = Ctl.ret false ∧ ∃ evs, s.events = evs ++ [Event.timeout] ∧ Event.timeout ∉ evs) ∨
      (c ≠ Ctl.ret false ∧ Event.timeout ∉ s.events)) :
    ((step P resp c s).1 = Ctl.ret false ∧
        ∃ evs, (step P resp c s).2.events = evs ++ [Event.timeout] ∧ Event.timeout ∉ evs) ∨
      ((step P resp c s).1 ≠ Ctl.ret false ∧ Event.timeout ∉ (step P resp c s).2.events) := by
  cases c with
  | ret b => simpa [step] using h
  | undef => simpa [step] using h
  | start p =>
    have hno : Event.timeout ∉ s.events := by
      rcases h with h | h
      · simp at h
      · exact h.2
    rcases step_start_shape P resp p s with e | e | ⟨i, offset, buf, e⟩
    · right; rw [e]; exact ⟨by simp, hno⟩
    · right; rw [e]; exact ⟨by simp, hno⟩
    · right; rw [e]; exact ⟨by simp, by simp [hno]⟩
  | reading p i offset j =>
    have hno : Event.timeout ∉ s.events := by
      rcases h with h | h
      · simp at h
      · exact h.2
    rcases step_reading_shape P resp p i offset j s with ⟨_, w, e⟩ | ⟨b, rest, _, hne, evs, he, ht⟩
    · left; rw [e]; exact ⟨rfl, s.events, rfl, hno⟩
    · right
      refine ⟨hne, ?_⟩
      rw [he]
      simp [hno, ht]

theorem run_timeout_inv (P : Parser) (resp : Mem) (n : Nat) :
    ∀ (c : Ctl) (s : St),
      ((c = Ctl.ret false ∧ ∃ evs, s.events = evs ++ [Event.timeout] ∧ Event.timeout ∉ evs) ∨
        (c ≠ Ctl.ret false ∧ Event.timeout ∉ s.events)) →
      ((run P resp n c s).1 = Ctl.ret false ∧
          ∃ evs, (run P resp n c s).2.events = evs ++ [Event.timeout] ∧ Event.timeout ∉ evs) ∨
        ((run P resp n c s).1 ≠ Ctl.ret false ∧ Event.timeout ∉ (run P resp n c s).2.events) := by
  induction n with
  | zero => intro c s h; exact h
  | succ n ih =>
    intro c s h
    rw [run_succ]
    exact ih _ _ (step_timeout_inv P resp c s h)

/-- On a channel whose next read times out, no byte is ever logged and two
steps suffice to stop. -/
theorem run_silent (P : Parser) (resp : Mem) (p : Int) (s : St)
    (hrx : ∀ b rest, s.w.rx ≠ some b :: rest) (hev : ∀ b, Event.byte b ∉ s.events) (n : Nat) :
    (∀ b, Event.byte b ∉ (run P resp n (Ctl.start p) s).2.events) ∧
      (2 ≤ n → (run P resp n (Ctl.start p) s).1 = Ctl.ret false ∨
        (run P resp n (Ctl.start p) s).1 = Ctl.ret true ∨
        (run P resp n (Ctl.start p) s).1 = Ctl.undef) := by
  cases n with
  | zero => exact ⟨hev, by omega⟩
  | succ n =>
    rw [run_succ]
    rcases step_start_shape P resp p s with e | e | ⟨i, offset, buf, e⟩
    · rw [e, run_ret]; exact ⟨hev, fun _ => Or.inr (Or.inl rfl)⟩
    · rw [e, run_undef]; exact ⟨hev, fun _ => Or.inr (Or.inr rfl)⟩
    · rw [e]
      cases n with
      | zero => exact ⟨by intro b; simp [run, hev], by omega⟩
      | succ n =>
        rw [run_succ]
        rcases step_reading_shape P resp p i offset 0
          ⟨⟨s.w.rx, s.w.txq, s.w.tx, buf, s.w.t⟩, s.stored,
            s.events ++ [Event.compiled p i offset]⟩ with ⟨_, w, e2⟩ | ⟨b, rest, hb, _⟩
        · rw [e2, run_ret]
          exact ⟨by intro b; simp [hev], fun _ => Or.inl rfl⟩
        · exact absurd hb (hrx b rest)

/-- C4: for every parser (delimiter, buffer size, OOB registry, C library),
template and channel, and whatever the fuel, `vrecv` has returned `false`
exactly when one of its own single-byte reads timed out; that timeout is then
the last thing it did and the only timeout (failure is immediate, and nothing
else, such as a non-matching line or a full buffer, makes it fail); and on a
channel whose next read times out it reads no byte and has stopped within two
steps. -/
theorem C4_recv_fails_iff_timeout (P : Parser) (resp : Mem) (p : Int) (fuel : Nat) (w : World) :
    ((vrecv P resp p fuel w).1 = Ctl.ret false ↔
        Event.timeout ∈ (vrecv P resp p fuel w).2.events) ∧
      (Event.timeout ∈ (vrecv P resp p fuel w).2.events →
        ∃ evs, (vrecv P resp p fuel w).2.events = evs ++ [Event.timeout] ∧
          Event.timeout ∉ evs) ∧
      ((∀ b rest, w.rx ≠ some b :: rest) →
        (∀ b, Event.byte b ∉ (vrecv P resp p fuel w).2.events) ∧
        (2 ≤ fuel → (vrecv P resp p fuel w).1 = Ctl.ret false ∨
          (vrecv P resp p fuel w).1 = Ctl.ret true ∨
          (vrecv P resp p fuel w).1 = Ctl.undef)) := by
  have h := run_timeout_inv P resp fuel (Ctl.start p) ⟨w, [], []⟩
    (Or.inr ⟨by simp, by simp⟩)
  refine ⟨?_, ?_, ?_⟩
  · rcases h with ⟨h1, evs, h2, _⟩ | ⟨h1, h2⟩
    · exact ⟨fun _ => by rw [vrecv, h2]; simp, fun _ => h1⟩
    · exact ⟨fun e => absurd e h1, fun e => absurd e h2⟩
  · intro ht
    rcases h with ⟨_, h2⟩ | ⟨_, h2⟩
    · exact h2
    · exact absurd ht h2
  · intro hrx
    exact run_silent P resp p ⟨w, [], []⟩ hrx (by simp) fuel

/-! ## Sending a command -/

theorem putAll_ok (l : List Char) :
    ∀ w : World, (∀ k : Nat, k < l.length → w.txq.get? k = some true) →
      (putAll l w).1 = true ∧ (putAll l w).2.tx = w.tx ++ l ∧
        (putAll l w).2.txq = w.txq.drop l.length ∧ (putAll l w).2.rx = w.rx := by
  induction l with
  | nil => intro w _; simp [putAll]
  | cons c l ih =>
    intro w h
    have h0 := h 0 (by simp)
    cases hq : w.txq with
    | nil => rw [hq] at h0; simp at h0
    | cons ok q =>
      rw [hq] at h0
      simp only [List.get?_cons_zero, Option.some.injEq] at h0
      subst h0
      have hp : putc w c = (true, { w with txq := q, tx := w.tx ++ [c] }) := by
        simp [putc, hq]
      have ih2 := ih { w with txq := q, tx := w.tx ++ [c] } (by
        intro k hk
        have := h (k + 1) (by simpa using hk)
        rw [hq] at this
        simpa using this)
      simp only [putAll, hp, if_true]
      refine ⟨ih2.1, ?_, ?_, ih2.2.2.2⟩
      · rw [ih2.2.1]; simp
      · rw [ih2.2.2.1]; simp

/-- When formatting succeeds with a NUL-free text that fits the buffer and the
channel accepts the writes, `vsend` writes the text and the delimiter. -/
theorem vsend_ok (P : Parser) (command : List Char)
    (args : List Val) (w : World) (s : List Char)
    (hfmt : P.vsprintf command args = some s) (hfit : s.length < P.bufferSize)
    (hnul : NUL ∉ s)
    (hok : ∀ k : Nat, k < s.length + (cstrOf P.delimiter).length → w.txq.get? k = some true) :
    ∃ w2, vsend P command args w = some (true, w2) ∧
      w2.tx = w.tx ++ s ++ cstrOf P.delimiter ∧ w2.rx = w.rx := by
  have hc : cstr ((w.buf.write 0 s).set s.length NUL) 0 P.bufferSize = s := by
    have h1 : slice ((w.buf.write 0 s).set s.length NUL) (0 : Int) s.length = s := by
      have e : slice ((w.buf.write 0 s).set s.length NUL) (0 : Int) s.length
          = slice (w.buf.write 0 s) 0 s.length := by
        apply slice_congr
        intro k hk
        rw [Mem.set_other _ _ (by omega)]
      rw [e, slice_write]
    have h2 : ((w.buf.write 0 s).set s.length NUL) ((0 : Int) + s.length) = NUL := by
      rw [zero_add, Mem.set_same]
    rw [cstr_eq_cstrOf h1 h2 hfit, cstrOf_eq_self hnul]
  have p1 := putAll_ok s { w with buf := (w.buf.write 0 s).set s.length NUL }
    (fun k hk => hok k (by omega))
  have p2 := putAll_ok (cstrOf P.delimiter)
    (putAll s { w with buf := (w.buf.write 0 s).set s.length NUL }).2 (by
      intro k hk
      rw [p1.2.2.1, List.get?_eq_getElem?, List.getElem?_drop, ← List.get?_eq_getElem?]
      exact hok _ (by omega))
  refine ⟨(putAll (cstrOf P.delimiter)
    (putAll s { w with buf := (w.buf.write 0 s).set s.length NUL }).2).2, ?_, ?_, ?_⟩
  · simp only [vsend, hfmt, if_pos hfit, hc, p1.1, if_true]
    rw [← p2.1]
  · rw [p2.2.1, p1.2.1]
  · rw [p2.2.2.2, p1.2.2.2]

/-- C5: whenever formatting the command succeeds with a NUL-free text `s`
(`vsprintf` returns it, and it fits the buffer with its terminator) and the
channel accepts `|s| + |delimiter|` writes, `vsend` returns `true` and the
bytes written are exactly `s` followed by the delimiter. -/
theorem C5_send_writes_command_and_delimiter (P : Parser) (command : List Char)
    (args : List Val) (w : World) (s : List Char)
    (hfmt : P.vsprintf command args = some s) (hfit : s.length < P.bufferSize)
    (hnul : NUL ∉ s)
    (hok : ∀ k : Nat, k < s.length + (cstrOf P.delimiter).length → w.txq.get? k = some true) :
    ∃ w2, vsend P command args w = some (true, w2) ∧
      w2.tx = w.tx ++ s ++ cstrOf P.delimiter ∧ w2.rx = w.rx :=
  vsend_ok P command args w s hfmt hfit hnul hok

/-- Witness for C5, and Scenario A: with delimiter `"\r\n"`, a 256-byte buffer
and a channel that accepts ten writes, `send("AT+CMD=%d", 5)` returns `true`
and writes exactly `"AT+CMD=5\r\n"`. -/
theorem C5_send_scenario_A_witness :
    ∃ w2, vsend (stdParser 256 "\r\n".toList []) "AT+CMD=%d".toList [Val.int 5]
        ⟨[], List.replicate 10 true, [], fun _ => NUL, true⟩ = some (true, w2) ∧
      w2.tx = "AT+CMD=5\r\n".toList ∧ w2.rx = [] :=
  C5_send_writes_command_and_delimiter (stdParser 256 "\r\n".toList []) "AT+CMD=%d".toList
    [Val.int 5] ⟨[], List.replicate 10 true, [], fun _ => NUL, true⟩ "AT+CMD=5".toList
    (by decide) (by decide) (by decide) (by decide)

/-! ## Round trip of `"VALUE:%d"` -/

theorem LineEnd.of_vals {e : LineEnd} {vals : List Val} (h : e.vals? = some vals) :
    ∃ evs rest, e = LineEnd.matched vals evs rest := by
  cases e with
  | matched v evs rest =>
    simp only [LineEnd.vals?, Option.some.injEq] at h
    exact ⟨evs, rest, by rw [h]⟩
  | timeout evs rest => simp [LineEnd.vals?] at h
  | fired k evs rest => simp [LineEnd.vals?] at h
  | overflow => simp [LineEnd.vals?] at h

/-- `recv("VALUE:%d", &x)` with delimiter `"\r\n"` and no OOB entry, on an
input of at most 18 bytes and a buffer of at least 32: when the inner loop
computed on lists matches with the values `vals`, the call returns `true`
having stored them. -/
theorem recv_value (N : Nat) (hN : 32 ≤ N) (behind buf0 : Mem) (fuel : Nat)
    (input : List Char) (vals : List Val) (hin : input.length ≤ 18)
    (hfuel : input.length + 3 ≤ fuel)
    (hv : (lineLoop (stdParser 32 "\r\n".toList []) "VALUE:%*d%n".toList "VALUE:%d".toList 12
      true (input.map some) [] [Event.compiled 0 8 12]).vals? = some vals) :
    ∃ buf evs rest,
      vrecv (stdParser N "\r\n".toList []) (strMem behind "VALUE:%d".toList) 0 fuel
          (rxWorld input buf0) =
        (Ctl.ret true, ⟨⟨rest, [], [], buf, true⟩, [vals], evs⟩) := by
  obtain ⟨evs, rest, hl⟩ := LineEnd.of_vals hv
  have hs := strMem_slice behind "VALUE:%d".toList
  have hdv : discardVariant "VALUE:%d".toList NUL = "VALUE:%*d".toList := by decide
  have hl2 : lineLoop (stdParser N "\r\n".toList [])
      (discardVariant "VALUE:%d".toList NUL ++ ['%', 'n']) "VALUE:%d".toList
      ((discardVariant "VALUE:%d".toList NUL).length + 3) true
      (input.map some) []
      [Event.compiled 0 ("VALUE:%d".toList).length
        ((discardVariant "VALUE:%d".toList NUL).length + 3)]
      = LineEnd.matched vals evs rest := by
    rw [lineLoop_congr (stdParser N "\r\n".toList []) (stdParser 32 "\r\n".toList [])
      _ _ _ _ rfl rfl rfl _ _ _
      (by rw [hdv]; simp [stdParser]; omega) (by rw [hdv]; simp [stdParser]; omega)]
    rw [hdv]
    exact hl
  obtain ⟨n, hn, buf, hrun⟩ := single_matched (stdParser N "\r\n".toList [])
    (strMem behind "VALUE:%d".toList) 0 "VALUE:%d".toList
    ⟨rxWorld input buf0, [], []⟩
    (strMem_head behind (by decide) (by decide)) hs (by decide)
    (noDelim_clean hs (show NUL ∉ "\r\n".toList by decide)
      (show "\r\n".toList.getLast? = some '\n' by decide) (by decide))
    (by simpa using strMem_end behind "VALUE:%d".toList)
    (by rw [hdv]; simp [stdParser]; omega) hl2
  have hn1 : n ≤ (input.map some).length + 3 := hn
  rw [List.length_map] at hn1
  exact ⟨buf, _, rest, run_mono _ _ hrun (by omega)⟩

/-- C6, as stated, fails at `v = 42` (256-byte zeroed buffers, delimiter
`"\r\n"`, no OOB entry): `send("VALUE:%d", 42)` writes `"VALUE:42\r\n"`, and
`recv("VALUE:%d", &x)` fed with these bytes returns `true` with `x = 4`. -/
theorem C6_round_trip_counterexample :
    ∃ w2, vsend (stdParser 256 "\r\n".toList []) "VALUE:%d".toList [Val.int 42]
        ⟨[], List.replicate 16 true, [], fun _ => NUL, true⟩ = some (true, w2) ∧
      w2.tx = "VALUE:42\r\n".toList ∧
      (vrecv (stdParser 256 "\r\n".toList []) (strMem (fun _ => NUL) "VALUE:%d".toList) 0 16
        (rxWorld "VALUE:42\r\n".toList (fun _ => NUL))).1 = Ctl.ret true ∧
      (vrecv (stdParser 256 "\r\n".toList []) (strMem (fun _ => NUL) "VALUE:%d".toList) 0 16
        (rxWorld "VALUE:42\r\n".toList (fun _ => NUL))).2.stored = [[Val.int 4]] ∧
      (vrecv (stdParser 256 "\r\n".toList []) (strMem (fun _ => NUL) "VALUE:%d".toList) 0 16
        (rxWorld "VALUE:42\r\n".toList (fun _ => NUL))).2.stored ≠ [[Val.int 42]] := by
  obtain ⟨w2, h1, h2, _⟩ := vsend_ok (stdParser 256 "\r\n".toList []) "VALUE:%d".toList
    [Val.int 42] ⟨[], List.replicate 16 true, [], fun _ => NUL, true⟩ "VALUE:42".toList
    (by decide) (by decide) (by decide) (by decide)
  exact ⟨w2, h1, h2, by decide, by decide, by decide⟩

/-- C6, amended: the round trip holds for the values printed with a single
digit. For every integer `v` with `-9 ≤ v ≤ 9`, every buffer of at least 32
bytes (whatever it holds) and a channel that accepts the writes,
`send("VALUE:%d", v)` succeeds, and `recv("VALUE:%d", &x)` fed with the bytes
it wrote (same delimiter `"\r\n"`, no OOB entry, fuel for 13 steps) returns
`true` with `x = v`. -/
theorem C6_round_trip_single_digit (N : Nat) (hN : 32 ≤ N) (behind bufS bufR : Mem)
    (fuel : Nat) (hfuel : 13 ≤ fuel) (v : Int) (hlo : -9 ≤ v) (hhi : v ≤ 9) :
    ∃ w2, vsend (stdParser N "\r\n".toList []) "VALUE:%d".toList [Val.int v]
        ⟨[], List.replicate 16 true, [], bufS, true⟩ = some (true, w2) ∧
      ∃ buf evs rest,
        vrecv (stdParser N "\r\n".toList []) (strMem behind "VALUE:%d".toList) 0 fuel
            (rxWorld w2.tx bufR) =
          (Ctl.ret true, ⟨⟨rest, [], [], buf, true⟩, [[Val.int v]], evs⟩) := by
  have key : ∀ s : List Char, libcPrint "VALUE:%d".toList [Val.int v] = some s →
      s.length ≤ 8 → NUL ∉ s →
      (lineLoop (stdParser 32 "\r\n".toList []) "VALUE:%*d%n".toList "VALUE:%d".toList 12
        true ((s ++ "\r\n".toList).map some) [] [Event.compiled 0 8 12]).vals?
        = some [Val.int v] →
      ∃ w2, vsend (stdParser N "\r\n".toList []) "VALUE:%d".toList [Val.int v]
        ⟨[], List.replicate 16 true, [], bufS, true⟩ = some (true, w2) ∧
      ∃ buf evs rest,
        vrecv (stdParser N "\r\n".toList []) (strMem behind "VALUE:%d".toList) 0 fuel
            (rxWorld w2.tx bufR) =
          (Ctl.ret true, ⟨⟨rest, [], [], buf, true⟩, [[Val.int v]], evs⟩) := by
    intro s hs hlen hnul hv
    have hd : cstrOf (stdParser N "\r\n".toList []).delimiter = "\r\n".toList :=
      (by decide : cstrOf "\r\n".toList = "\r\n".toList)
    obtain ⟨w2, h1, h2, _⟩ := vsend_ok (stdParser N "\r\n".toList []) "VALUE:%d".toList
      [Val.int v] ⟨[], List.replicate 16 true, [], bufS, true⟩ s hs
      (by show s.length < N; omega) hnul (by
        intro k hk
        rw [hd] at hk
        have hk2 : k < s.length + 2 := hk
        rw [List.get?_eq_getElem?, List.getElem?_replicate]
        rw [if_pos (by omega)])
    refine ⟨w2, h1, ?_⟩
    have e : w2.tx = s ++ "\r\n".toList := by
      rw [h2, hd]; rfl
    rw [e]
    have hlen2 : (s ++ "\r\n".toList).length = s.length + 2 := by
      rw [List.length_append]; rfl
    exact recv_value N hN behind bufR fuel _ _ (by rw [hlen2]; omega) (by rw [hlen2]; omega) hv
  have key2 := key ("VALUE:".toList ++ printInt v)
  clear key
  interval_cases v <;> exact key2 (by decide) (by decide) (by decide) (by decide)

/-- Witness for C6, amended: `v = -7` with 32-byte zeroed buffers. -/
theorem C6_round_trip_single_digit_witness :
    ∃ w2, vsend (stdParser 32 "\r\n".toList []) "VALUE:%d".toList [Val.int (-7)]
        ⟨[], List.replicate 16 true, [], fun _ => NUL, true⟩ = some (true, w2) ∧
      ∃ buf evs rest,
        vrecv (stdParser 32 "\r\n".toList []) (strMem (fun _ => NUL) "VALUE:%d".toList) 0 13
            (rxWorld w2.tx (fun _ => NUL)) =
          (Ctl.ret true, ⟨⟨rest, [], [], buf, true⟩, [[Val.int (-7)]], evs⟩) :=
  C6_round_trip_single_digit 32 (by decide) (fun _ => NUL) (fun _ => NUL) (fun _ => NUL) 13
    (by decide) (-7) (by decide) (by decide)

/-! ## Scenario B: an OOB line before the expected response -/

/-- C7: with delimiter `"\r\n"`, one OOB entry registered for `"+EVENT"` whose
handler leaves the input channel alone, a buffer of at least 32 bytes and the
input `"+EVENT\r\nOK\r\n"`, `recv("OK")` (given fuel for 24 steps) invokes the
handler exactly once, when exactly `"+EVENT"` has been accumulated and with the
dispatch flag cleared, compiles `"OK"` again from the top, discards the rest
`"\r\n"` of the OOB line, matches `"OK"` and returns `true`, leaving the final
`"\r\n"` unread. -/
theorem C7_oob_event_then_ok (N : Nat) (hN : 32 ≤ N) (behind buf0 : Mem) (h : World → World)
    (hh : ∀ w, (h w).rx = w.rx) (fuel : Nat) (hfuel : 24 ≤ fuel) :
    ∃ st buf1,
      vrecv (stdParser N "\r\n".toList (oob [] "+EVENT".toList h)) (strMem behind "OK".toList) 0
        fuel (rxWorld "+EVENT\r\nOK\r\n".toList buf0) = (Ctl.ret true, st) ∧
      st.events =
        [Event.compiled 0 2 5, Event.byte '+', Event.byte 'E', Event.byte 'V', Event.byte 'E',
          Event.byte 'N', Event.byte 'T', Event.oob 0 "+EVENT".toList,
          Event.compiled 0 2 5, Event.byte '\r', Event.byte '\n', Event.discard "\r\n".toList,
          Event.byte 'O', Event.byte 'K', Event.matched "OK".toList []] ∧
      st.stored = [[]] ∧ st.w.rx = "\r\n".toList.map some ∧ st.w.t = true ∧
      st.w.tx = (h ⟨"\r\nOK\r\n".toList.map some, [], [], buf1, false⟩).tx := by
  have hs := strMem_slice behind "OK".toList
  have hdv : discardVariant "OK".toList NUL = "OK".toList := by decide
  have hp := strMem_head behind (show "OK".toList ≠ [] by decide) (show NUL ∉ "OK".toList by decide)
  have hnd := noDelim_clean (P := stdParser N "\r\n".toList (oob [] "+EVENT".toList h)) hs
    (show NUL ∉ "\r\n".toList by decide)
    (show "\r\n".toList.getLast? = some '\n' by decide) (show '\n' ∉ "OK".toList by decide)
  have hend : strMem behind "OK".toList (0 + ("OK".toList.length : Nat)) = NUL := by
    simpa using strMem_end behind "OK".toList
  have hfit : (discardVariant "OK".toList NUL).length + 3 ≤
      (stdParser N "\r\n".toList (oob [] "+EVENT".toList h)).bufferSize := by
    rw [hdv]; show 5 ≤ N; omega
  have hl1 : lineLoop (stdParser N "\r\n".toList (oob [] "+EVENT".toList h))
      (discardVariant "OK".toList NUL ++ ['%', 'n']) "OK".toList
      ((discardVariant "OK".toList NUL).length + 3) true
      ("+EVENT\r\nOK\r\n".toList.map some) []
      [Event.compiled 0 ("OK".toList).length ((discardVariant "OK".toList NUL).length + 3)]
      = LineEnd.fired 0
          [Event.compiled 0 2 5, Event.byte '+', Event.byte 'E', Event.byte 'V', Event.byte 'E',
            Event.byte 'N', Event.byte 'T', Event.oob 0 "+EVENT".toList]
          ("\r\nOK\r\n".toList.map some) := by
    rw [lineLoop_congr (stdParser N "\r\n".toList (oob [] "+EVENT".toList h))
      (stdParser 32 "\r\n".toList (oob [] "+EVENT".toList id))
      _ _ _ _ rfl rfl rfl _ _ _
      (by rw [hdv]; show 5 + 0 + 12 + 1 < N; omega) (by decide)]
    decide
  obtain ⟨n1, hn1, buf1, o, ho, hrun1⟩ := single_fired
    (stdParser N "\r\n".toList (oob [] "+EVENT".toList h))
    (strMem behind "OK".toList) 0 "OK".toList
    ⟨rxWorld "+EVENT\r\nOK\r\n".toList buf0, [], []⟩ hp hs (by decide) hnd hend hfit hl1
  have ho2 : o = ⟨strlen "+EVENT".toList, "+EVENT".toList, h⟩ := by
    have : (some (⟨strlen "+EVENT".toList, "+EVENT".toList, h⟩ : Oob)) = some o := ho
    exact (Option.some.inj this).symm
  subst ho2
  have hrx : (h ⟨"\r\nOK\r\n".toList.map some, [], [], buf1, false⟩).rx
      = "\r\nOK\r\n".toList.map some := hh _
  have hl2 : lineLoop (stdParser N "\r\n".toList (oob [] "+EVENT".toList h))
      (discardVariant "OK".toList NUL ++ ['%', 'n']) "OK".toList
      ((discardVariant "OK".toList NUL).length + 3) true
      ("\r\nOK\r\n".toList.map some) []
      [Event.compiled 0 ("OK".toList).length ((discardVariant "OK".toList NUL).length + 3)]
      = LineEnd.matched []
          [Event.compiled 0 2 5, Event.byte '\r', Event.byte '\n', Event.discard "\r\n".toList,
            Event.byte 'O', Event.byte 'K', Event.matched "OK".toList []]
          ("\r\n".toList.map some) := by
    rw [lineLoop_congr (stdParser N "\r\n".toList (oob [] "+EVENT".toList h))
      (stdParser 32 "\r\n".toList (oob [] "+EVENT".toList id))
      _ _ _ _ rfl rfl rfl _ _ _
      (by rw [hdv]; show 5 + 0 + 6 + 1 < N; omega) (by decide)]
    decide
  obtain ⟨n2, hn2, buf2, hrun2⟩ := single_matched
    (stdParser N "\r\n".toList (oob [] "+EVENT".toList h))
    (strMem behind "OK".toList) 0 "OK".toList
    ⟨{ h ⟨"\r\nOK\r\n".toList.map some, [], [], buf1, false⟩ with t := true }, [],
      [] ++ [Event.compiled 0 2 5, Event.byte '+', Event.byte 'E', Event.byte 'V',
        Event.byte 'E', Event.byte 'N', Event.byte 'T', Event.oob 0 "+EVENT".toList]⟩
    hp hs (by decide) hnd hend hfit (by
      show lineLoop _ _ _ _ true (h ⟨"\r\nOK\r\n".toList.map some, [], [], buf1, false⟩).rx _ _ = _
      rw [hrx]; exact hl2)
  have hb1 : n1 ≤ 12 + 3 := hn1
  have hb2 : n2 ≤ 6 + 3 := by
    have : n2 ≤ (h ⟨"\r\nOK\r\n".toList.map some, [], [], buf1, false⟩).rx.length + 3 := hn2
    rw [hrx] at this
    exact this
  have e1 := run_add (stdParser N "\r\n".toList (oob [] "+EVENT".toList h))
      (strMem behind "OK".toList) n1 n2 (Ctl.start 0)
      ⟨rxWorld "+EVENT\r\nOK\r\n".toList buf0, [], []⟩
  rw [hrun1] at e1
  have hrun := e1.trans hrun2
  refine ⟨_, buf1, run_mono _ _ hrun (by omega), rfl, rfl, rfl, rfl, rfl⟩

/-- Witness for C7: the identity handler, a 32-byte zeroed buffer, 24 steps. -/
theorem C7_oob_event_then_ok_witness :
    ∃ st buf1,
      vrecv (stdParser 32 "\r\n".toList (oob [] "+EVENT".toList id))
        (strMem (fun _ => NUL) "OK".toList) 0
        24 (rxWorld "+EVENT\r\nOK\r\n".toList (fun _ => NUL)) = (Ctl.ret true, st) ∧
      st.events =
        [Event.compiled 0 2 5, Event.byte '+', Event.byte 'E', Event.byte 'V', Event.byte 'E',
          Event.byte 'N', Event.byte 'T', Event.oob 0 "+EVENT".toList,
          Event.compiled 0 2 5, Event.byte '\r', Event.byte '\n', Event.discard "\r\n".toList,
          Event.byte 'O', Event.byte 'K', Event.matched "OK".toList []] ∧
      st.stored = [[]] ∧ st.w.rx = "\r\n".toList.map some ∧ st.w.t = true ∧
      st.w.tx = (id (⟨"\r\nOK\r\n".toList.map some, [], [], buf1, false⟩ : World)).tx :=
  C7_oob_event_then_ok 32 (by decide) (fun _ => NUL) (fun _ => NUL) id (fun _ => rfl) 24
    (by decide)

/-! ## OOB dispatch -/

theorem oobScan_some {buf : Mem} {offset j : Nat} {t : Bool} {oobs : List Oob} {k0 k : Nat}
    {o : Oob} (h : oobScan buf offset j t oobs k0 = some (k, o)) :
    k0 ≤ k ∧ oobs.get? (k - k0) = some o ∧ t = true ∧ j = o.len ∧
      memEq buf offset (o.pfx.take o.len) = true := by
  induction oobs generalizing k0 with
  | nil => simp [oobScan] at h
  | cons o1 rest ih =>
    simp only [oobScan] at h
    split at h
    · next hc =>
      simp only [Option.some.injEq, Prod.mk.injEq] at h
      obtain ⟨rfl, rfl⟩ := h
      exact ⟨le_refl _, by simp, hc.1, hc.2.1, hc.2.2⟩
    · have := ih h
      refine ⟨by omega, ?_, this.2.2⟩
      have e : k - k0 = (k - (k0 + 1)) + 1 := by omega
      rw [e]
      simpa using this.2.1

theorem oobScan_hit {buf : Mem} {offset j : Nat} {oobs : List Oob} {k1 : Nat} {o : Oob}
    (ho : oobs.get? k1 = some o) (hj : j = o.len)
    (hm : memEq buf offset (o.pfx.take o.len) = true) (k0 : Nat) :
    ∃ k o2, oobScan buf offset j true oobs k0 = some (k, o2) ∧ k ≤ k0 + k1 := by
  induction oobs generalizing k0 k1 with
  | nil => simp at ho
  | cons o1 rest ih =>
    simp only [oobScan]
    split
    · exact ⟨k0, o1, rfl, by omega⟩
    · next hc =>
      cases k1 with
      | zero =>
        simp only [List.get?_cons_zero, Option.some.injEq] at ho
        subst ho
        exact absurd ⟨by trivial, hj, hm⟩ hc
      | succ k1 =>
        have ho2 : rest.get? k1 = some o := by simpa using ho
        obtain ⟨k, o2, h1, h2⟩ := ih ho2 (k0 + 1)
        exact ⟨k, o2, h1, by omega⟩

/-- C8: OOB precedence. At an iteration of the inner loop that reads a byte
`c` (in bounds, dispatch flag set), if the bytes accumulated with `c` are
exactly the prefix of a registered entry (entry `k0`, of that length), then
whatever the template and whatever `sscanf` says of these bytes, the step
invokes a handler (that of the first entry `k ≤ k0` that matches, with the
flag cleared and set again afterwards) and goes back to `vrecv_start`: no
second pass is run, nothing is stored, the line is not completed. -/
theorem C8_oob_preempts_match (P : Parser) (resp : Mem) (p : Int) (i offset j : Nat) (s : St)
    (c : Char) (rest : List (Option Char)) (k0 : Nat) (o : Oob)
    (hrx : s.w.rx = some c :: rest) (hb : offset + j + 1 < P.bufferSize)
    (ht : s.w.t = true) (ho : P.oobs.get? k0 = some o) (hlen : o.len = j + 1)
    (hacc : slice ((s.w.buf.set (offset + j) c).set (offset + j + 1) NUL) offset (j + 1)
      = o.pfx.take o.len) :
    ∃ k o2, k ≤ k0 ∧ P.oobs.get? k = some o2 ∧ o2.len = j + 1 ∧
      step P resp (Ctl.reading p i offset j) s =
        (Ctl.start p,
          ⟨{ o2.cb ⟨rest, s.w.txq, s.w.tx,
                (s.w.buf.set (offset + j) c).set (offset + j + 1) NUL, false⟩ with t := true },
            s.stored,
            s.events ++ [Event.byte c, Event.oob k (o.pfx.take o.len)]⟩) := by
  have hl : (o.pfx.take o.len).length = j + 1 := by rw [← hacc, slice_length]
  have hm : memEq ((s.w.buf.set (offset + j) c).set (offset + j + 1) NUL) offset
      (o.pfx.take o.len) = true := by
    rw [memEq_iff, hl]; exact hacc
  obtain ⟨k, o2, hscan, hk⟩ := oobScan_hit ho hlen.symm hm 0
  have hg := oobScan_some hscan
  refine ⟨k, o2, by omega, by simpa using hg.2.1, hg.2.2.2.1.symm, ?_⟩
  simp only [step, getc, hrx, if_pos hb, ht, hscan, hacc]

/-- C9, amended: when a handler is dispatched at an iteration of the inner
loop of the line at `response = p`, control goes to `vrecv_start` with
`response` unchanged, so matching restarts at the beginning of the line that
was being matched (its template is compiled again and the accumulated bytes
are dropped); `response` was advanced past the lines matched before, which
are neither matched again nor have their stored values changed. -/
theorem C9_restart_at_current_line (P : Parser) (resp : Mem) (p : Int) (i offset j : Nat)
    (s : St) (evs : List Event) (k : Nat) (acc : List Char)
    (he : (step P resp (Ctl.reading p i offset j) s).2.events = s.events ++ evs)
    (hk : Event.oob k acc ∈ evs) :
    (step P resp (Ctl.reading p i offset j) s).1 = Ctl.start p ∧
      (step P resp (Ctl.reading p i offset j) s).2.stored = s.stored := by
  revert he
  simp only [step]
  split
  · intro he
    have : evs = [Event.timeout] := List.append_cancel_left he.symm
    subst this; simp at hk
  · split
    · split
      · intro _; exact ⟨rfl, rfl⟩
      · split
        · split
          · intro he
            have := List.append_cancel_left he.symm
            subst this; simp at hk
          · intro he
            have : evs = [] := by
              have h2 : s.events ++ evs = s.events ++ [] := by rw [← he]; simp
              exact List.append_cancel_left h2
            subst this; simp at hk
        · split
          · intro he
            have := List.append_cancel_left he.symm
            subst this; simp at hk
          · intro he
            have := List.append_cancel_left he.symm
            subst this; simp at hk
    · intro he
      have : evs = [] := by
        have h2 : s.events ++ evs = s.events ++ [] := by rw [← he]; simp
        exact List.append_cancel_left h2
      subst this; simp at hk

/-- C9, as stated, fails: with delimiter `"\r\n"`, OOB prefix `"+X"` and the
two-line template `"A\r\nB\r\n"`, the input `"A+XB"` makes `recv` return `true`.
The handler fires while the second line is being matched; afterwards the
template is compiled again at offset 3 (the second line) and `"B"` alone
completes the call: the first line is not matched again. -/
theorem C9_restart_counterexample :
    (vrecv (stdParser 64 "\r\n".toList (oob [] "+X".toList id))
        (strMem (fun _ => NUL) "A\r\nB\r\n".toList) 0 16
        (rxWorld "A+XB".toList (fun _ => NUL))).1 = Ctl.ret true ∧
      (vrecv (stdParser 64 "\r\n".toList (oob [] "+X".toList id))
        (strMem (fun _ => NUL) "A\r\nB\r\n".toList) 0 16
        (rxWorld "A+XB".toList (fun _ => NUL))).2.events =
        [Event.compiled 0 3 5, Event.byte 'A', Event.matched "A".toList [],
          Event.compiled 3 3 5, Event.byte '+', Event.byte 'X', Event.oob 0 "+X".toList,
          Event.compiled 3 3 5, Event.byte 'B', Event.matched "B".toList []] := by
  decide


/-- Every OOB event appended by one step names an entry whose length is the
accumulated length and whose prefix is the accumulated text. -/
theorem step_oob_events (P : Parser) (resp : Mem) (c : Ctl) (s : St)
    (hreg : ∀ o ∈ P.oobs, o.len = strlen o.pfx)
    (hgood : ∀ k acc, Event.oob k acc ∈ s.events →
      ∃ o, P.oobs.get? k = some o ∧ acc.length = o.len ∧ acc = cstrOf o.pfx) :
    ∀ k acc, Event.oob k acc ∈ (step P resp c s).2.events →
      ∃ o, P.oobs.get? k = some o ∧ acc.length = o.len ∧ acc = cstrOf o.pfx := by
  cases c with
  | ret b => simpa [step] using hgood
  | undef => simpa [step] using hgood
  | start p =>
    rcases step_start_shape P resp p s with e | e | ⟨i, offset, buf, e⟩
    · rw [e]; exact hgood
    · rw [e]; exact hgood
    · rw [e]
      intro k acc hk
      simp only [List.mem_append, List.mem_singleton] at hk
      rcases hk with hk | hk
      · exact hgood k acc hk
      · cases hk
  | reading p i offset j =>
    simp only [step]
    split
    · intro k acc hk
      simp only [List.mem_append, List.mem_singleton] at hk
      rcases hk with hk | hk
      · exact hgood k acc hk
      · cases hk
    · split
      · split
        · next c w _ k1 o hscan =>
          intro k acc hk
          simp only [List.mem_append, List.mem_cons, List.mem_singleton, List.not_mem_nil,
            or_false] at hk
          rcases hk with hk | hk | hk
          · exact hgood k acc hk
          · cases hk
          · simp only [Event.oob.injEq] at hk
            obtain ⟨rfl, rfl⟩ := hk
            have hg := oobScan_some hscan
            have hmem : o ∈ P.oobs := List.get?_mem hg.2.1
            have hlen := hreg o hmem
            have htake : o.pfx.take o.len = cstrOf o.pfx := by rw [hlen, take_strlen]
            have hm := hg.2.2.2.2
            rw [memEq_iff, htake] at hm
            have hl2 : (cstrOf o.pfx).length = j + 1 := by
              rw [← strlen, ← hlen]; exact hg.2.2.2.1.symm
            rw [hl2] at hm
            exact ⟨o, by simpa using hg.2.1, by rw [slice_length]; exact hg.2.2.2.1, hm⟩
        · split
          · split
            · intro k acc hk
              simp only [List.mem_append, List.mem_cons, List.mem_singleton, List.not_mem_nil,
                or_false] at hk
              rcases hk with hk | hk | hk
              · exact hgood k acc hk
              · cases hk
              · cases hk
            · exact hgood
          · split
            · intro k acc hk
              simp only [List.mem_append, List.mem_cons, List.mem_singleton, List.not_mem_nil,
                or_false] at hk
              rcases hk with hk | hk | hk
              · exact hgood k acc hk
              · cases hk
              · cases hk
            · intro k acc hk
              simp only [List.mem_append, List.mem_singleton] at hk
              rcases hk with hk | hk
              · exact hgood k acc hk
              · cases hk
      · exact hgood

theorem run_oob_events (P : Parser) (resp : Mem)
    (hreg : ∀ o ∈ P.oobs, o.len = strlen o.pfx) (n : Nat) :
    ∀ (c : Ctl) (s : St),
      (∀ k acc, Event.oob k acc ∈ s.events →
        ∃ o, P.oobs.get? k = some o ∧ acc.length = o.len ∧ acc = cstrOf o.pfx) →
      ∀ k acc, Event.oob k acc ∈ (run P resp n c s).2.events →
        ∃ o, P.oobs.get? k = some o ∧ acc.length = o.len ∧ acc = cstrOf o.pfx := by
  induction n with
  | zero => intro c s h; exact h
  | succ n ih =>
    intro c s h
    rw [run_succ]
    exact ih _ _ (step_oob_events P resp c s hreg h)

theorem replay_append (l1 l2 : List Event) (a : List Char) :
    replay (l1 ++ l2) a = (replay l1 a).bind (replay l2) := by
  induction l1 generalizing a with
  | nil => simp [replay]
  | cons e es ih =>
    cases e with
    | byte c => simp [replay, ih]
    | timeout => simp [replay, ih]
    | compiled p i o => simp [replay, ih]
    | oob k acc => simp only [List.cons_append, replay]; split <;> simp [ih]
    | matched acc v => simp only [List.cons_append, replay]; split <;> simp [ih]
    | discard acc => simp only [List.cons_append, replay]; split <;> simp [ih]

theorem slice_push (buf : Mem) (offset j : Nat) (c : Char) :
    slice ((buf.set (offset + j) c).set (offset + j + 1) NUL) offset (j + 1)
      = slice buf offset j ++ [c] := by
  rw [slice_snoc]
  congr 1
  · apply slice_congr
    intro k hk
    rw [Mem.set_other _ _ (by omega), Mem.set_other _ _ (by omega)]
  · rw [Mem.set_other _ _ (by omega), Mem.set_same]

/-- The log is faithful: the accumulation region of the buffer holds the bytes
logged since the last reset, and every accumulation logged with an event is
the bytes logged since the reset before it. -/
theorem step_replay (P : Parser) (resp : Mem) (c : Ctl) (s : St)
    (h : ∃ cur, replay s.events [] = some cur ∧
      ∀ p i offset j, c = Ctl.reading p i offset j → slice s.w.buf offset j = cur) :
    ∃ cur, replay (step P resp c s).2.events [] = some cur ∧
      ∀ p i offset j, (step P resp c s).1 = Ctl.reading p i offset j →
        slice (step P resp c s).2.w.buf offset j = cur := by
  obtain ⟨cur, hcur, hbuf⟩ := h
  cases c with
  | ret b => exact ⟨cur, by simpa [step] using hcur, by simp [step]⟩
  | undef => exact ⟨cur, by simpa [step] using hcur, by simp [step]⟩
  | start p =>
    rcases step_start_shape P resp p s with e | e | ⟨i, offset, buf, e⟩
    · rw [e]; exact ⟨cur, hcur, by simp⟩
    · rw [e]; exact ⟨cur, hcur, by simp⟩
    · rw [e]
      refine ⟨[], by simp [replay_append, hcur, replay], ?_⟩
      intro p2 i2 o2 j2 h2
      simp only [Ctl.reading.injEq] at h2
      obtain ⟨_, _, _, rfl⟩ := h2
      rfl
  | reading p i offset j =>
    have hb := hbuf p i offset j rfl
    simp only [step]
    split
    · next w hg =>
      exact ⟨cur, by simp [replay_append, hcur, replay], by simp⟩
    · next c w hg =>
      have hw : w.buf = s.w.buf := by
        simp only [getc] at hg
        split at hg
        · simp at hg
        · simp only [Prod.mk.injEq] at hg
          rw [← hg.2]
      split
      · have hpush := slice_push w.buf offset j c
        rw [hw, hb] at hpush
        split
        · exact ⟨[], by simp [replay_append, hcur, replay, hpush, hw], by simp⟩
        · split
          · split
            · exact ⟨[], by simp [replay_append, hcur, replay, hpush, hw], by simp⟩
            · exact ⟨cur, hcur, by simp⟩
          · split
            · refine ⟨[], by simp [replay_append, hcur, replay, hpush, hw], ?_⟩
              intro p2 i2 o2 j2 h2
              simp only [Ctl.reading.injEq] at h2
              obtain ⟨_, _, _, rfl⟩ := h2
              rfl
            · refine ⟨cur ++ [c], by simp [replay_append, hcur, replay], ?_⟩
              intro p2 i2 o2 j2 h2
              simp only [Ctl.reading.injEq] at h2
              obtain ⟨_, _, rfl, rfl⟩ := h2
              simpa [hw] using hpush
      · exact ⟨cur, hcur, by simp⟩

theorem run_replay (P : Parser) (resp : Mem) (n : Nat) :
    ∀ (c : Ctl) (s : St),
      (∃ cur, replay s.events [] = some cur ∧
        ∀ p i offset j, c = Ctl.reading p i offset j → slice s.w.buf offset j = cur) →
      ∃ cur, replay (run P resp n c s).2.events [] = some cur := by
  induction n with
  | zero => intro c s h; obtain ⟨cur, h, _⟩ := h; exact ⟨cur, h⟩
  | succ n ih =>
    intro c s h
    rw [run_succ]
    exact ih _ _ (step_replay P resp c s h)

/-- C10: exact-length OOB rule. With a registry filled through `oob`, the log
of `vrecv` is faithful (every accumulation logged with an event is the bytes
read since the last reset before it), and every handler invocation logged
(entry `k`, with the bytes `acc` accumulated since the last reset at that
read) satisfies: the number of accumulated bytes is the length of the entry's
prefix and the bytes are that prefix. -/
theorem C10_oob_exact_length (P : Parser) (resp : Mem) (p : Int) (fuel : Nat) (w : World)
    (hreg : ∀ o ∈ P.oobs, o.len = strlen o.pfx) :
    (∃ cur, replay (vrecv P resp p fuel w).2.events [] = some cur) ∧
      ∀ k acc, Event.oob k acc ∈ (vrecv P resp p fuel w).2.events →
        ∃ o, P.oobs.get? k = some o ∧ acc.length = o.len ∧ acc = cstrOf o.pfx :=
  ⟨run_replay P resp fuel (Ctl.start p) ⟨w, [], []⟩ ⟨[], rfl, by simp⟩,
    run_oob_events P resp hreg fuel (Ctl.start p) ⟨w, [], []⟩ (by simp)⟩


/-- Witness for C8, and its example: template `"OK"`, OOB prefix `"OK"`; at the
step that reads `'K'` after `'O'` the handler fires; on the input `"OK"`
followed by silence the handler fires once and `recv` returns `false` on the
timeout. -/
theorem C8_oob_preempts_match_witness :
    (∃ k o2 st, k ≤ 0 ∧
        (stdParser 32 "\r\n".toList (oob [] "OK".toList id)).oobs.get? k = some o2 ∧
        o2.len = 1 + 1 ∧
        step (stdParser 32 "\r\n".toList (oob [] "OK".toList id))
            (strMem (fun _ => NUL) "OK".toList) (Ctl.reading 0 2 5 1)
            ⟨⟨[some 'K'], [], [], Mem.write (fun _ => NUL) 0 "OK%n\x00O".toList, true⟩, [], []⟩
          = (Ctl.start 0, st)) ∧
      (vrecv (stdParser 32 "\r\n".toList (oob [] "OK".toList id))
        (strMem (fun _ => NUL) "OK".toList) 0 8
        (rxWorld "OK".toList (fun _ => NUL))).1 = Ctl.ret false ∧
      (vrecv (stdParser 32 "\r\n".toList (oob [] "OK".toList id))
        (strMem (fun _ => NUL) "OK".toList) 0 8
        (rxWorld "OK".toList (fun _ => NUL))).2.events =
        [Event.compiled 0 2 5, Event.byte 'O', Event.byte 'K', Event.oob 0 "OK".toList,
          Event.compiled 0 2 5, Event.timeout] := by
  obtain ⟨k, o2, h1, h2, h3, h4⟩ :=
    C8_oob_preempts_match (stdParser 32 "\r\n".toList (oob [] "OK".toList id))
      (strMem (fun _ => NUL) "OK".toList) 0 2 5 1
      ⟨⟨[some 'K'], [], [], Mem.write (fun _ => NUL) 0 "OK%n\x00O".toList, true⟩, [], []⟩
      'K' [] 0 ⟨2, "OK".toList, id⟩ rfl (by decide) rfl rfl rfl (by decide)
  exact ⟨⟨k, o2, _, h1, h2, h3, h4⟩, by decide, by decide⟩

/-- Witness for C9, amended: the step that reads `'X'` after `'+'` while the
second line (at offset 3) is being matched. -/
theorem C9_restart_at_current_line_witness :
    (step (stdParser 64 "\r\n".toList (oob [] "+X".toList id))
        (strMem (fun _ => NUL) "A\r\nB\r\n".toList) (Ctl.reading 3 3 5 1)
        ⟨⟨[some 'X', some 'B'], [], [], Mem.write (fun _ => NUL) 0 "B\r%n\x00+".toList, true⟩,
          [[]], []⟩).1 = Ctl.start 3 ∧
      (step (stdParser 64 "\r\n".toList (oob [] "+X".toList id))
        (strMem (fun _ => NUL) "A\r\nB\r\n".toList) (Ctl.reading 3 3 5 1)
        ⟨⟨[some 'X', some 'B'], [], [], Mem.write (fun _ => NUL) 0 "B\r%n\x00+".toList, true⟩,
          [[]], []⟩).2.stored = [[]] :=
  C9_restart_at_current_line (stdParser 64 "\r\n".toList (oob [] "+X".toList id))
    (strMem (fun _ => NUL) "A\r\nB\r\n".toList) 3 3 5 1
    ⟨⟨[some 'X', some 'B'], [], [], Mem.write (fun _ => NUL) 0 "B\r%n\x00+".toList, true⟩,
      [[]], []⟩
    [Event.byte 'X', Event.oob 0 "+X".toList] 0 "+X".toList (by decide) (by decide)

/-- Witness for C10 (prefix `"+E"`, input `"+E\r\nOK"`), and its consequence on
an example: in the input `"X+E\r\nOK"` the prefix comes after another byte of
the same line and no handler is invoked. -/
theorem C10_oob_exact_length_witness :
    (∃ o, (stdParser 32 "\r\n".toList (oob [] "+E".toList id)).oobs.get? 0 = some o ∧
        "+E".toList.length = o.len ∧ "+E".toList = cstrOf o.pfx) ∧
      (vrecv (stdParser 32 "\r\n".toList (oob [] "+E".toList id))
        (strMem (fun _ => NUL) "OK".toList) 0 12
        (rxWorld "X+E\r\nOK".toList (fun _ => NUL))).2.events =
        [Event.compiled 0 2 5, Event.byte 'X', Event.byte '+', Event.byte 'E',
          Event.byte '\r', Event.byte '\n', Event.discard "X+E\r\n".toList,
          Event.byte 'O', Event.byte 'K', Event.matched "OK".toList []] :=
  ⟨(C10_oob_exact_length (stdParser 32 "\r\n".toList (oob [] "+E".toList id))
      (strMem (fun _ => NUL) "OK".toList) 0 5
      (rxWorld "+E\r\nOK".toList (fun _ => NUL))
      (fun o ho => by
        have e : o = ⟨2, "+E".toList, id⟩ := by
          simpa [stdParser, oob] using ho
        rw [e]; rfl)).2
      0 "+E".toList (by decide),
    by decide⟩

/-! ## Literal templates: which inputs make `recv` succeed -/

theorem discardVariant_literal {L : List Char} (h : Literal L) (nxt : Char) :
    discardVariant L nxt = L := by
  induction L with
  | nil => rfl
  | cons c l ih =>
    have hc := h c (by simp)
    have hl : Literal l := fun x hx => h x (List.mem_cons_of_mem _ hx)
    simp [discardVariant, hc.1, ih hl]

theorem libcScanGo_literal_marker {L : List Char} (h : Literal L) :
    ∀ (fuel : Nat) (inp : List Char) (n : Nat), L.length + 2 ≤ fuel →
      libcScanGo fuel (L ++ ['%', 'n']) inp n =
        if inp.take L.length = L then [Val.cnt (n + L.length)] else [] := by
  induction L with
  | nil =>
    intro fuel inp n hf
    have hf1 : 2 ≤ fuel := by simpa using hf
    obtain ⟨k, rfl⟩ := Nat.exists_eq_add_of_le hf1
    have e : 2 + k = (k + 1) + 1 := by omega
    rw [e]
    simp [libcScanGo, nextDir, scanConv]
  | cons c l ih =>
    intro fuel inp n hf
    have hc := h c (by simp)
    have hl : Literal l := fun x hx => h x (List.mem_cons_of_mem _ hx)
    cases fuel with
    | zero => simp at hf
    | succ fuel =>
      have hf2 : l.length + 2 ≤ fuel := by simp at hf; omega
      cases inp with
      | nil => simp [libcScanGo, nextDir, hc.1, hc.2]
      | cons x r =>
        by_cases hx : x = c
        · subst hx
          have e : n + 1 + l.length = n + (l.length + 1) := by omega
          simp [libcScanGo, nextDir, hc.1, hc.2, ih hl fuel r (n + 1) hf2, e]
        · have hx2 : ¬ (x = c ∧ List.take l.length r = l) := fun e => hx e.1
          simp [libcScanGo, nextDir, hc.1, hc.2, hx, hx2]

theorem libcScanGo_literal {L : List Char} (h : Literal L) :
    ∀ (fuel : Nat) (inp : List Char) (n : Nat), libcScanGo fuel L inp n = [] := by
  induction L with
  | nil =>
    intro fuel inp n
    cases fuel <;> simp [libcScanGo, nextDir]
  | cons c l ih =>
    intro fuel inp n
    have hc := h c (by simp)
    have hl : Literal l := fun x hx => h x (List.mem_cons_of_mem _ hx)
    cases fuel with
    | zero => rfl
    | succ fuel =>
      cases inp with
      | nil => simp [libcScanGo, nextDir, hc.1, hc.2]
      | cons x r =>
        by_cases hx : x = c
        · subst hx
          simp [libcScanGo, nextDir, hc.1, hc.2, ih hl]
        · simp [libcScanGo, nextDir, hc.1, hc.2, hx]

theorem cstrOf_length_le (a : List Char) : (cstrOf a).length ≤ a.length := by
  induction a with
  | nil => simp [cstrOf]
  | cons c l ih =>
    by_cases hc : c = NUL
    · simp [cstrOf, hc]
    · simp [cstrOf, hc]; omega

theorem cstrOf_eq_of_length {a : List Char} (h : (cstrOf a).length = a.length) :
    cstrOf a = a := by
  induction a with
  | nil => rfl
  | cons c l ih =>
    by_cases hc : c = NUL
    · simp [cstrOf, hc] at h
    · simp only [cstrOf, hc, if_false, List.length_cons, Nat.add_right_cancel_iff] at h ⊢
      rw [ih h]

/-- The first pass on a literal template succeeds on the accumulated bytes
exactly when they are the template. -/
theorem literal_count_iff {L : List Char} (h : Literal L) (hn : NUL ∉ L) (a : List Char) :
    countOf (libcScan (cstrOf a) (L ++ ['%', 'n'])) = (a.length : Nat) ↔ a = L := by
  rw [libcScan, libcScanGo_literal_marker h _ _ _ (by simp)]
  constructor
  · intro hc
    split at hc
    · next hp =>
      simp only [countOf, Nat.zero_add, Nat.cast_inj] at hc
      have h1 := cstrOf_length_le a
      have h2 : L.length ≤ (cstrOf a).length := by
        have : (List.take L.length (cstrOf a)).length = L.length := by rw [hp]
        rw [List.length_take] at this
        omega
      have h3 : cstrOf a = a := cstrOf_eq_of_length (by omega)
      rw [h3] at hp
      rw [← hp, List.take_of_length_le (by omega)]
    · simp only [countOf] at hc
      omega
  · intro e
    subst e
    rw [cstrOf_eq_self hn]
    simp [countOf]


theorem oobFind_nil (acc : List Char) (t : Bool) (k : Nat) : oobFind acc t [] k = none := rfl

/-- Bytes that neither complete a match nor trigger a reset are accumulated. -/
theorem lineLoop_advance (P : Parser) (fmt line : List Char) (offset : Nat) (t : Bool)
    (hno : P.oobs = []) (more : List (Option Char)) :
    ∀ (u acc : List Char) (evs : List Event),
      (∀ m, 1 ≤ m → m ≤ u.length →
        (acc ++ u.take m).length + 1 + offset < P.bufferSize ∧
        countOf (P.sscanf (cstrOf (acc ++ u.take m)) fmt) ≠ ((acc ++ u.take m).length : Nat) ∧
        endsWithDelim P (acc ++ u.take m) = false) →
      lineLoop P fmt line offset t (u.map some ++ more) acc evs =
        lineLoop P fmt line offset t more (acc ++ u) (evs ++ u.map Event.byte) := by
  intro u
  induction u with
  | nil => intro acc evs _; simp
  | cons x u ih =>
    intro acc evs h
    have h1 := h 1 (le_refl _) (by simp)
    simp only [List.take_succ_cons, List.take_zero] at h1
    have hlen : (acc ++ [x]).length = acc.length + 1 := by simp
    have hb : offset + acc.length + 1 < P.bufferSize := by
      have := h1.1; rw [hlen] at this; omega
    have hnr : ¬ (P.bufferSize ≤ (acc ++ [x]).length + 1 + offset ∨
        endsWithDelim P (acc ++ [x]) = true) := by
      intro hh
      rcases hh with hh | hh
      · have := h1.1; omega
      · rw [h1.2.2] at hh; cases hh
    simp only [List.map_cons, List.cons_append, lineLoop, if_pos hb, hno, oobFind_nil,
      if_neg h1.2.1, if_neg hnr]
    change lineLoop P fmt line offset t (List.map some u ++ more) (acc ++ [x])
      (evs ++ [Event.byte x]) = _
    rw [ih (acc ++ [x]) (evs ++ [Event.byte x]) (by
      intro m hm1 hm2
      have := h (m + 1) (by omega) (by simpa using hm2)
      simpa [List.append_assoc] using this)]
    simp [List.append_assoc]

theorem IsChunk.toDiscard {P : Parser} {L : List Char} {offset : Nat} {c : List Char}
    (h : IsChunk P L offset c) : Discard P L offset c := by
  obtain ⟨hne, hend, hmid, hfit, hnoL⟩ := h
  refine ⟨hne, by omega, hnoL, ?_, Or.inl hend⟩
  intro m hm hm1
  exact ⟨hmid m hm hm1, by omega⟩

/-- A discarded run is read and dropped. -/
theorem lineLoop_discard (P : Parser) (L line : List Char) (offset : Nat) (t : Bool)
    (hno : P.oobs = []) (hlibc : P.sscanf = libcScan) (hlit : Literal L) (hnul : NUL ∉ L)
    (c : List Char) (hc : Discard P L offset c)
    (more : List (Option Char)) (evs : List Event) :
    ∃ evs2, lineLoop P (L ++ ['%', 'n']) line offset t (c.map some ++ more) [] evs =
      lineLoop P (L ++ ['%', 'n']) line offset t more [] evs2 := by
  obtain ⟨hne, hin, hnoL, hmid, hend⟩ := hc
  have hsplit : c = c.dropLast ++ [c.getLast hne] := (List.dropLast_append_getLast hne).symm
  have hdl : c.dropLast.length + 1 = c.length := by
    have hpos : 0 < c.length := List.length_pos.mpr hne
    have := List.length_dropLast c
    omega
  have hadv := lineLoop_advance P (L ++ ['%', 'n']) line offset t hno
    (some (c.getLast hne) :: more) c.dropLast [] evs (by
      intro m hm1 hm2
      have htk : c.dropLast.take m = c.take m := by
        rw [List.dropLast_eq_take, List.take_take, Nat.min_eq_left (by omega)]
      simp only [List.nil_append, htk]
      have hml : (c.take m).length = m := by rw [List.length_take]; omega
      have hmm := hmid m (by omega) hm1
      refine ⟨by rw [hml]; exact hmm.2, ?_, hmm.1⟩
      rw [hlibc]
      intro hcount
      exact hnoL m (by omega) ((literal_count_iff hlit hnul _).1 hcount))
  have e1 : c.map some ++ more = c.dropLast.map some ++ (some (c.getLast hne) :: more) := by
    conv_lhs => rw [hsplit]
    simp
  rw [e1, hadv]
  simp only [List.nil_append]
  have hlast : c.dropLast ++ [c.getLast hne] = c := hsplit.symm
  have hb : offset + c.dropLast.length + 1 < P.bufferSize := by omega
  have hnm : ¬ countOf (P.sscanf (cstrOf c) (L ++ ['%', 'n'])) = (c.length : Nat) := by
    rw [hlibc]
    intro hcount
    have := (literal_count_iff hlit hnul _).1 hcount
    have h2 := hnoL c.length (by omega)
    rw [List.take_length] at h2
    exact h2 this
  have hreset : P.bufferSize ≤ c.length + 1 + offset ∨ endsWithDelim P c = true := hend.symm
  simp only [lineLoop, if_pos hb, hno, oobFind_nil, hlast, if_neg hnm, if_pos hreset]
  exact ⟨_, rfl⟩

theorem lineLoop_discards (P : Parser) (L line : List Char) (offset : Nat) (t : Bool)
    (hno : P.oobs = []) (hlibc : P.sscanf = libcScan) (hlit : Literal L) (hnul : NUL ∉ L)
    (more : List (Option Char)) :
    ∀ (chunks : List (List Char)) (evs : List Event),
      (∀ c ∈ chunks, Discard P L offset c) →
      ∃ evs2, lineLoop P (L ++ ['%', 'n']) line offset t (chunks.flatten.map some ++ more) [] evs =
        lineLoop P (L ++ ['%', 'n']) line offset t more [] evs2 := by
  intro chunks
  induction chunks with
  | nil => intro evs _; exact ⟨evs, by simp⟩
  | cons c cs ih =>
    intro evs h
    have hc := h c (by simp)
    obtain ⟨evs1, h1⟩ := lineLoop_discard P L line offset t hno hlibc hlit hnul c hc
      (cs.flatten.map some ++ more) evs
    obtain ⟨evs2, h2⟩ := ih evs1 (fun x hx => h x (List.mem_cons_of_mem _ hx))
    refine ⟨evs2, ?_⟩
    rw [← h2, ← h1]
    simp [List.append_assoc]

theorem delim_take_length (P : Parser) :
    (P.delimiter.take P.delimSize).length = P.delimSize := by
  rw [Parser.delimSize, take_strlen, strlen]

/-- No prefix of a template free of delimiters ends with the delimiter. -/
theorem endsWithDelim_take_false (P : Parser) {resp : Mem} {p : Int} {L : List Char}
    (hmem : slice resp p L.length = L)
    (hnd : ∀ k : Nat, k < L.length →
      memEq resp (p + k + 1 - P.delimSize) (P.delimiter.take P.delimSize) = false)
    (m : Nat) (hm1 : 1 ≤ m) (hm2 : m ≤ L.length) : endsWithDelim P (L.take m) = false := by
  rw [Bool.eq_false_iff]
  intro h
  rw [endsWithDelim, decide_eq_true_iff, List.length_take, Nat.min_eq_left hm2] at h
  obtain ⟨hle, hd⟩ := h
  have hk := hnd (m - 1) (by omega)
  rw [Bool.eq_false_iff] at hk
  apply hk
  rw [memEq_iff, delim_take_length]
  have e : p + ((m - 1 : Nat) : Int) + 1 - P.delimSize = p + ((m - P.delimSize : Nat) : Int) := by
    omega
  rw [e, ← hd, List.drop_take]
  have h1 := slice_drop hmem (m - P.delimSize) (by omega)
  have h2 : slice resp (p + ((m - P.delimSize : Nat) : Int))
      (L.drop (m - P.delimSize)).length = L.drop (m - P.delimSize) := by
    rw [List.length_drop]; exact h1
  have h3 := slice_take h2 P.delimSize (by rw [List.length_drop]; omega)
  rw [h3]
  congr 1
  omega

/-- The template itself, read at the start of a line, completes the match. -/
theorem lineLoop_hit (P : Parser) (resp : Mem) (p : Int) (L : List Char) (offset : Nat)
    (t : Bool) (hno : P.oobs = []) (hlibc : P.sscanf = libcScan) (hlit : Literal L)
    (hnul : NUL ∉ L) (hne : L ≠ [])
    (hmem : slice resp p L.length = L)
    (hnd : ∀ k : Nat, k < L.length →
      memEq resp (p + k + 1 - P.delimSize) (P.delimiter.take P.delimSize) = false)
    (hfit : L.length + offset < P.bufferSize)
    (rest : List (Option Char)) (evs : List Event) :
    ∃ evs2, lineLoop P (L ++ ['%', 'n']) L offset t (L.map some ++ rest) [] evs =
      LineEnd.matched [] evs2 rest := by
  have hsplit : L = L.dropLast ++ [L.getLast hne] := (List.dropLast_append_getLast hne).symm
  have hdl : L.dropLast.length + 1 = L.length := by
    have hpos : 0 < L.length := List.length_pos.mpr hne
    have := List.length_dropLast L
    omega
  have hadv := lineLoop_advance P (L ++ ['%', 'n']) L offset t hno
    (some (L.getLast hne) :: rest) L.dropLast [] evs (by
      intro m hm1 hm2
      have htk : L.dropLast.take m = L.take m := by
        rw [List.dropLast_eq_take, List.take_take, Nat.min_eq_left (by omega)]
      simp only [List.nil_append, htk]
      have hml : (L.take m).length = m := by rw [List.length_take]; omega
      refine ⟨by rw [hml]; omega, ?_, endsWithDelim_take_false P hmem hnd m hm1 (by omega)⟩
      rw [hlibc]
      intro hcount
      have := (literal_count_iff hlit hnul _).1 hcount
      have h2 := congrArg List.length this
      rw [hml] at h2
      omega)
  have e1 : L.map some ++ rest = L.dropLast.map some ++ (some (L.getLast hne) :: rest) := by
    conv_lhs => rw [hsplit]
    simp
  rw [e1, hadv]
  simp only [List.nil_append]
  have hlast : L.dropLast ++ [L.getLast hne] = L := hsplit.symm
  have hb : offset + L.dropLast.length + 1 < P.bufferSize := by omega
  have hm : countOf (P.sscanf (cstrOf L) (L ++ ['%', 'n'])) = (L.length : Nat) := by
    rw [hlibc]
    exact (literal_count_iff hlit hnul L).2 rfl
  have hv : P.sscanf (cstrOf L) (cstrOf L) = [] := by
    rw [hlibc, libcScan, cstrOf_eq_self hnul]
    exact libcScanGo_literal hlit _ _ _
  simp only [lineLoop, if_pos hb, hno, oobFind_nil, hlast, hm, if_true, hv]
  exact ⟨_, rfl⟩

/-- C3, amended: non-matching lines are skipped. With no OOB entry and the C
library of `libcScan`, for every non-empty literal template `L` (NUL-free, no
`%`, no white space) stored at `p`, in which no occurrence of the delimiter
ends (counting one that begins in the bytes before the template), and which
itself fits the free space of the buffer (`|L| < buffer_size - offset`, where
`offset = |L| + 3`): on every channel that delivers chunks `c1 ... ck`, then
`L`, then anything, where each chunk ends with the delimiter, has no shorter
prefix ending with it, satisfies `|c| + 1 < buffer_size - offset` and has no
prefix equal to `L`, `vrecv` returns `true` (given fuel) having consumed
exactly the chunks and `L`; what follows stays in the channel. -/
theorem C3_skip_lines_fits (P : Parser) (resp : Mem) (p : Int) (L : List Char)
    (chunks : List (List Char)) (rest : List (Option Char)) (w : World) (fuel : Nat)
    (hno : P.oobs = []) (hlibc : P.sscanf = libcScan)
    (hne : L ≠ []) (hlit : Literal L) (hnul : NUL ∉ L)
    (hmem : slice resp p L.length = L) (hend : resp (p + L.length) = NUL)
    (hnd : ∀ k : Nat, k < L.length →
      memEq resp (p + k + 1 - P.delimSize) (P.delimiter.take P.delimSize) = false)
    (hfit : L.length + (L.length + 3) < P.bufferSize)
    (hchunks : ∀ c ∈ chunks, IsChunk P L (L.length + 3) c)
    (hrx : w.rx = (chunks.flatten ++ L).map some ++ rest)
    (hfuel : w.rx.length + 3 ≤ fuel) :
    ∃ buf evs,
      vrecv P resp p fuel w =
        (Ctl.ret true, ⟨⟨rest, w.txq, w.tx, buf, w.t⟩, [[]], evs⟩) := by
  have hdv : discardVariant L NUL = L := discardVariant_literal hlit NUL
  have hp : resp p ≠ NUL := by
    cases L with
    | nil => exact absurd rfl hne
    | cons c l =>
      have := (slice_eq_cons hmem).1
      rw [this]
      intro e
      exact hnul (by simp [e])
  obtain ⟨evs1, h1⟩ := lineLoop_discards P L L (L.length + 3) w.t hno hlibc hlit hnul
    (L.map some ++ rest) chunks [Event.compiled p L.length (L.length + 3)]
    (fun c hc => (hchunks c hc).toDiscard)
  obtain ⟨evs2, h2⟩ := lineLoop_hit P resp p L (L.length + 3) w.t hno hlibc hlit hnul hne
    hmem hnd hfit rest evs1
  have hl : lineLoop P (discardVariant L NUL ++ ['%', 'n']) L
      ((discardVariant L NUL).length + 3) w.t w.rx []
      [Event.compiled p L.length ((discardVariant L NUL).length + 3)]
      = LineEnd.matched [] evs2 rest := by
    rw [hdv, hrx, List.map_append, List.append_assoc, h1, h2]
  obtain ⟨n, hn, buf, hrun⟩ := single_matched P resp p L ⟨w, [], []⟩ hp hmem hnul hnd hend
    (by rw [hdv]; omega) hl
  exact ⟨buf, _, run_mono _ _ hrun (by simp only at hn; omega)⟩

/-- C3, as stated, fails in two ways. (1) `L` does not fit the free space: with
an 8-byte buffer, `recv("ABC")` on the input `"ABC"` (no chunk at all) resets
after every byte and returns `false` at the timeout. (2) A delimiter that
ends inside `L` but begins before it in memory: with delimiter `"ab"` and the
template `"bOK"` stored right after a byte `'a'`, the line compiled is empty
and `recv` on the input `"bOK"` returns `false`. -/
theorem C3_skip_lines_counterexample :
    (vrecv (stdParser 8 "\r\n".toList []) (strMem (fun _ => NUL) "ABC".toList) 0 8
        (rxWorld "ABC".toList (fun _ => NUL))).1 = Ctl.ret false ∧
      (vrecv (stdParser 8 "\r\n".toList []) (strMem (fun _ => NUL) "ABC".toList) 0 8
        (rxWorld "ABC".toList (fun _ => NUL))).2.events =
        [Event.compiled 0 3 6, Event.byte 'A', Event.discard "A".toList, Event.byte 'B',
          Event.discard "B".toList, Event.byte 'C', Event.discard "C".toList, Event.timeout] ∧
      (vrecv (stdParser 64 "ab".toList []) (strMem (fun _ => 'a') "bOK".toList) 0 8
        (rxWorld "bOK".toList (fun _ => NUL))).1 = Ctl.ret false ∧
      (vrecv (stdParser 64 "ab".toList []) (strMem (fun _ => 'a') "bOK".toList) 0 8
        (rxWorld "bOK".toList (fun _ => NUL))).2.events =
        [Event.compiled 0 1 3, Event.byte 'b', Event.byte 'O', Event.byte 'K',
          Event.timeout] := by
  decide


theorem Clean.snoc {P : Parser} {L : List Char} {offset : Nat} {acc : List Char} {x : Char}
    (h : Clean P L offset acc) (h1 : acc ++ [x] ≠ L)
    (h2 : endsWithDelim P (acc ++ [x]) = false)
    (h3 : (acc ++ [x]).length + 1 + offset < P.bufferSize) :
    Clean P L offset (acc ++ [x]) := by
  intro m hm hm1
  by_cases hle : m ≤ acc.length
  · rw [List.take_append_of_le_length hle]
    exact h m (by omega) hm1
  · have hmeq : m = (acc ++ [x]).length := by simp at hm ⊢; omega
    rw [hmeq, List.take_length]
    exact ⟨h1, h2, h3⟩

theorem Clean.snocDiscard {P : Parser} {L : List Char} {offset : Nat} {acc : List Char} {x : Char}
    (h : Clean P L offset acc) (hL : L ≠ []) (hb : offset + acc.length + 1 < P.bufferSize)
    (h1 : acc ++ [x] ≠ L)
    (h2 : P.bufferSize ≤ (acc ++ [x]).length + 1 + offset ∨ endsWithDelim P (acc ++ [x]) = true) :
    Discard P L offset (acc ++ [x]) := by
  have hlen : (acc ++ [x]).length = acc.length + 1 := by simp
  refine ⟨by simp, by rw [hlen]; omega, ?_, ?_, h2.symm⟩
  · intro m hm
    by_cases hle : m ≤ acc.length
    · rw [List.take_append_of_le_length hle]
      by_cases hm0 : m = 0
      · subst hm0
        intro e
        exact hL (by simpa using e.symm)
      · exact (h m (by omega) (by omega)).1
    · have hmeq : m = (acc ++ [x]).length := by omega
      rw [hmeq, List.take_length]
      exact h1
  · intro m hm hm1
    rw [hlen] at hm
    rw [List.take_append_of_le_length (by omega)]
    have := h m (by omega) hm1
    exact ⟨this.2.1, this.2.2⟩

/-- If the inner loop of a literal line ends with a match, the bytes fed to it
are discarded runs followed by the template. -/
theorem lineLoop_matched_inv (P : Parser) (L line : List Char) (offset : Nat) (t : Bool)
    (hno : P.oobs = []) (hlibc : P.sscanf = libcScan) (hlit : Literal L) (hnul : NUL ∉ L)
    (hL : L ≠ []) (hoff : offset + 1 < P.bufferSize) (tail : List (Option Char))
    (htail : ∀ c m, tail ≠ some c :: m) :
    ∀ (u acc : List Char) (evs : List Event) (vals : List Val) (evs2 : List Event)
      (rest2 : List (Option Char)),
      Clean P L offset acc → offset + acc.length + 1 < P.bufferSize →
      lineLoop P (L ++ ['%', 'n']) line offset t (u.map some ++ tail) acc evs
        = LineEnd.matched vals evs2 rest2 →
      ∃ (chunks : List (List Char)) (rest : List Char),
        acc ++ u = chunks.flatten ++ L ++ rest ∧
        (∀ c ∈ chunks, Discard P L offset c) ∧ rest2 = rest.map some ++ tail := by
  intro u
  induction u with
  | nil =>
    intro acc evs vals evs2 rest2 _ _ h
    exfalso
    cases tail with
    | nil => simp [lineLoop] at h
    | cons r m =>
      cases r with
      | none => simp [lineLoop] at h
      | some c => exact htail c m rfl
  | cons x u ih =>
    intro acc evs vals evs2 rest2 hclean hb h
    have hlen : (acc ++ [x]).length = acc.length + 1 := by simp
    simp only [List.map_cons, List.cons_append, lineLoop, if_pos hb, hno, oobFind_nil] at h
    by_cases hm : countOf (P.sscanf (cstrOf (acc ++ [x])) (L ++ ['%', 'n']))
        = ((acc ++ [x]).length : Nat)
    · rw [if_pos hm] at h
      simp only [LineEnd.matched.injEq] at h
      rw [hlibc] at hm
      have hacc := (literal_count_iff hlit hnul _).1 hm
      refine ⟨[], u, ?_, by simp, h.2.2.symm⟩
      rw [← hacc]
      simp
    · rw [if_neg hm] at h
      have hneL : acc ++ [x] ≠ L := by
        intro e
        apply hm
        rw [hlibc]
        exact (literal_count_iff hlit hnul _).2 e
      by_cases hr : P.bufferSize ≤ (acc ++ [x]).length + 1 + offset ∨
          endsWithDelim P (acc ++ [x]) = true
      · rw [if_pos hr] at h
        change lineLoop P (L ++ ['%', 'n']) line offset t (List.map some u ++ tail) [] _ = _ at h
        obtain ⟨chunks, rest, h1, h2, h3⟩ := ih [] _ vals evs2 rest2
          (by intro m hm hm1; simp only [List.length_nil] at hm; omega) (by simpa using hoff) h
        refine ⟨(acc ++ [x]) :: chunks, rest, ?_, ?_, h3⟩
        · simp only [List.nil_append] at h1
          rw [List.flatten_cons, h1]
          simp [List.append_assoc]
        · intro c hc
          rcases List.mem_cons.1 hc with e | e
          · rw [e]; exact hclean.snocDiscard hL hb hneL hr
          · exact h2 c e
      · rw [if_neg hr] at h
        change lineLoop P (L ++ ['%', 'n']) line offset t (List.map some u ++ tail)
          (acc ++ [x]) _ = _ at h
        have hr1 : ¬ P.bufferSize ≤ (acc ++ [x]).length + 1 + offset := fun e => hr (Or.inl e)
        have hr2 : endsWithDelim P (acc ++ [x]) = false := by
          cases he : endsWithDelim P (acc ++ [x]) with
          | false => rfl
          | true => exact absurd (Or.inr he) hr
        obtain ⟨chunks, rest, h1, h2, h3⟩ := ih (acc ++ [x]) _ vals evs2 rest2
          (hclean.snoc hneL hr2 (by omega)) (by omega) h
        refine ⟨chunks, rest, ?_, h2, h3⟩
        rw [← h1]
        simp [List.append_assoc]

/-- With no OOB entry and room for one byte, the inner loop on a channel that
falls silent ends with a match or with a timeout. -/
theorem lineLoop_total (P : Parser) (fmt line : List Char) (offset : Nat) (t : Bool)
    (hno : P.oobs = []) (hoff : offset + 1 < P.bufferSize) (tail : List (Option Char))
    (htail : ∀ c m, tail ≠ some c :: m) :
    ∀ (u acc : List Char) (evs : List Event), offset + acc.length + 1 < P.bufferSize →
      (∃ vals evs2 rest2, lineLoop P fmt line offset t (u.map some ++ tail) acc evs
          = LineEnd.matched vals evs2 rest2) ∨
        (∃ evs2 rest2, lineLoop P fmt line offset t (u.map some ++ tail) acc evs
          = LineEnd.timeout evs2 rest2) := by
  intro u
  induction u with
  | nil =>
    intro acc evs _
    right
    cases tail with
    | nil => exact ⟨_, _, rfl⟩
    | cons r m =>
      cases r with
      | none => exact ⟨_, _, rfl⟩
      | some c => exact absurd rfl (htail c m)
  | cons x u ih =>
    intro acc evs hb
    have hlen : (acc ++ [x]).length = acc.length + 1 := by simp
    simp only [List.map_cons, List.cons_append, lineLoop, if_pos hb, hno, oobFind_nil]
    split
    · exact Or.inl ⟨_, _, _, rfl⟩
    · split
      · exact ih [] _ (by simpa using hoff)
      · next hr =>
        have hr1 : ¬ P.bufferSize ≤ (acc ++ [x]).length + 1 + offset := fun e => hr (Or.inl e)
        exact ih (acc ++ [x]) _ (by omega)


theorem run_mono_undef (P : Parser) (resp : Mem) {n : Nat} {c : Ctl} {s : St}
    (h : (run P resp n c s).1 = Ctl.undef) {m : Nat} (hm : n ≤ m) :
    (run P resp m c s).1 = Ctl.undef := by
  obtain ⟨k, rfl⟩ := Nat.exists_eq_add_of_le hm
  rw [run_add, h, run_undef]

/-- C2, amended. With no OOB entry and the C library of `libcScan`, for every
non-empty single-line literal template `L` (NUL-free, no `%`, no white space,
no delimiter ending inside it, `|L| < buffer_size - offset`) and every channel
that delivers the bytes `inp` and then times out, `vrecv` (given fuel) returns
`true` exactly when `inp` consists of discarded runs followed by `L` (that is,
`L` is read at the start of the stream or right after a discarded run; the
delimiter need not follow), and returns `false` exactly when it does not. A
discarded run (`Discard`) is a non-empty run with no prefix equal to `L` that
stops at the first point where it ends with the delimiter or fills the
buffer. -/
theorem C2_literal_recv_iff (P : Parser) (resp : Mem) (p : Int) (L inp : List Char)
    (tail : List (Option Char)) (w : World) (fuel : Nat)
    (hno : P.oobs = []) (hlibc : P.sscanf = libcScan)
    (hne : L ≠ []) (hlit : Literal L) (hnul : NUL ∉ L)
    (hmem : slice resp p L.length = L) (hend : resp (p + L.length) = NUL)
    (hnd : ∀ k : Nat, k < L.length →
      memEq resp (p + k + 1 - P.delimSize) (P.delimiter.take P.delimSize) = false)
    (hfit : L.length + (L.length + 3) < P.bufferSize)
    (htail : ∀ c m, tail ≠ some c :: m)
    (hrx : w.rx = inp.map some ++ tail)
    (hfuel : w.rx.length + 3 ≤ fuel) :
    ((vrecv P resp p fuel w).1 = Ctl.ret true ↔
        ∃ (chunks : List (List Char)) (rest : List Char),
          inp = chunks.flatten ++ L ++ rest ∧ ∀ c ∈ chunks, Discard P L (L.length + 3) c) ∧
      ((vrecv P resp p fuel w).1 = Ctl.ret false ↔
        ¬ ∃ (chunks : List (List Char)) (rest : List Char),
          inp = chunks.flatten ++ L ++ rest ∧ ∀ c ∈ chunks, Discard P L (L.length + 3) c) := by
  have hdv : discardVariant L NUL = L := discardVariant_literal hlit NUL
  have hpos : 0 < L.length := List.length_pos.mpr hne
  have hp : resp p ≠ NUL := by
    cases L with
    | nil => exact absurd rfl hne
    | cons c l =>
      have := (slice_eq_cons hmem).1
      rw [this]
      intro e
      exact hnul (by simp [e])
  have hoff : L.length + 3 + 1 < P.bufferSize := by omega
  have hfwd : ∀ (chunks : List (List Char)) (rest : List Char),
      inp = chunks.flatten ++ L ++ rest → (∀ c ∈ chunks, Discard P L (L.length + 3) c) →
      ∃ evs2, lineLoop P (L ++ ['%', 'n']) L (L.length + 3) w.t w.rx []
        [Event.compiled p L.length (L.length + 3)]
        = LineEnd.matched [] evs2 (rest.map some ++ tail) := by
    intro chunks rest hinp hch
    obtain ⟨evs1, h1⟩ := lineLoop_discards P L L (L.length + 3) w.t hno hlibc hlit hnul
      (L.map some ++ (rest.map some ++ tail)) chunks
      [Event.compiled p L.length (L.length + 3)] hch
    obtain ⟨evs2, h2⟩ := lineLoop_hit P resp p L (L.length + 3) w.t hno hlibc hlit hnul hne
      hmem hnd hfit (rest.map some ++ tail) evs1
    refine ⟨evs2, ?_⟩
    rw [hrx, hinp]
    simp only [List.map_append, List.append_assoc] at h1 h2 ⊢
    rw [h1, h2]
  rcases lineLoop_total P (L ++ ['%', 'n']) L (L.length + 3) w.t hno hoff tail htail inp []
      [Event.compiled p L.length (L.length + 3)] (by simpa using hoff) with
    ⟨vals, evs2, rest2, hl⟩ | ⟨evs2, rest2, hl⟩
  · obtain ⟨chunks, rest, h1, h2, _⟩ := lineLoop_matched_inv P L L (L.length + 3) w.t hno hlibc
      hlit hnul hne hoff tail htail inp [] _ vals evs2 rest2
      (by intro m hm hm1; simp only [List.length_nil] at hm; omega) (by simpa using hoff) hl
    obtain ⟨n, hn, buf, hrun⟩ := single_matched P resp p L ⟨w, [], []⟩ hp hmem hnul hnd hend
      (by rw [hdv]; omega) (by rw [hdv, hrx]; exact hl)
    have hres : (vrecv P resp p fuel w).1 = Ctl.ret true := by
      rw [vrecv, run_mono _ _ hrun (by simp only at hn; omega)]
    have hdec : ∃ (chunks : List (List Char)) (rest : List Char),
        inp = chunks.flatten ++ L ++ rest ∧ ∀ c ∈ chunks, Discard P L (L.length + 3) c :=
      ⟨chunks, rest, by simpa using h1, h2⟩
    refine ⟨⟨fun _ => hdec, fun _ => hres⟩, ⟨fun e => ?_, fun e => absurd hdec e⟩⟩
    rw [hres] at e
    cases e
  · obtain ⟨n, hn, buf, hrun⟩ := single_timeout P resp p L ⟨w, [], []⟩ hp hmem hnul hnd hend
      (by rw [hdv]; omega) (by rw [hdv, hrx]; exact hl)
    have hres : (vrecv P resp p fuel w).1 = Ctl.ret false := by
      rw [vrecv, run_mono _ _ hrun (by simp only at hn; omega)]
    have hdec : ¬ ∃ (chunks : List (List Char)) (rest : List Char),
        inp = chunks.flatten ++ L ++ rest ∧ ∀ c ∈ chunks, Discard P L (L.length + 3) c := by
      intro ⟨chunks, rest, h1, h2⟩
      obtain ⟨evs3, h3⟩ := hfwd chunks rest h1 h2
      rw [hrx] at h3
      rw [h3] at hl
      cases hl
    refine ⟨⟨fun e => ?_, fun e => absurd e hdec⟩, ⟨fun _ => hdec, fun _ => hres⟩⟩
    rw [hres] at e
    cases e

/-- C2, as stated, fails in both directions (64-byte buffer, delimiter
`"\r\n"`). The sequence `"OK\r\n"` appears in the input `"XOK\r\n"`, yet
`recv("OK")` returns `false`, because `"OK"` does not start a line. And
`recv("OK\r\n")` returns `true` on the input `"OK"` alone, in which the
template with its delimiter does not appear. -/
theorem C2_literal_counterexample :
    (vrecv (stdParser 64 "\r\n".toList []) (strMem (fun _ => NUL) "OK".toList) 0 10
        (rxWorld "XOK\r\n".toList (fun _ => NUL))).1 = Ctl.ret false ∧
      "XOK\r\n".toList = "X".toList ++ "OK\r\n".toList ++ [] ∧
      (vrecv (stdParser 64 "\r\n".toList []) (strMem (fun _ => NUL) "OK\r\n".toList) 0 10
        (rxWorld "OK".toList (fun _ => NUL))).1 = Ctl.ret true ∧
      (vrecv (stdParser 64 "\r\n".toList []) (strMem (fun _ => NUL) "OK\r\n".toList) 0 10
        (rxWorld "OK".toList (fun _ => NUL))).2.w.rx = [] := by
  decide

theorem literal_OK : Literal "OK".toList := by
  intro c hc
  simp only [String.toList, List.mem_cons, List.mem_singleton, List.not_mem_nil, or_false] at hc
  rcases hc with rfl | rfl <;> decide

/-- Witness for C2, amended: template `"OK"` and input `"ERR\r\nOK"`. -/
theorem C2_literal_recv_iff_witness :
    ((vrecv (stdParser 32 "\r\n".toList []) (strMem (fun _ => NUL) "OK".toList) 0 12
          (rxWorld "ERR\r\nOK".toList (fun _ => NUL))).1 = Ctl.ret true ↔
        ∃ (chunks : List (List Char)) (rest : List Char),
          "ERR\r\nOK".toList = chunks.flatten ++ "OK".toList ++ rest ∧
          ∀ c ∈ chunks, Discard (stdParser 32 "\r\n".toList []) "OK".toList
            ("OK".toList.length + 3) c) ∧
      ((vrecv (stdParser 32 "\r\n".toList []) (strMem (fun _ => NUL) "OK".toList) 0 12
          (rxWorld "ERR\r\nOK".toList (fun _ => NUL))).1 = Ctl.ret false ↔
        ¬ ∃ (chunks : List (List Char)) (rest : List Char),
          "ERR\r\nOK".toList = chunks.flatten ++ "OK".toList ++ rest ∧
          ∀ c ∈ chunks, Discard (stdParser 32 "\r\n".toList []) "OK".toList
            ("OK".toList.length + 3) c) :=
  C2_literal_recv_iff (stdParser 32 "\r\n".toList []) (strMem (fun _ => NUL) "OK".toList) 0
    "OK".toList "ERR\r\nOK".toList [] (rxWorld "ERR\r\nOK".toList (fun _ => NUL)) 12
    rfl rfl (by decide) literal_OK (by decide) (strMem_slice _ _)
    (by decide)
    (noDelim_clean (strMem_slice _ _) (show NUL ∉ "\r\n".toList by decide)
      (show "\r\n".toList.getLast? = some '\n' by decide) (by decide))
    (by decide) (by simp) (by simp [rxWorld]) (by decide)

/-- Witness for C3, amended: template `"OK"`, chunks `"ERR\r\n"` and `"X\r\n"`,
then `"OK"`, with `"\r\n"` left unread. -/
theorem C3_skip_lines_fits_witness :
    ∃ buf evs,
      vrecv (stdParser 32 "\r\n".toList []) (strMem (fun _ => NUL) "OK".toList) 0 20
          (rxWorld "ERR\r\nX\r\nOK\r\n".toList (fun _ => NUL)) =
        (Ctl.ret true, ⟨⟨[some '\r', some '\n'], [], [], buf, true⟩, [[]], evs⟩) :=
  C3_skip_lines_fits (stdParser 32 "\r\n".toList []) (strMem (fun _ => NUL) "OK".toList) 0
    "OK".toList ["ERR\r\n".toList, "X\r\n".toList] [some '\r', some '\n']
    (rxWorld "ERR\r\nX\r\nOK\r\n".toList (fun _ => NUL)) 20
    rfl rfl (by decide) literal_OK (by decide) (strMem_slice _ _)
    (by decide)
    (noDelim_clean (strMem_slice _ _) (show NUL ∉ "\r\n".toList by decide)
      (show "\r\n".toList.getLast? = some '\n' by decide) (by decide))
    (by decide)
    (by
      intro c hc
      simp only [List.mem_cons, List.mem_singleton, List.not_mem_nil, or_false] at hc
      rcases hc with rfl | rfl <;> (unfold IsChunk; decide))
    (by decide) (by decide)

/-! ## The OOB registry: first match, duplicates, the dispatch flag -/

theorem oobScan_first {buf : Mem} {offset j : Nat} {t : Bool} {oobs : List Oob} {k0 k : Nat}
    {o : Oob} (h : oobScan buf offset j t oobs k0 = some (k, o)) :
    ∀ k1 o1, k1 < k - k0 → oobs.get? k1 = some o1 →
      ¬ (j = o1.len ∧ memEq buf offset (o1.pfx.take o1.len) = true) := by
  induction oobs generalizing k0 with
  | nil => simp [oobScan] at h
  | cons o0 rest ih =>
    simp only [oobScan] at h
    split at h
    · simp only [Option.some.injEq, Prod.mk.injEq] at h
      intro k1 o1 hk
      omega
    · next hc =>
      have hk := (oobScan_some h).1
      have ht := (oobScan_some h).2.2.1
      intro k1 o1 hk1 ho1
      cases k1 with
      | zero =>
        simp only [List.get?_cons_zero, Option.some.injEq] at ho1
        subst ho1
        intro hm
        exact hc ⟨ht, hm.1, hm.2⟩
      | succ k1 =>
        have ho2 : rest.get? k1 = some o1 := by simpa using ho1
        exact ih h k1 o1 (by omega) ho2

theorem oobScan_none {buf : Mem} {offset j : Nat} {t : Bool} {oobs : List Oob} {k0 : Nat}
    (h : oobScan buf offset j t oobs k0 = none) :
    ∀ o ∈ oobs, ¬ (t = true ∧ j = o.len ∧ memEq buf offset (o.pfx.take o.len) = true) := by
  induction oobs generalizing k0 with
  | nil => simp
  | cons o0 rest ih =>
    simp only [oobScan] at h
    split at h
    · simp at h
    · next hc =>
      intro o ho
      simp only [List.mem_cons] at ho
      rcases ho with rfl | ho
      · exact hc
      · exact ih h o ho

/-- Every entry of a registry built by `oob` caches the length of its prefix. -/
theorem oob_len (oobs : List Oob) (pfx : List Char) (cb : World → World)
    (h : ∀ o ∈ oobs, o.len = strlen o.pfx) : ∀ o ∈ oob oobs pfx cb, o.len = strlen o.pfx := by
  intro o ho
  simp only [oob, List.mem_append, List.mem_singleton] at ho
  rcases ho with ho | rfl
  · exact h o ho
  · rfl

/-- For an entry registered through `oob`, the test of line 259 says that the
accumulated bytes are the prefix. -/
theorem oob_test_iff {buf : Mem} {offset j : Nat} {o : Oob} (hlen : o.len = strlen o.pfx) :
    (j = o.len ∧ memEq buf offset (o.pfx.take o.len) = true) ↔
      slice buf offset j = cstrOf o.pfx := by
  have htake : o.pfx.take o.len = cstrOf o.pfx := by rw [hlen, take_strlen]
  rw [htake, memEq_iff]
  constructor
  · rintro ⟨hj, hm⟩
    have : (cstrOf o.pfx).length = j := by rw [← strlen, ← hlen]; exact hj.symm
    rw [this] at hm; exact hm
  · intro hs
    have hl : (cstrOf o.pfx).length = j := by rw [← hs, slice_length]
    refine ⟨?_, ?_⟩
    · rw [hlen, strlen]; exact hl.symm
    · rw [hl]; exact hs

/-- C11: first match wins. At every iteration of the inner loop that reads a
byte `c` (in bounds), with a registry filled through `oob`: either the
dispatch flag is set and some entry has the accumulated bytes as its prefix,
and then the step invokes one handler, that of the entry `k` of least index
whose prefix is the accumulated bytes (no entry before `k` matches, and the
entries after `k` are not looked at: control goes to `vrecv_start`); or the
flag is clear or no entry matches, and the step invokes no handler (the
resources are untouched but for the read and the buffer). -/
theorem C11_first_match_wins (P : Parser) (resp : Mem) (p : Int) (i offset j : Nat) (s : St)
    (c : Char) (rest : List (Option Char))
    (hreg : ∀ o ∈ P.oobs, o.len = strlen o.pfx)
    (hrx : s.w.rx = some c :: rest) (hb : offset + j + 1 < P.bufferSize) :
    (∃ k o, P.oobs.get? k = some o ∧ s.w.t = true ∧
        slice ((s.w.buf.set (offset + j) c).set (offset + j + 1) NUL) offset (j + 1)
          = cstrOf o.pfx ∧
        (∀ k1 o1, k1 < k → P.oobs.get? k1 = some o1 →
          slice ((s.w.buf.set (offset + j) c).set (offset + j + 1) NUL) offset (j + 1)
            ≠ cstrOf o1.pfx) ∧
        step P resp (Ctl.reading p i offset j) s =
          (Ctl.start p,
            ⟨{ o.cb ⟨rest, s.w.txq, s.w.tx,
                  (s.w.buf.set (offset + j) c).set (offset + j + 1) NUL, false⟩
                with t := true },
              s.stored,
              s.events ++ [Event.byte c, Event.oob k
                (slice ((s.w.buf.set (offset + j) c).set (offset + j + 1) NUL) offset (j + 1))]⟩)) ∨
      ((s.w.t = false ∨ ∀ o ∈ P.oobs,
          slice ((s.w.buf.set (offset + j) c).set (offset + j + 1) NUL) offset (j + 1)
            ≠ cstrOf o.pfx) ∧
        ∃ buf evs, (step P resp (Ctl.reading p i offset j) s).2.w =
            ⟨rest, s.w.txq, s.w.tx, buf, s.w.t⟩ ∧
          (step P resp (Ctl.reading p i offset j) s).2.events = s.events ++ evs ∧
          ∀ k acc, Event.oob k acc ∉ evs) := by
  cases hscan : oobScan ((s.w.buf.set (offset + j) c).set (offset + j + 1) NUL) offset (j + 1)
      s.w.t P.oobs 0 with
  | some ko =>
    obtain ⟨k, o⟩ := ko
    left
    have hg := oobScan_some hscan
    have hget : P.oobs.get? k = some o := by simpa using hg.2.1
    have hmem : o ∈ P.oobs := List.get?_mem hget
    refine ⟨k, o, hget, hg.2.2.1, (oob_test_iff (hreg o hmem)).1 ⟨hg.2.2.2.1, hg.2.2.2.2⟩, ?_, ?_⟩
    · intro k1 o1 hk1 ho1 heq
      exact oobScan_first hscan k1 o1 (by omega) ho1
        ((oob_test_iff (hreg o1 (List.get?_mem ho1))).2 heq)
    · simp only [step, getc, hrx, if_pos hb, hscan]
  | none =>
    right
    have hn := oobScan_none hscan
    refine ⟨?_, ?_⟩
    · cases ht : s.w.t with
      | false => exact Or.inl rfl
      | true =>
        right
        intro o ho heq
        exact hn o ho ⟨ht, (oob_test_iff (hreg o ho)).2 heq⟩
    · simp only [step, getc, hrx, if_pos hb, hscan]
      split
      · split
        · exact ⟨_, _, rfl, rfl, by simp⟩
        · exact ⟨_, [], rfl, by simp, by simp⟩
      · split
        · exact ⟨_, _, rfl, rfl, by simp⟩
        · exact ⟨_, _, rfl, rfl, by simp⟩

theorem oobScan_append {buf : Mem} {offset j : Nat} {t : Bool} (R rest : List Oob)
    (hR : ∀ o ∈ R, ¬ (j = o.len ∧ memEq buf offset (o.pfx.take o.len) = true)) (k0 : Nat) :
    oobScan buf offset j t (R ++ rest) k0 = oobScan buf offset j t rest (k0 + R.length) := by
  induction R generalizing k0 with
  | nil => simp
  | cons o R ih =>
    have h0 := hR o (by simp)
    have hc : ¬ (t = true ∧ j = o.len ∧ memEq buf offset (o.pfx.take o.len) = true) :=
      fun h => h0 ⟨h.2.1, h.2.2⟩
    rw [List.cons_append, oobScan, if_neg hc, ih (fun o ho => hR o (List.mem_cons_of_mem _ ho))]
    simp only [List.length_cons]
    congr 1
    omega

/-- C12, amended: no de-duplication in the registry, but one invocation per
match. When the same prefix/handler pair is registered twice (after the
entries `R`, none of which matches), the registry holds two equal entries,
and at the read where the accumulated bytes are the prefix the step invokes
the handler once, for the first of the two (index `|R|`), and goes back to
`vrecv_start`; the second registration is not reached. -/
theorem C12_duplicate_fires_once (P : Parser) (resp : Mem) (p : Int) (i offset j : Nat) (s : St)
    (c : Char) (rest : List (Option Char)) (R : List Oob) (pfx : List Char) (cb : World → World)
    (hP : P.oobs = oob (oob R pfx cb) pfx cb)
    (hR : ∀ o ∈ R, ¬ (j + 1 = o.len ∧
      memEq ((s.w.buf.set (offset + j) c).set (offset + j + 1) NUL) offset
        (o.pfx.take o.len) = true))
    (hrx : s.w.rx = some c :: rest) (hb : offset + j + 1 < P.bufferSize)
    (ht : s.w.t = true)
    (hacc : slice ((s.w.buf.set (offset + j) c).set (offset + j + 1) NUL) offset (j + 1)
      = cstrOf pfx) :
    P.oobs = R ++ [⟨strlen pfx, pfx, cb⟩, ⟨strlen pfx, pfx, cb⟩] ∧
      step P resp (Ctl.reading p i offset j) s =
        (Ctl.start p,
          ⟨{ cb ⟨rest, s.w.txq, s.w.tx,
                (s.w.buf.set (offset + j) c).set (offset + j + 1) NUL, false⟩ with t := true },
            s.stored,
            s.events ++ [Event.byte c, Event.oob R.length (cstrOf pfx)]⟩) := by
  have hPo : P.oobs = R ++ [⟨strlen pfx, pfx, cb⟩, ⟨strlen pfx, pfx, cb⟩] := by
    rw [hP]; simp [oob]
  refine ⟨hPo, ?_⟩
  have htest : (j + 1 = strlen pfx ∧
      memEq ((s.w.buf.set (offset + j) c).set (offset + j + 1) NUL) offset
        (pfx.take (strlen pfx)) = true) :=
    (oob_test_iff (o := ⟨strlen pfx, pfx, cb⟩) rfl).2 hacc
  have hscan : oobScan ((s.w.buf.set (offset + j) c).set (offset + j + 1) NUL) offset (j + 1)
      s.w.t P.oobs 0 = some (R.length, ⟨strlen pfx, pfx, cb⟩) := by
    rw [hPo, oobScan_append R _ hR 0, ht]
    simp only [oobScan, Nat.zero_add]
    rw [if_pos ⟨trivial, htest.1, htest.2⟩]
  simp only [step, getc, hrx, if_pos hb, hscan, hacc]

/-- A step leaves the dispatch flag as it found it; a handler is invoked only
with the flag set before, runs with the flag cleared, and the flag is set
again when it returns. -/
theorem step_flag (P : Parser) (resp : Mem) (c : Ctl) (s : St) :
    (step P resp c s).2.w.t = s.w.t ∧
      ∀ evs, (step P resp c s).2.events = s.events ++ evs →
        ∀ k acc, Event.oob k acc ∈ evs →
          s.w.t = true ∧ ∃ o w1, P.oobs.get? k = some o ∧ w1.t = false ∧
            (step P resp c s).2.w = { o.cb w1 with t := true } := by
  have nil_of : ∀ {evs : List Event}, s.events = s.events ++ evs → evs = [] := by
    intro evs h
    have h2 : s.events ++ evs = s.events ++ [] := by rw [← h]; simp
    exact List.append_cancel_left h2
  cases c with
  | ret b =>
    refine ⟨rfl, ?_⟩
    intro evs he k acc hk
    have := nil_of he; subst this; simp at hk
  | undef =>
    refine ⟨rfl, ?_⟩
    intro evs he k acc hk
    have := nil_of he; subst this; simp at hk
  | start p =>
    rcases step_start_shape P resp p s with e | e | ⟨i, offset, buf, e⟩
    · rw [e]
      refine ⟨rfl, ?_⟩
      intro evs he k acc hk
      have := nil_of he; subst this; simp at hk
    · rw [e]
      refine ⟨rfl, ?_⟩
      intro evs he k acc hk
      have := nil_of he; subst this; simp at hk
    · rw [e]
      refine ⟨rfl, ?_⟩
      intro evs he k acc hk
      have := List.append_cancel_left he
      subst this; simp at hk
  | reading p i offset j =>
    simp only [step]
    split
    · next w hg =>
      have hw : w.t = s.w.t := by
        simp only [getc] at hg
        split at hg
        · simp only [Prod.mk.injEq] at hg; rw [← hg.2]
        · simp only [Prod.mk.injEq] at hg; rw [← hg.2]
      refine ⟨hw, ?_⟩
      intro evs he k acc hk
      have := List.append_cancel_left he
      subst this; simp at hk
    · next c w hg =>
      have hw : w.t = s.w.t := by
        simp only [getc] at hg
        split at hg
        · simp only [Prod.mk.injEq] at hg; rw [← hg.2]
        · simp only [Prod.mk.injEq] at hg; rw [← hg.2]
      split
      · split
        · next k1 o hscan =>
          have hg2 := oobScan_some hscan
          have ht : s.w.t = true := by rw [← hw]; exact hg2.2.2.1
          refine ⟨ht.symm, ?_⟩
          intro evs he k acc hk
          have := List.append_cancel_left he
          subst this
          simp only [List.mem_cons, List.mem_singleton, List.not_mem_nil, or_false] at hk
          rcases hk with hk | hk
          · cases hk
          · cases hk
            exact ⟨ht, o, _, by simpa using hg2.2.1, rfl, rfl⟩
        · split
          · split
            · refine ⟨hw, ?_⟩
              intro evs he k acc hk
              have := List.append_cancel_left he
              subst this; simp at hk
            · refine ⟨hw, ?_⟩
              intro evs he k acc hk
              have := nil_of he; subst this; simp at hk
          · split
            · refine ⟨hw, ?_⟩
              intro evs he k acc hk
              have := List.append_cancel_left he
              subst this; simp at hk
            · refine ⟨hw, ?_⟩
              intro evs he k acc hk
              have := List.append_cancel_left he
              subst this; simp at hk
      · refine ⟨hw, ?_⟩
        intro evs he k acc hk
        have := nil_of he; subst this; simp at hk

theorem step_events_prefix (P : Parser) (resp : Mem) (c : Ctl) (s : St) :
    ∃ evs, (step P resp c s).2.events = s.events ++ evs := by
  cases c with
  | ret b => exact ⟨[], by simp [step]⟩
  | undef => exact ⟨[], by simp [step]⟩
  | start p =>
    rcases step_start_shape P resp p s with e | e | ⟨i, offset, buf, e⟩
    · rw [e]; exact ⟨[], by simp⟩
    · rw [e]; exact ⟨[], by simp⟩
    · rw [e]; exact ⟨_, rfl⟩
  | reading p i offset j =>
    simp only [step]
    split
    · exact ⟨_, rfl⟩
    · split
      · split
        · exact ⟨_, rfl⟩
        · split
          · split
            · exact ⟨_, rfl⟩
            · exact ⟨[], by simp⟩
          · split
            · exact ⟨_, rfl⟩
            · exact ⟨_, rfl⟩
      · exact ⟨[], by simp⟩

theorem run_flag (P : Parser) (resp : Mem) (n : Nat) :
    ∀ (c : Ctl) (s : St),
      (run P resp n c s).2.w.t = s.w.t ∧
        (s.w.t = false → (∀ k acc, Event.oob k acc ∉ s.events) →
          ∀ k acc, Event.oob k acc ∉ (run P resp n c s).2.events) := by
  induction n with
  | zero => intro c s; exact ⟨rfl, fun _ h => h⟩
  | succ n ih =>
    intro c s
    rw [run_succ]
    have hs := step_flag P resp c s
    have hi := ih (step P resp c s).1 (step P resp c s).2
    refine ⟨hi.1.trans hs.1, ?_⟩
    intro ht hno
    apply hi.2 (hs.1.trans ht)
    obtain ⟨evs, he⟩ := step_events_prefix P resp c s
    intro k acc hk
    rw [he, List.mem_append] at hk
    rcases hk with hk | hk
    · exact hno k acc hk
    · have := (hs.2 evs he k acc hk).1
      rw [ht] at this
      cases this

/-- C17: reentrancy guard. Whatever the template, registry, input and number of
steps, `vrecv` leaves the dispatch flag as it was on entry (entered with the
flag `true` it has the flag `true` afterwards, however many handlers fired;
entered with the flag `false`, as from inside a handler, it leaves it
`false`); entered with the flag `false` it invokes no handler; and every
handler invocation happens with the flag set before it, runs the handler on
resources whose flag is `false`, and sets the flag to `true` when the handler
returns, whatever the handler did to it. -/
theorem C17_reentrancy_guard (P : Parser) (resp : Mem) (p : Int) (fuel : Nat) (w : World) :
    (vrecv P resp p fuel w).2.w.t = w.t ∧
      (w.t = false → ∀ k acc, Event.oob k acc ∉ (vrecv P resp p fuel w).2.events) ∧
      (∀ (c : Ctl) (s : St) (evs : List Event) (k : Nat) (acc : List Char),
        (step P resp c s).2.events = s.events ++ evs → Event.oob k acc ∈ evs →
          s.w.t = true ∧ ∃ o w1, P.oobs.get? k = some o ∧ w1.t = false ∧
            (step P resp c s).2.w = { o.cb w1 with t := true }) :=
  ⟨(run_flag P resp fuel (Ctl.start p) ⟨w, [], []⟩).1,
    fun ht => (run_flag P resp fuel (Ctl.start p) ⟨w, [], []⟩).2 ht (by simp),
    fun c s evs k acc he hk => (step_flag P resp c s).2 evs he k acc hk⟩

/-- Witness for C11: two entries with the prefix `"+E"`, whose handlers write
`'1'` and `'2'` to the channel. At the read of `'E'` after `'+'` the first
one is invoked; over the whole call on the input `"+E\r\nOK"` only `'1'` is
written. -/
theorem C11_first_match_wins_witness :
    (∃ st, step (stdParser 32 "\r\n".toList
            (oob (oob [] "+E".toList (fun w => { w with tx := w.tx ++ ['1'] }))
              "+E".toList (fun w => { w with tx := w.tx ++ ['2'] })))
          (strMem (fun _ => NUL) "OK".toList) (Ctl.reading 0 2 5 1)
          ⟨⟨[some 'E'], [], [], Mem.write (fun _ => NUL) 0 "OK%n\x00+".toList, true⟩, [], []⟩
        = (Ctl.start 0, st) ∧ st.w.tx = ['1'] ∧
          st.events = [Event.byte 'E', Event.oob 0 "+E".toList]) ∧
      (vrecv (stdParser 32 "\r\n".toList
            (oob (oob [] "+E".toList (fun w => { w with tx := w.tx ++ ['1'] }))
              "+E".toList (fun w => { w with tx := w.tx ++ ['2'] })))
          (strMem (fun _ => NUL) "OK".toList) 0 12
          (rxWorld "+E\r\nOK".toList (fun _ => NUL))).2.w.tx = ['1'] := by
  refine ⟨?_, by decide⟩
  rcases C11_first_match_wins (stdParser 32 "\r\n".toList
            (oob (oob [] "+E".toList (fun w => { w with tx := w.tx ++ ['1'] }))
              "+E".toList (fun w => { w with tx := w.tx ++ ['2'] })))
          (strMem (fun _ => NUL) "OK".toList) 0 2 5 1
          ⟨⟨[some 'E'], [], [], Mem.write (fun _ => NUL) 0 "OK%n\x00+".toList, true⟩, [], []⟩
          'E' []
          (fun o ho => by
            have e : o = ⟨2, "+E".toList, fun w => { w with tx := w.tx ++ ['1'] }⟩ ∨
                o = ⟨2, "+E".toList, fun w => { w with tx := w.tx ++ ['2'] }⟩ := by
              simpa [stdParser, oob] using ho
            rcases e with e | e <;> (rw [e]; rfl))
          rfl (by decide) with ⟨k, o, hget, _, _, hfirst, hstep⟩ | ⟨h, _⟩
  · have hk : k = 0 := by
      by_contra hne
      exact hfirst 0 ⟨2, "+E".toList, fun w => { w with tx := w.tx ++ ['1'] }⟩
        (Nat.pos_of_ne_zero hne) rfl (by decide)
    subst hk
    have ho : o = ⟨2, "+E".toList, fun w => { w with tx := w.tx ++ ['1'] }⟩ := by
      have h0 : (stdParser 32 "\r\n".toList
            (oob (oob [] "+E".toList (fun w => { w with tx := w.tx ++ ['1'] }))
              "+E".toList (fun w => { w with tx := w.tx ++ ['2'] }))).oobs.get? 0
          = some ⟨2, "+E".toList, fun w => { w with tx := w.tx ++ ['1'] }⟩ := rfl
      rw [h0] at hget
      exact (Option.some.inj hget).symm
    subst ho
    exact ⟨_, hstep, rfl, by decide⟩
  · rcases h with h | h
    · cases h
    · exact absurd (show _ = cstrOf "+E".toList by decide)
        (h ⟨2, "+E".toList, fun w => { w with tx := w.tx ++ ['1'] }⟩ (List.Mem.head _))

/-- C12, as stated, fails: the pair (`"+E"`, a handler that writes `'!'`) is
registered twice; on the input `"+E\r\nOK"` the call `recv("OK")` succeeds
having invoked the handler once (one `'!'` written, one dispatch logged, of
entry 0). -/
theorem C12_duplicate_counterexample :
    (vrecv (stdParser 32 "\r\n".toList
          (oob (oob [] "+E".toList (fun w => { w with tx := w.tx ++ ['!'] }))
            "+E".toList (fun w => { w with tx := w.tx ++ ['!'] })))
        (strMem (fun _ => NUL) "OK".toList) 0 12
        (rxWorld "+E\r\nOK".toList (fun _ => NUL))).1 = Ctl.ret true ∧
      (vrecv (stdParser 32 "\r\n".toList
          (oob (oob [] "+E".toList (fun w => { w with tx := w.tx ++ ['!'] }))
            "+E".toList (fun w => { w with tx := w.tx ++ ['!'] })))
        (strMem (fun _ => NUL) "OK".toList) 0 12
        (rxWorld "+E\r\nOK".toList (fun _ => NUL))).2.w.tx = ['!'] ∧
      (vrecv (stdParser 32 "\r\n".toList
          (oob (oob [] "+E".toList (fun w => { w with tx := w.tx ++ ['!'] }))
            "+E".toList (fun w => { w with tx := w.tx ++ ['!'] })))
        (strMem (fun _ => NUL) "OK".toList) 0 12
        (rxWorld "+E\r\nOK".toList (fun _ => NUL))).2.events =
        [Event.compiled 0 2 5, Event.byte '+', Event.byte 'E', Event.oob 0 "+E".toList,
          Event.compiled 0 2 5, Event.byte '\r', Event.byte '\n', Event.discard "\r\n".toList,
          Event.byte 'O', Event.byte 'K', Event.matched "OK".toList []] := by
  decide

/-- Witness for C12, amended: the registry of the counterexample at the read
of `'E'` after `'+'`. -/
theorem C12_duplicate_fires_once_witness :
    (stdParser 32 "\r\n".toList
        (oob (oob [] "+E".toList (fun w => { w with tx := w.tx ++ ['!'] }))
          "+E".toList (fun w => { w with tx := w.tx ++ ['!'] }))).oobs.length = 2 ∧
      (step (stdParser 32 "\r\n".toList
          (oob (oob [] "+E".toList (fun w => { w with tx := w.tx ++ ['!'] }))
            "+E".toList (fun w => { w with tx := w.tx ++ ['!'] })))
        (strMem (fun _ => NUL) "OK".toList) (Ctl.reading 0 2 5 1)
        ⟨⟨[some 'E'], [], [], Mem.write (fun _ => NUL) 0 "OK%n\x00+".toList, true⟩,
          [], []⟩).2.w.tx = ['!'] := by
  have h := C12_duplicate_fires_once (stdParser 32 "\r\n".toList
          (oob (oob [] "+E".toList (fun w => { w with tx := w.tx ++ ['!'] }))
            "+E".toList (fun w => { w with tx := w.tx ++ ['!'] })))
        (strMem (fun _ => NUL) "OK".toList) 0 2 5 1
        ⟨⟨[some 'E'], [], [], Mem.write (fun _ => NUL) 0 "OK%n\x00+".toList, true⟩, [], []⟩
        'E' [] [] "+E".toList (fun w => { w with tx := w.tx ++ ['!'] }) rfl (by simp)
        rfl (by decide) rfl (by decide)
  refine ⟨by rw [h.1]; rfl, ?_⟩
  rw [h.2]
  rfl


/-! ## The second pass reads what the first pass validated -/

/-- Every iteration of the compile loop that consumes a byte of the template
writes at least one byte, except the last one of a line that ends with the
delimiter. -/
theorem compileLine_bound (P : Parser) (resp : Mem) (p : Int) :
    ∀ (fuel i0 off0 : Nat) (buf : Mem) (i off : Nat) (buf2 : Mem),
      compileLine P resp p fuel i0 off0 buf = some (i, off, buf2) →
      i + off0 ≤ i0 + off + 1 ∧ off0 ≤ off := by
  intro fuel
  induction fuel with
  | zero => intro i0 off0 buf i off buf2 h; simp [compileLine] at h
  | succ fuel ih =>
    intro i0 off0 buf i off buf2 h
    simp only [compileLine] at h
    split at h
    · simp only [Option.some.injEq, Prod.mk.injEq] at h
      obtain ⟨rfl, rfl, _⟩ := h
      omega
    · split at h
      · simp only [Option.some.injEq, Prod.mk.injEq] at h
        obtain ⟨rfl, rfl, _⟩ := h
        omega
      · split at h
        · split at h
          · have := ih _ _ _ _ _ _ h
            omega
          · cases h
        · split at h
          · have := ih _ _ _ _ _ _ h
            omega
          · cases h

theorem cstr_congr {m m2 : Mem} {a : Int} (h : ∀ k, a ≤ k → m2 k = m k) (bound : Nat) :
    cstr m2 a bound = cstr m a bound := by
  induction bound generalizing a with
  | zero => rfl
  | succ n ih =>
    simp only [cstr]
    rw [h a (le_refl a), ih (fun k hk => h k (by omega))]

/-- C20: the copy for the second pass stays below the accumulated input.
Whenever `vrecv_start` enters the inner loop for a line, with line length `i`
and compiled-template length `offset`: `i + 2 ≤ offset ≤ _buffer_size` (and
`j = 0`), so in every buffer the copy `memcpy(_buffer, response, i)` and its
terminator `_buffer[i] = 0` change no byte at an address `≥ offset`, and the
string at `_buffer + offset` read by the second pass is the string the first
pass validated. -/
theorem C20_line_copy_below_offset (P : Parser) (resp : Mem) (p p2 : Int) (s : St)
    (i offset j : Nat)
    (h : (step P resp (Ctl.start p) s).1 = Ctl.reading p2 i offset j) :
    i + 2 ≤ offset ∧ offset ≤ P.bufferSize ∧ j = 0 ∧
      ∀ buf : Mem,
        (∀ k : Int, (offset : Int) ≤ k → ((memcpy buf resp p i).set i NUL) k = buf k) ∧
        cstr ((memcpy buf resp p i).set i NUL) offset P.bufferSize =
          cstr buf offset P.bufferSize := by
  have hb : i + 2 ≤ offset ∧ offset ≤ P.bufferSize ∧ j = 0 := by
    by_cases hp : resp p = NUL
    · simp [step, hp] at h
    · cases hcl : compileLine P resp p (P.bufferSize + 1) 0 0 s.w.buf with
      | none => simp [step, hp, hcl] at h
      | some r =>
        obtain ⟨i1, off1, buf1⟩ := r
        have hbd := compileLine_bound P resp p _ _ _ _ _ _ _ hcl
        by_cases hm : off1 + 2 < P.bufferSize
        · simp only [step, hp, hcl, appendMarker, if_pos hm, if_false, Ctl.reading.injEq] at h
          omega
        · simp [step, hp, hcl, appendMarker, hm] at h
  refine ⟨hb.1, hb.2.1, hb.2.2, ?_⟩
  intro buf
  have hk : ∀ k : Int, (offset : Int) ≤ k → ((memcpy buf resp p i).set i NUL) k = buf k := by
    intro k hk
    rw [Mem.set_other _ _ (by omega)]
    simp only [memcpy]
    rw [if_neg (by omega)]
  exact ⟨hk, cstr_congr hk _⟩

/-- Witness for C20: the line `"OK\r\n"` with delimiter `"\r\n"` has `i = 4`
and `offset = 6`, the extreme case `i + 2 = offset`. -/
theorem C20_line_copy_below_offset_witness :
    4 + 2 ≤ 6 ∧ 6 ≤ (stdParser 32 "\r\n".toList []).bufferSize ∧ 0 = 0 ∧
      ∀ buf : Mem,
        (∀ k : Int, ((6 : Nat) : Int) ≤ k →
          ((memcpy buf (strMem (fun _ => NUL) "OK\r\n".toList) 0 4).set (4 : Nat) NUL) k = buf k) ∧
        cstr ((memcpy buf (strMem (fun _ => NUL) "OK\r\n".toList) 0 4).set (4 : Nat) NUL)
            (6 : Nat) (stdParser 32 "\r\n".toList []).bufferSize =
          cstr buf (6 : Nat) (stdParser 32 "\r\n".toList []).bufferSize :=
  C20_line_copy_below_offset (stdParser 32 "\r\n".toList [])
    (strMem (fun _ => NUL) "OK\r\n".toList) 0 0 ⟨rxWorld [] (fun _ => NUL), [], []⟩ 4 6 0
    (by decide)

/-! ## Single-shot `scanf`: the compile loop and the buffer it leaves -/

theorem scanLoop_eq (P : Parser) (format : List Char) (offset : Nat) (w : World)
    (rx : List (Option Char)) (j : Nat) (buf : Mem) :
    scanLoop P format offset w rx j buf =
    if (j : Int) + 1 ≥ (P.bufferSize : Int) - offset then
      some ⟨0, { w with rx := rx, buf := buf }, []⟩
    else
      match rx with
      | [] => some ⟨-1, { w with rx := [], buf := buf }, []⟩
      | none :: rest => some ⟨-1, { w with rx := rest, buf := buf }, []⟩
      | some c :: rest =>
        if offset + j + 1 < P.bufferSize then
          if countOf (P.sscanf
                (cstr ((buf.set (offset + j) c).set (offset + j + 1) NUL) offset P.bufferSize)
                (cstr ((buf.set (offset + j) c).set (offset + j + 1) NUL) 0 P.bufferSize))
              = ((j + 1 : Nat) : Int) then
            some ⟨((j + 1 : Nat) : Int),
              { w with rx := rest, buf := (buf.set (offset + j) c).set (offset + j + 1) NUL },
              P.sscanf
                (cstr ((buf.set (offset + j) c).set (offset + j + 1) NUL) offset P.bufferSize)
                (cstrOf format)⟩
          else
            scanLoop P format offset w rest (j + 1)
              ((buf.set (offset + j) c).set (offset + j + 1) NUL)
        else none := by
  cases rx with
  | nil => simp [scanLoop]
  | cons r rest =>
    cases r with
    | none => simp [scanLoop]
    | some c => simp [scanLoop]

theorem headD_cstrOf (l : List Char) : (cstrOf l).headD NUL = l.headD NUL := by
  cases l with
  | nil => rfl
  | cons d r =>
    by_cases hd : d = NUL
    · simp [cstrOf, hd]
    · simp [cstrOf, hd]

/-- The compile loop of `vscanf` writes the discard variant of the format. -/
theorem compileFormat_spec (P : Parser) (format : List Char) :
    ∀ (offset : Nat) (buf : Mem),
      offset + (discardVariant (cstrOf format) NUL).length ≤ P.bufferSize →
      compileFormat P format offset buf =
        some (offset + (discardVariant (cstrOf format) NUL).length,
          buf.write offset (discardVariant (cstrOf format) NUL)) := by
  induction format with
  | nil => intro offset buf _; simp [compileFormat, cstrOf, discardVariant, Mem.write]
  | cons c rest ih =>
    intro offset buf hfit
    by_cases hc : c = NUL
    · simp [compileFormat, cstrOf, hc, discardVariant, Mem.write]
    · have hcs : cstrOf (c :: rest) = c :: cstrOf rest := by simp [cstrOf, hc]
      rw [hcs] at hfit ⊢
      by_cases hpc : c = '%' ∧ rest.headD NUL ≠ '%' ∧ rest.headD NUL ≠ '*'
      · have hdv : discardVariant (c :: cstrOf rest) NUL
            = '%' :: '*' :: discardVariant (cstrOf rest) NUL := by
          simp only [discardVariant]; rw [headD_cstrOf, if_pos hpc]
        rw [hdv] at hfit ⊢
        simp only [List.length_cons] at hfit
        have hb : offset + 1 < P.bufferSize := by omega
        rw [compileFormat, if_neg hc, if_pos hpc, if_pos hb, ih (offset + 2) _ (by omega)]
        have e4 : ((offset : Int) + 1) = ((offset + 1 : Nat) : Int) := by push_cast; rfl
        have e5 : ((offset : Int) + 1 + 1) = ((offset + 2 : Nat) : Int) := by push_cast; ring
        simp only [Mem.write, List.length_cons, e4, e5]
        congr 2
        omega
      · have hdv : discardVariant (c :: cstrOf rest) NUL
            = c :: discardVariant (cstrOf rest) NUL := by
          simp only [discardVariant]; rw [headD_cstrOf, if_neg hpc]
        rw [hdv] at hfit ⊢
        simp only [List.length_cons] at hfit
        have hb : offset < P.bufferSize := by omega
        rw [compileFormat, if_neg hc, if_neg hpc, if_pos hb, ih (offset + 1) _ (by omega)]
        have e4 : ((offset : Int) + 1) = ((offset + 1 : Nat) : Int) := by push_cast; rfl
        simp only [Mem.write, List.length_cons, e4]
        congr 2
        omega

/-- The compile loop of `vscanf` on a format that does not fit is a write past
the buffer. -/
theorem compileFormat_overflow (P : Parser) (format : List Char) :
    ∀ (offset : Nat) (buf : Mem),
      P.bufferSize < offset + (discardVariant (cstrOf format) NUL).length →
      offset ≤ P.bufferSize →
      compileFormat P format offset buf = none := by
  induction format with
  | nil => intro offset buf h h2; simp [cstrOf, discardVariant] at h; omega
  | cons c rest ih =>
    intro offset buf hfit hle
    by_cases hc : c = NUL
    · simp [cstrOf, hc, discardVariant] at hfit; omega
    · have hcs : cstrOf (c :: rest) = c :: cstrOf rest := by simp [cstrOf, hc]
      rw [hcs] at hfit
      by_cases hpc : c = '%' ∧ rest.headD NUL ≠ '%' ∧ rest.headD NUL ≠ '*'
      · have hdv : discardVariant (c :: cstrOf rest) NUL
            = '%' :: '*' :: discardVariant (cstrOf rest) NUL := by
          simp only [discardVariant]; rw [headD_cstrOf, if_pos hpc]
        rw [hdv] at hfit
        simp only [List.length_cons] at hfit
        rw [compileFormat, if_neg hc, if_pos hpc]
        by_cases hb : offset + 1 < P.bufferSize
        · rw [if_pos hb, ih (offset + 2) _ (by omega) (by omega)]
        · rw [if_neg hb]
      · have hdv : discardVariant (c :: cstrOf rest) NUL
            = c :: discardVariant (cstrOf rest) NUL := by
          simp only [discardVariant]; rw [headD_cstrOf, if_neg hpc]
        rw [hdv] at hfit
        simp only [List.length_cons] at hfit
        rw [compileFormat, if_neg hc, if_neg hpc]
        by_cases hb : offset < P.bufferSize
        · rw [if_pos hb, ih (offset + 1) _ (by omega) (by omega)]
        · rw [if_neg hb]

/-- The buffer after the compile loop and the marker. -/
theorem marker_ready (N : Nat) (buf0 : Mem) (dv : List Char) (hclean : NUL ∉ dv)
    (hfit : dv.length + 3 ≤ N) :
    Ready N ((((buf0.write 0 dv).set dv.length '%').set (dv.length + 1) 'n').set
        (dv.length + 2) NUL) (dv ++ ['%', 'n']) [] (dv.length + 3) := by
  refine ⟨by simp, ?_, ?_, ?_, rfl, by omega⟩
  · rw [List.length_append, List.length_cons, List.length_singleton]
    have e : dv.length + (0 + 1 + 1) = dv.length + 1 + 1 := rfl
    rw [e, slice_snoc, slice_snoc]
    have e1 : slice ((((buf0.write 0 dv).set dv.length '%').set (dv.length + 1) 'n').set
        (dv.length + 2) NUL) 0 dv.length = slice (buf0.write 0 dv) 0 dv.length := by
      apply slice_congr
      intro k hk
      rw [Mem.set_other _ _ (by omega), Mem.set_other _ _ (by omega),
        Mem.set_other _ _ (by omega)]
    rw [e1, slice_write]
    have e2 : ((0 : Int) + ((dv.length + 1 : Nat) : Int)) = (dv.length : Int) + 1 := by
      push_cast; ring
    rw [Mem.set_other _ _ (by omega), Mem.set_other _ _ (by omega), zero_add, Mem.set_same, e2,
      Mem.set_other _ _ (by omega), Mem.set_same]
    simp
  · have e : (((dv ++ ['%', 'n']).length : Nat) : Int) = (dv.length : Int) + 2 := by
      simp
    rw [e, Mem.set_same]
  · have h1 : NUL ≠ '%' := by decide
    have h2 : NUL ≠ 'n' := by decide
    simp [hclean, h1, h2]

/-- With a format whose discard variant fits, `vscanf` is its loop, entered
with the compiled template in the buffer. -/
theorem vscanf_eq (P : Parser) (format : List Char) (w : World)
    (hfit : (discardVariant (cstrOf format) NUL).length + 3 ≤ P.bufferSize) :
    ∃ buf, vscanf P format w =
        scanLoop P format ((discardVariant (cstrOf format) NUL).length + 3) w w.rx 0 buf ∧
      Ready P.bufferSize buf (discardVariant (cstrOf format) NUL ++ ['%', 'n']) []
        ((discardVariant (cstrOf format) NUL).length + 3) := by
  have hc := compileFormat_spec P format 0 w.buf (by omega)
  simp only [Nat.zero_add, Nat.cast_zero] at hc
  generalize hdv : discardVariant (cstrOf format) NUL = dv at hc hfit ⊢
  have hclean : NUL ∉ dv := by
    rw [← hdv]; exact discardVariant_clean _ (cstrOf_not_mem _)
  refine ⟨_, ?_, marker_ready P.bufferSize w.buf dv hclean hfit⟩
  have hb : dv.length + 2 < P.bufferSize := by omega
  simp only [vscanf, hc, appendMarker, if_pos hb]

/-- One iteration of the loop of `vscanf`, in terms of the accumulated text. -/
theorem scanLoop_step (P : Parser) (format : List Char) (w : World) {buf : Mem}
    {fmt acc : List Char} {offset : Nat} (hR : Ready P.bufferSize buf fmt acc offset)
    (c : Char) (rest : List (Option Char)) :
    scanLoop P format offset w (some c :: rest) acc.length buf =
      if P.bufferSize ≤ offset + acc.length + 1 then
        some ⟨0, { w with rx := some c :: rest, buf := buf }, []⟩
      else if countOf (P.sscanf (cstrOf (acc ++ [c])) fmt) = ((acc ++ [c]).length : Nat) then
        some ⟨((acc ++ [c]).length : Nat),
          { w with rx := rest,
                   buf := (buf.set (offset + acc.length) c).set (offset + acc.length + 1) NUL },
          P.sscanf (cstrOf (acc ++ [c])) (cstrOf format)⟩
      else
        scanLoop P format offset w rest (acc ++ [c]).length
          ((buf.set (offset + acc.length) c).set (offset + acc.length + 1) NUL) := by
  rw [scanLoop_eq]
  by_cases hg : P.bufferSize ≤ offset + acc.length + 1
  · rw [if_pos (by omega), if_pos hg]
  · rw [if_neg (by omega), if_neg hg]
    have hb : offset + acc.length + 1 < P.bufferSize := by omega
    simp only [if_pos hb]
    obtain ⟨hR2, hnul⟩ := hR.push c
    have hfm := hR2.cstr_fmt
    have hac := hR2.cstr_acc hnul (by simp; omega)
    rw [hfm, hac]
    simp only [List.length_append, List.length_singleton]

/-! ## The template compiler: captures, escapes, idempotence -/

theorem templateOf_lit (c : Char) (items : List TItem) :
    templateOf (TItem.lit c :: items) = c :: templateOf items := by
  simp [templateOf, TItem.text]

theorem templateOf_cap (c : Char) (items : List TItem) :
    templateOf (TItem.cap c :: items) = '%' :: c :: templateOf items := by
  simp [templateOf, TItem.text]

theorem discardOf_lit (c : Char) (items : List TItem) :
    discardOf (TItem.lit c :: items) = c :: discardOf items := by
  simp [discardOf, TItem.discard]

theorem discardOf_cap (c : Char) (items : List TItem) :
    discardOf (TItem.cap c :: items) = '%' :: '*' :: c :: discardOf items := by
  simp [discardOf, TItem.discard]

theorem numCaps_lit (c : Char) (items : List TItem) :
    numCaps (TItem.lit c :: items) = numCaps items := by
  simp [numCaps]

theorem numCaps_cap (c : Char) (items : List TItem) :
    numCaps (TItem.cap c :: items) = numCaps items + 1 := by
  simp [numCaps]

/-- On a template of literal characters and captures, the rewrite of the
compile loops replaces every `%c` by `%*c`. -/
theorem discardVariant_items (items : List TItem) (hok : ∀ it ∈ items, it.ok) (nxt : Char) :
    discardVariant (templateOf items) nxt = discardOf items := by
  induction items with
  | nil => rfl
  | cons it items ih =>
    have h0 := hok it (by simp)
    have ih2 := ih (fun x hx => hok x (List.mem_cons_of_mem _ hx))
    cases it with
    | lit c =>
      have hc : c ≠ '%' := h0.1
      rw [templateOf_lit, discardOf_lit, discardVariant, if_neg (fun h => hc h.1), ih2]
    | cap c =>
      have hc1 : c ≠ '%' := h0.1
      have hc2 : c ≠ '*' := h0.2.1
      rw [templateOf_cap, discardOf_cap, discardVariant,
        if_pos ⟨rfl, by simpa using hc1, by simpa using hc2⟩, discardVariant,
        if_neg (fun h => hc1 h.1), ih2]

theorem discardOf_length (items : List TItem) :
    (discardOf items).length = (templateOf items).length + numCaps items := by
  induction items with
  | nil => rfl
  | cons it items ih =>
    cases it with
    | lit c =>
      rw [templateOf_lit, discardOf_lit, numCaps_lit, List.length_cons, List.length_cons, ih]
      omega
    | cap c =>
      rw [templateOf_cap, discardOf_cap, numCaps_cap]
      simp only [List.length_cons]
      rw [ih]
      omega

theorem templateOf_clean (items : List TItem) (hok : ∀ it ∈ items, it.ok) :
    NUL ∉ templateOf items := by
  induction items with
  | nil => simp [templateOf]
  | cons it items ih =>
    have h0 := hok it (by simp)
    have ih2 := ih (fun x hx => hok x (List.mem_cons_of_mem _ hx))
    cases it with
    | lit c =>
      have hc : c ≠ NUL := h0.2
      rw [templateOf_lit]
      simp [ih2, Ne.symm hc]
    | cap c =>
      have hc : c ≠ NUL := h0.2.2
      have hp : NUL ≠ '%' := by decide
      rw [templateOf_cap]
      simp [ih2, Ne.symm hc, hp]

theorem templateOf_head (items : List TItem) (hok : ∀ it ∈ items, it.ok) (hne : items ≠ [])
    (d : Char) : (templateOf items).headD d ≠ NUL := by
  cases items with
  | nil => exact absurd rfl hne
  | cons it items =>
    have h0 := hok it (by simp)
    cases it with
    | lit c => rw [templateOf_lit]; exact h0.2
    | cap c => rw [templateOf_cap]; exact (by decide : '%' ≠ NUL)

/-- The text held by a buffer that is ready for the inner loop. -/
theorem Ready.slice_all {N : Nat} {buf : Mem} {fmt acc : List Char} {offset : Nat}
    (h : Ready N buf fmt acc offset) : slice buf 0 offset = fmt ++ [NUL] := by
  rw [h.hoff, slice_snoc, h.hfmt]
  simp [h.hfnul]

/-- C14: the template compiler. For every template spelled by literal
characters other than `%` and captures `%c` (`c` neither `%` nor `*`) whose
discard variant, marker and terminator fit the buffer: `vscanf` enters its
loop with `offset = |template| + (number of captures) + 3` and the buffer
holding, from index 0, the template with every `%c` replaced by `%*c`, then
`%n`, then the terminator; and so does `vrecv` for such a template (not
empty, ending at its terminator) at no position of which the delimiter test
of the compile loop succeeds. -/
theorem C14_template_compiler (P : Parser) (items : List TItem) (w : World)
    (hok : ∀ it ∈ items, it.ok)
    (hfit : (templateOf items).length + numCaps items + 3 ≤ P.bufferSize) :
    (∃ buf, vscanf P (templateOf items) w =
        scanLoop P (templateOf items) ((templateOf items).length + numCaps items + 3)
          w w.rx 0 buf ∧
      slice buf 0 ((templateOf items).length + numCaps items + 3)
        = discardOf items ++ ['%', 'n', NUL]) ∧
    ∀ (resp : Mem) (p : Int) (s : St), items ≠ [] →
      slice resp p (templateOf items).length = templateOf items →
      resp (p + (templateOf items).length) = NUL →
      (∀ k : Nat, k < (templateOf items).length →
        memEq resp (p + k + 1 - P.delimSize) (P.delimiter.take P.delimSize) = false) →
      ∃ st, step P resp (Ctl.start p) s =
          (Ctl.reading p (templateOf items).length
            ((templateOf items).length + numCaps items + 3) 0, st) ∧
        slice st.w.buf 0 ((templateOf items).length + numCaps items + 3)
          = discardOf items ++ ['%', 'n', NUL] := by
  have hcl := templateOf_clean items hok
  have hdl := discardOf_length items
  constructor
  · obtain ⟨buf, he, hR⟩ := vscanf_eq P (templateOf items) w (by
      rw [cstrOf_eq_self hcl, discardVariant_items items hok, hdl]; exact hfit)
    rw [cstrOf_eq_self hcl, discardVariant_items items hok, hdl] at he hR
    refine ⟨buf, he, ?_⟩
    rw [hR.slice_all]; simp
  · intro resp p s hne hs hend hnd
    have hp : resp p ≠ NUL := by
      have hh := templateOf_head items hok hne (resp (p + (templateOf items).length))
      rw [headD_of_slice hs] at hh
      exact hh
    obtain ⟨buf, he, hR⟩ := step_start P resp p (templateOf items) s hp hs hcl hnd
      (Or.inl hend) (by
        rw [discardVariant_items items hok, hdl]; exact hfit)
    rw [discardVariant_items items hok, hdl, if_pos hend] at he
    rw [discardVariant_items items hok, hdl] at hR
    refine ⟨_, he, ?_⟩
    rw [hR.slice_all]; simp

/-- Witness for C14: the template `"VALUE:%d"` compiles to `"VALUE:%*d%n"` with
its terminator, 12 bytes, in `vscanf` and in `vrecv`. -/
theorem C14_template_compiler_witness :
    (∃ buf, vscanf (stdParser 32 "\r\n".toList []) "VALUE:%d".toList (rxWorld [] (fun _ => NUL)) =
        scanLoop (stdParser 32 "\r\n".toList []) "VALUE:%d".toList 12
          (rxWorld [] (fun _ => NUL)) [] 0 buf ∧
      slice buf 0 12 = "VALUE:%*d%n\x00".toList) ∧
    (∃ st, step (stdParser 32 "\r\n".toList []) (strMem (fun _ => NUL) "VALUE:%d".toList)
          (Ctl.start 0) ⟨rxWorld [] (fun _ => NUL), [], []⟩ = (Ctl.reading 0 8 12 0, st) ∧
        slice st.w.buf 0 12 = "VALUE:%*d%n\x00".toList) :=
  ⟨(C14_template_compiler (stdParser 32 "\r\n".toList [])
      [TItem.lit 'V', TItem.lit 'A', TItem.lit 'L', TItem.lit 'U', TItem.lit 'E', TItem.lit ':',
        TItem.cap 'd'] (rxWorld [] (fun _ => NUL))
      (by
        intro it hit
        simp only [List.mem_cons, List.mem_singleton, List.not_mem_nil, or_false] at hit
        rcases hit with rfl | rfl | rfl | rfl | rfl | rfl | rfl <;> (unfold TItem.ok; decide))
      (by decide)).1,
    (C14_template_compiler (stdParser 32 "\r\n".toList [])
      [TItem.lit 'V', TItem.lit 'A', TItem.lit 'L', TItem.lit 'U', TItem.lit 'E', TItem.lit ':',
        TItem.cap 'd'] (rxWorld [] (fun _ => NUL))
      (by
        intro it hit
        simp only [List.mem_cons, List.mem_singleton, List.not_mem_nil, or_false] at hit
        rcases hit with rfl | rfl | rfl | rfl | rfl | rfl | rfl <;> (unfold TItem.ok; decide))
      (by decide)).2 (strMem (fun _ => NUL) "VALUE:%d".toList) 0
      ⟨rxWorld [] (fun _ => NUL), [], []⟩ (by simp) (strMem_slice _ _) (by decide)
      (noDelim_clean (strMem_slice _ _) (show NUL ∉ "\r\n".toList by decide)
        (show "\r\n".toList.getLast? = some '\n' by decide) (by decide))⟩

theorem discardVariant_headD (l : List Char) (nxt : Char) :
    (discardVariant l nxt).headD nxt = l.headD nxt := by
  cases l with
  | nil => rfl
  | cons c rest =>
    simp only [discardVariant]
    split
    · next h => simp [h.1]
    · simp

/-- The rewrite of the compile loops leaves its own output unchanged. -/
theorem discardVariant_idem (l : List Char) (nxt : Char) :
    discardVariant (discardVariant l nxt) nxt = discardVariant l nxt := by
  induction l with
  | nil => rfl
  | cons c rest ih =>
    by_cases hpc : c = '%' ∧ rest.headD nxt ≠ '%' ∧ rest.headD nxt ≠ '*'
    · have e : discardVariant (c :: rest) nxt = '%' :: '*' :: discardVariant rest nxt := by
        simp only [discardVariant]; rw [if_pos hpc]
      rw [e, discardVariant, if_neg (by simp), discardVariant, if_neg (by simp), ih]
    · have e : discardVariant (c :: rest) nxt = c :: discardVariant rest nxt := by
        simp only [discardVariant]; rw [if_neg hpc]
      rw [e, discardVariant, discardVariant_headD, if_neg hpc, ih]

theorem discardVariant_star (rest : List Char) (nxt : Char) :
    discardVariant ('%' :: '*' :: rest) nxt = '%' :: '*' :: discardVariant rest nxt := by
  rw [discardVariant, if_neg (by simp), discardVariant, if_neg (by simp)]

/-- C16: the capture-to-discard rewrite is idempotent. The rewrite applied to
its own output gives the same output (whatever byte follows the text), a
directive already marked `%*` is copied unchanged, and in the code: the bytes
that the compile loop of `vscanf` writes for a format `t` that fits the buffer
are the rewrite of `t`, and compiling these bytes again writes the same bytes;
likewise for the compile loop of `vrecv` on a line `t` followed by the byte
`nxt` (its terminator, or the last byte of a delimiter) and on its output laid
out as a line followed by the same byte. -/
theorem C16_rewrite_idempotent (P : Parser) (t : List Char) (buf buf2 : Mem)
    (hfit : (discardVariant (cstrOf t) NUL).length ≤ P.bufferSize) :
    (∀ (l : List Char) (nxt : Char),
      discardVariant (discardVariant l nxt) nxt = discardVariant l nxt) ∧
    (∀ (rest : List Char) (nxt : Char),
      discardVariant ('%' :: '*' :: rest) nxt = '%' :: '*' :: discardVariant rest nxt) ∧
    (∃ off b1 b2, compileFormat P t 0 buf = some (off, b1) ∧
      slice b1 0 off = discardVariant (cstrOf t) NUL ∧
      compileFormat P (slice b1 0 off) 0 buf2 = some (off, b2) ∧
      slice b2 0 off = slice b1 0 off) ∧
    ∀ (resp resp2 : Mem) (p p2 : Int) (nxt : Char),
      NUL ∉ t → slice resp p t.length = t → resp (p + t.length) = nxt →
      (∀ k : Nat, k < t.length →
        memEq resp (p + k + 1 - P.delimSize) (P.delimiter.take P.delimSize) = false) →
      (nxt = NUL ∨
        memEq resp (p + t.length + 1 - P.delimSize) (P.delimiter.take P.delimSize) = true) →
      (discardVariant t nxt).length ≤ P.bufferSize →
      slice resp2 p2 (discardVariant t nxt).length = discardVariant t nxt →
      resp2 (p2 + (discardVariant t nxt).length) = nxt →
      (∀ k : Nat, k < (discardVariant t nxt).length →
        memEq resp2 (p2 + k + 1 - P.delimSize) (P.delimiter.take P.delimSize) = false) →
      (nxt = NUL ∨
        memEq resp2 (p2 + (discardVariant t nxt).length + 1 - P.delimSize)
          (P.delimiter.take P.delimSize) = true) →
      ∃ i1 i2 off b1 b2,
        compileLine P resp p (P.bufferSize + 1) 0 0 buf = some (i1, off, b1) ∧
        slice b1 0 off = discardVariant t nxt ∧
        compileLine P resp2 p2 (P.bufferSize + 1) 0 0 buf2 = some (i2, off, b2) ∧
        slice b2 0 off = slice b1 0 off := by
  refine ⟨discardVariant_idem, discardVariant_star, ?_, ?_⟩
  · have h1 := compileFormat_spec P t 0 buf (by omega)
    have hcl : NUL ∉ discardVariant (cstrOf t) NUL := discardVariant_clean _ (cstrOf_not_mem _)
    have hs : slice (buf.write ((0 : Nat) : Int) (discardVariant (cstrOf t) NUL)) 0
        (0 + (discardVariant (cstrOf t) NUL).length) = discardVariant (cstrOf t) NUL := by
      rw [Nat.zero_add]; exact slice_write _ _ _
    have h2 := compileFormat_spec P (discardVariant (cstrOf t) NUL) 0 buf2 (by
      rw [cstrOf_eq_self hcl, discardVariant_idem]; omega)
    rw [cstrOf_eq_self hcl, discardVariant_idem] at h2
    refine ⟨_, _, buf2.write ((0 : Nat) : Int) (discardVariant (cstrOf t) NUL), h1, hs, ?_, ?_⟩
    · rw [hs]; exact h2
    · rw [hs, Nat.zero_add]; exact slice_write _ _ _
  · intro resp resp2 p p2 nxt hn hs hnx hnd hend hfit2 hs2 hnx2 hnd2 hend2
    have hge := discardVariant_length_ge t nxt
    have h1 := compileLine_spec P resp p t (P.bufferSize + 1) 0 0 buf
      (by simpa using hs) hn (by simpa using hnd)
      (by simpa [hnx] using hend) (by simp [hnx]; exact hfit2) (by omega)
    simp only [Nat.cast_zero, add_zero, Nat.zero_add, hnx] at h1
    have hcl : NUL ∉ discardVariant t nxt := discardVariant_clean _ hn
    have h2 := compileLine_spec P resp2 p2 (discardVariant t nxt) (P.bufferSize + 1) 0 0 buf2
      (by simpa using hs2) hcl (by simpa using hnd2)
      (by simpa [hnx2] using hend2)
      (by simp [hnx2, discardVariant_idem]; exact hfit2)
      (by omega)
    simp only [Nat.cast_zero, add_zero, Nat.zero_add, hnx2, discardVariant_idem] at h2
    refine ⟨_, _, _, _, _, h1, slice_write _ _ _, h2, ?_⟩
    rw [slice_write, slice_write]

/-- Witness for C16: the format `"A%d%*s%%"` compiles to `"A%*d%*s%%*"`, which
compiles to itself, in the loop of `vscanf` and in the loop of `vrecv`. -/
theorem C16_rewrite_idempotent_witness :
    (∃ off b1 b2,
      compileFormat (stdParser 32 "\r\n".toList []) "A%d%*s%%".toList 0 (fun _ => NUL)
        = some (off, b1) ∧
      slice b1 0 off = "A%*d%*s%%*".toList ∧
      compileFormat (stdParser 32 "\r\n".toList []) (slice b1 0 off) 0 (fun _ => NUL)
        = some (off, b2) ∧
      slice b2 0 off = slice b1 0 off) ∧
    (∃ i1 i2 off b1 b2,
      compileLine (stdParser 32 "\r\n".toList []) (strMem (fun _ => NUL) "A%d%*s%%".toList) 0
        33 0 0 (fun _ => NUL) = some (i1, off, b1) ∧
      slice b1 0 off = "A%*d%*s%%*".toList ∧
      compileLine (stdParser 32 "\r\n".toList []) (strMem (fun _ => NUL) "A%*d%*s%%*".toList) 0
        33 0 0 (fun _ => NUL) = some (i2, off, b2) ∧
      slice b2 0 off = slice b1 0 off) :=
  ⟨(C16_rewrite_idempotent (stdParser 32 "\r\n".toList []) "A%d%*s%%".toList
      (fun _ => NUL) (fun _ => NUL) (by decide)).2.2.1,
    (C16_rewrite_idempotent (stdParser 32 "\r\n".toList []) "A%d%*s%%".toList
      (fun _ => NUL) (fun _ => NUL) (by decide)).2.2.2
      (strMem (fun _ => NUL) "A%d%*s%%".toList) (strMem (fun _ => NUL) "A%*d%*s%%*".toList)
      0 0 NUL (by decide) (strMem_slice _ _) (by decide)
      (noDelim_clean (strMem_slice _ _) (show NUL ∉ "\r\n".toList by decide)
        (show "\r\n".toList.getLast? = some '\n' by decide) (by decide))
      (Or.inl rfl) (by decide) (strMem_slice _ "A%*d%*s%%*".toList) (by decide)
      (noDelim_clean (T := "A%*d%*s%%*".toList) (strMem_slice _ _)
        (show NUL ∉ "\r\n".toList by decide)
        (show "\r\n".toList.getLast? = some '\n' by decide) (by decide))
      (Or.inl rfl)⟩

/-- C15, at the failing input: the template `"100%%done"` has no capture, yet
`vscanf` and `vrecv` compile it to `"100%%*done%n"`, not to `"100%%done%n"`: the
compile loop copies the first `%` of the escape and then examines the second
one, which is followed by `d`, and rewrites it to `%*`. With the C library of
`libcScan`, `scanf("100%%done")` and `recv("100%%done")` then never match the
input `"100%done"` (they end on the timeout), which the unchanged template
followed by `%n` consumes entirely. -/
theorem C15_percent_escape_rewritten :
    (vscanf (stdParser 32 "\r\n".toList []) "100%%done".toList
        (rxWorld [] (fun _ => NUL))).map (fun r => cstr r.w.buf 0 32)
      = some "100%%*done%n".toList ∧
    cstr (step (stdParser 32 "\r\n".toList []) (strMem (fun _ => NUL) "100%%done".toList)
        (Ctl.start 0) ⟨rxWorld [] (fun _ => NUL), [], []⟩).2.w.buf 0 32
      = "100%%*done%n".toList ∧
    (vscanf (stdParser 32 "\r\n".toList []) "100%%done".toList
        (rxWorld "100%done".toList (fun _ => NUL))).map (fun r => (r.ret, r.w.rx))
      = some (-1, []) ∧
    (vrecv (stdParser 32 "\r\n".toList []) (strMem (fun _ => NUL) "100%%done".toList) 0 16
        (rxWorld "100%done".toList (fun _ => NUL))).1 = Ctl.ret false ∧
    countOf (libcScan "100%done".toList "100%%done%n".toList) = 8 := by
  decide

/-! ## The loop of `vscanf` -/

/-- The loop of `vscanf` always returns (no write leaves the buffer), having
read bytes `u` that leave room for their terminator. -/
theorem scanLoop_total (P : Parser) (format : List Char) (offset : Nat) (w : World) :
    ∀ (rx : List (Option Char)) (j : Nat) (buf : Mem), j ≤ P.bufferSize - offset - 1 →
      ∃ (r : ScanRes) (u : List Char), scanLoop P format offset w rx j buf = some r ∧
        (rx = u.map some ++ r.w.rx ∨ rx = u.map some ++ none :: r.w.rx) ∧
        j + u.length ≤ P.bufferSize - offset - 1 ∧
        (r.ret = 0 ∨ r.ret = -1 ∨ r.ret = ((j + u.length : Nat) : Int)) := by
  intro rx
  induction rx with
  | nil =>
    intro j buf hj
    rw [scanLoop_eq]
    split
    · exact ⟨_, [], rfl, Or.inl rfl, by simpa using hj, Or.inl rfl⟩
    · exact ⟨_, [], rfl, Or.inl rfl, by simpa using hj, Or.inr (Or.inl rfl)⟩
  | cons x rest ih =>
    intro j buf hj
    rw [scanLoop_eq]
    split
    · exact ⟨_, [], rfl, Or.inl rfl, by simpa using hj, Or.inl rfl⟩
    · next hg =>
      cases x with
      | none => exact ⟨_, [], rfl, Or.inr rfl, by simpa using hj, Or.inr (Or.inl rfl)⟩
      | some c =>
        have hb : offset + j + 1 < P.bufferSize := by omega
        simp only [if_pos hb]
        split
        · exact ⟨_, [c], rfl, Or.inl rfl, by simp; omega, Or.inr (Or.inr (by simp))⟩
        · obtain ⟨r, u, h1, h2, h3, h4⟩ := ih (j + 1)
            ((buf.set (offset + j) c).set (offset + j + 1) NUL) (by omega)
          refine ⟨r, c :: u, h1, ?_, by simp; omega, ?_⟩
          · rcases h2 with h2 | h2
            · left; simp [← h2]
            · right; simp [← h2]
          · rcases h4 with h4 | h4 | h4
            · exact Or.inl h4
            · exact Or.inr (Or.inl h4)
            · right; right; rw [h4]; simp; omega

/-- A successful `vscanf` loop stopped at the first accumulated length that
the discard template consumes entirely. -/
theorem scanLoop_success (P : Parser) (format : List Char) (w : World) (fmt : List Char)
    (offset : Nat) :
    ∀ (rx : List (Option Char)) (acc : List Char) (buf : Mem) (r : ScanRes),
      Ready P.bufferSize buf fmt acc offset →
      scanLoop P format offset w rx acc.length buf = some r → 0 < r.ret →
      ∃ (u : List Char) (rest : List (Option Char)), u ≠ [] ∧ rx = u.map some ++ rest ∧
        r.w.rx = rest ∧ r.ret = ((acc ++ u).length : Nat) ∧
        countOf (P.sscanf (cstrOf (acc ++ u)) fmt) = ((acc ++ u).length : Nat) ∧
        (∀ m, 1 ≤ m → m < u.length →
          countOf (P.sscanf (cstrOf (acc ++ u.take m)) fmt) ≠ ((acc.length + m : Nat) : Int)) ∧
        r.stored = P.sscanf (cstrOf (acc ++ u)) (cstrOf format) := by
  intro rx
  induction rx with
  | nil =>
    intro acc buf r _ h hpos
    rw [scanLoop_eq] at h
    split at h <;> (cases h; simp at hpos)
  | cons x rest ih =>
    intro acc buf r hR h hpos
    cases x with
    | none =>
      rw [scanLoop_eq] at h
      split at h <;> (cases h; simp at hpos)
    | some c =>
      rw [scanLoop_step P format w hR] at h
      split at h
      · cases h; simp at hpos
      · split at h
        · next hm =>
          cases h
          refine ⟨[c], rest, by simp, rfl, rfl, rfl, hm, ?_, rfl⟩
          intro m h1 h2
          simp at h2
          omega
        · next hg hm =>
          obtain ⟨hR2, _⟩ := hR.push c
          obtain ⟨u, rest2, _, h2, h3, h4, h5, h6, h7⟩ := ih (acc ++ [c]) _ r hR2 h hpos
          refine ⟨c :: u, rest2, by simp, by simp [h2], h3, ?_, ?_, ?_, ?_⟩
          · rw [h4]; simp
          · simpa using h5
          · intro m h1 hlt
            cases m with
            | zero => omega
            | succ m =>
              cases m with
              | zero =>
                simpa using hm
              | succ m =>
                have := h6 (m + 1) (by omega) (by simp at hlt; omega)
                simp only [List.take_succ_cons]
                have e : acc ++ c :: List.take (m + 1) u = acc ++ [c] ++ List.take (m + 1) u := by
                  simp
                rw [e]
                have e2 : ((acc.length + (m + 1 + 1) : Nat) : Int)
                    = (((acc ++ [c]).length + (m + 1) : Nat) : Int) := by
                  simp; omega
                rw [e2]; exact this
          · simpa using h7

/-- The loop of `vscanf` returns at the first accumulated length that the
discard template consumes entirely, when the bytes up to it fit. -/
theorem scanLoop_find (P : Parser) (format : List Char) (w : World) (fmt : List Char)
    (offset : Nat) (rest : List (Option Char)) :
    ∀ (u : List Char) (acc : List Char) (buf : Mem),
      Ready P.bufferSize buf fmt acc offset → u ≠ [] →
      offset + acc.length + u.length < P.bufferSize →
      countOf (P.sscanf (cstrOf (acc ++ u)) fmt) = ((acc ++ u).length : Nat) →
      (∀ m, 1 ≤ m → m < u.length →
        countOf (P.sscanf (cstrOf (acc ++ u.take m)) fmt) ≠ ((acc.length + m : Nat) : Int)) →
      ∃ buf2, scanLoop P format offset w (u.map some ++ rest) acc.length buf =
        some ⟨((acc ++ u).length : Nat), { w with rx := rest, buf := buf2 },
          P.sscanf (cstrOf (acc ++ u)) (cstrOf format)⟩ := by
  intro u
  induction u with
  | nil => intro acc buf _ h; exact absurd rfl h
  | cons c u ih =>
    intro acc buf hR _ hfit hfull hmin
    simp only [List.map_cons, List.cons_append]
    rw [scanLoop_step P format w hR, if_neg (by simp at hfit; omega)]
    cases u with
    | nil =>
      rw [if_pos hfull]
      exact ⟨_, rfl⟩
    | cons d u =>
      have hne : countOf (P.sscanf (cstrOf (acc ++ [c])) fmt) ≠ (((acc ++ [c]).length : Nat) : Int) := by
        have := hmin 1 (le_refl 1) (by simp)
        simpa using this
      rw [if_neg hne]
      obtain ⟨hR2, _⟩ := hR.push c
      have e : acc ++ [c] ++ d :: u = acc ++ c :: d :: u := by simp
      obtain ⟨buf2, h2⟩ := ih (acc ++ [c]) _ hR2 (by simp) (by simp at hfit ⊢; omega)
        (by rw [e]; exact hfull)
        (by
          intro m h1 hlt
          have := hmin (m + 1) (by omega) (by simp at hlt ⊢; omega)
          simp only [List.take_succ_cons] at this
          have e3 : acc ++ [c] ++ List.take m (d :: u) = acc ++ c :: List.take m (d :: u) := by
            simp
          rw [e3]
          have e2 : (((acc ++ [c]).length + m : Nat) : Int) = ((acc.length + (m + 1) : Nat) : Int) := by
            simp; omega
          rw [e2]; exact this)
      rw [e] at h2
      exact ⟨buf2, h2⟩

/-- The loop of `vscanf` gives up with `false` once the bytes read fill the
free space, none of their prefixes being matched. -/
theorem scanLoop_exhaust (P : Parser) (format : List Char) (w : World) (fmt : List Char)
    (offset : Nat) (tail : List (Option Char)) :
    ∀ (u : List Char) (acc : List Char) (buf : Mem),
      Ready P.bufferSize buf fmt acc offset →
      acc.length + u.length = P.bufferSize - offset - 1 →
      (∀ m, 1 ≤ m → m ≤ u.length →
        countOf (P.sscanf (cstrOf (acc ++ u.take m)) fmt) ≠ ((acc.length + m : Nat) : Int)) →
      ∃ buf2, scanLoop P format offset w (u.map some ++ tail) acc.length buf =
        some ⟨0, { w with rx := tail, buf := buf2 }, []⟩ := by
  intro u
  induction u with
  | nil =>
    intro acc buf hR hlen _
    have hN := hR.hN
    rw [scanLoop_eq, if_pos (by simp at hlen; omega)]
    exact ⟨_, rfl⟩
  | cons c u ih =>
    intro acc buf hR hlen hno
    simp only [List.map_cons, List.cons_append]
    simp only [List.length_cons] at hlen
    rw [scanLoop_step P format w hR, if_neg (by omega)]
    have hne : countOf (P.sscanf (cstrOf (acc ++ [c])) fmt) ≠ (((acc ++ [c]).length : Nat) : Int) := by
      have := hno 1 (le_refl 1) (by simp)
      simpa using this
    rw [if_neg hne]
    obtain ⟨hR2, _⟩ := hR.push c
    exact ih (acc ++ [c]) _ hR2 (by simp; omega) (by
      intro m h1 hle
      have := hno (m + 1) (by omega) (by simp; omega)
      simp only [List.take_succ_cons] at this
      have e3 : acc ++ [c] ++ List.take m u = acc ++ c :: List.take m u := by simp
      rw [e3]
      have e2 : (((acc ++ [c]).length + m : Nat) : Int) = ((acc.length + (m + 1) : Nat) : Int) := by
        simp; omega
      rw [e2]; exact this)

/-- A format whose discard variant and marker do not fit the buffer makes
`vscanf` write past it. -/
theorem vscanf_unfit (P : Parser) (format : List Char) (w : World)
    (h : P.bufferSize < (discardVariant (cstrOf format) NUL).length + 3) :
    vscanf P format w = none := by
  by_cases h2 : (discardVariant (cstrOf format) NUL).length ≤ P.bufferSize
  · have hc := compileFormat_spec P format 0 w.buf (by omega)
    simp only [Nat.zero_add] at hc
    simp only [vscanf, hc, appendMarker]
    rw [if_neg (by omega)]
  · have hc := compileFormat_overflow P format 0 w.buf (by omega) (Nat.zero_le _)
    simp only [vscanf, hc]

/-! ## Buffer exhaustion: `scanf` fails, `recv` discards -/

/-- The inner loop of `vrecv`, without OOB entries, on bytes `u` that fill the
free space with no prefix matched and no delimiter at the end of a proper
prefix: it reads them all, resets `j` and stays in the loop. -/
theorem run_fill (P : Parser) (resp : Mem) (p : Int) (i offset : Nat) (fmt : List Char)
    (tail : List (Option Char)) (hi : i < offset) (hoob : P.oobs = []) :
    ∀ (u : List Char) (acc : List Char) (s : St),
      Ready P.bufferSize s.w.buf fmt acc offset → s.w.rx = u.map some ++ tail → u ≠ [] →
      offset + acc.length + u.length + 1 = P.bufferSize →
      (∀ m, 1 ≤ m → m ≤ u.length →
        countOf (P.sscanf (cstrOf (acc ++ u.take m)) fmt) ≠ ((acc.length + m : Nat) : Int)) →
      (∀ m, 1 ≤ m → m < u.length → endsWithDelim P (acc ++ u.take m) = false) →
      ∃ buf, run P resp u.length (Ctl.reading p i offset acc.length) s =
        (Ctl.reading p i offset 0,
          ⟨⟨tail, s.w.txq, s.w.tx, buf, s.w.t⟩, s.stored,
            s.events ++ u.map Event.byte ++ [Event.discard (acc ++ u)]⟩) := by
  intro u
  induction u with
  | nil => intro acc s _ _ h; exact absurd rfl h
  | cons c u ih =>
    intro acc s hR hrx _ hfill hno hnd
    simp only [List.length_cons] at hfill
    have hst := step_reading P resp p i offset s fmt acc c (u.map some ++ tail) hR
      (by simpa using hrx) (by omega) hi
    have hfind : oobFind (acc ++ [c]) s.w.t P.oobs 0 = none := by rw [hoob]; rfl
    have hne : countOf (P.sscanf (cstrOf (acc ++ [c])) fmt) ≠ (((acc ++ [c]).length : Nat) : Int) := by
      have := hno 1 (le_refl 1) (by simp)
      simpa using this
    rw [hfind] at hst
    simp only [if_neg hne] at hst
    rw [List.length_cons, run_succ, hst]
    cases u with
    | nil =>
      rw [if_pos (Or.inl (by simp; simp at hfill; omega))]
      exact ⟨(s.w.buf.set (offset + acc.length) c).set (offset + acc.length + 1) NUL,
        by simp [run]⟩
    | cons d u =>
      have hnr : ¬ (P.bufferSize ≤ (acc ++ [c]).length + 1 + offset ∨
          endsWithDelim P (acc ++ [c]) = true) := by
        intro h
        rcases h with h | h
        · simp at h hfill; omega
        · have := hnd 1 (le_refl 1) (by simp)
          simp at this
          rw [this] at h
          cases h
      rw [if_neg hnr]
      obtain ⟨hR2, _⟩ := hR.push c
      obtain ⟨buf, h2⟩ := ih (acc ++ [c])
        ⟨⟨List.map some (d :: u) ++ tail, s.w.txq, s.w.tx,
            (s.w.buf.set (offset + acc.length) c).set (offset + acc.length + 1) NUL, s.w.t⟩,
          s.stored, s.events ++ [Event.byte c]⟩ hR2 rfl (by simp)
        (by simp at hfill ⊢; omega)
        (by
          intro m h1 hle
          have := hno (m + 1) (by omega) (by simp at hle ⊢; omega)
          simp only [List.take_succ_cons] at this
          have e3 : acc ++ [c] ++ List.take m (d :: u) = acc ++ c :: List.take m (d :: u) := by
            simp
          rw [e3]
          have e2 : (((acc ++ [c]).length + m : Nat) : Int) = ((acc.length + (m + 1) : Nat) : Int) := by
            simp; omega
          rw [e2]; exact this)
        (by
          intro m h1 hlt
          have := hnd (m + 1) (by omega) (by simp at hlt ⊢; omega)
          simp only [List.take_succ_cons] at this
          have e3 : acc ++ [c] ++ List.take m (d :: u) = acc ++ c :: List.take m (d :: u) := by
            simp
          rw [e3]; exact this)
      refine ⟨buf, ?_⟩
      rw [h2]
      simp

/-- C13: `scanf` fails on buffer exhaustion where `recv` discards. Let the
template `T` compile to `offset = |discard variant| + 3 ≤ _buffer_size` bytes
and let the channel supply `u`, of `_buffer_size - offset - 1` bytes, none of
whose non-empty prefixes the discard template consumes entirely. Then `vscanf`
returns `0` (`false`), having read exactly `u`. And `vrecv` on the same
template (one line, no OOB entries, `u` not empty and no proper prefix of `u`
ending with the delimiter), after the same reads, has logged `u` as discarded
and is at the head of its inner loop with `j = 0`: it has not returned. -/
theorem C13_scanf_fails_recv_discards (P : Parser) (T u : List Char)
    (tail : List (Option Char)) (w : World)
    (hn : NUL ∉ T)
    (hfit : (discardVariant T NUL).length + 3 ≤ P.bufferSize)
    (hlen : u.length = P.bufferSize - ((discardVariant T NUL).length + 3) - 1)
    (hrx : w.rx = u.map some ++ tail)
    (hno : ∀ m, 1 ≤ m → m ≤ u.length →
      countOf (P.sscanf (cstrOf (u.take m)) (discardVariant T NUL ++ ['%', 'n'])) ≠ (m : Int)) :
    (∃ buf, vscanf P T w = some ⟨0, { w with rx := tail, buf := buf }, []⟩) ∧
    ∀ (resp : Mem) (p : Int), resp p ≠ NUL → slice resp p T.length = T →
      resp (p + T.length) = NUL →
      (∀ k : Nat, k < T.length →
        memEq resp (p + k + 1 - P.delimSize) (P.delimiter.take P.delimSize) = false) →
      P.oobs = [] → u ≠ [] →
      (∀ m, 1 ≤ m → m < u.length → endsWithDelim P (u.take m) = false) →
      ∃ buf, vrecv P resp p (1 + u.length) w =
        (Ctl.reading p T.length ((discardVariant T NUL).length + 3) 0,
          ⟨⟨tail, w.txq, w.tx, buf, w.t⟩, [],
            [Event.compiled p T.length ((discardVariant T NUL).length + 3)] ++
              u.map Event.byte ++ [Event.discard u]⟩) := by
  constructor
  · obtain ⟨buf, he, hR⟩ := vscanf_eq P T w (by rw [cstrOf_eq_self hn]; exact hfit)
    rw [cstrOf_eq_self hn] at he hR
    rw [he, hrx]
    exact scanLoop_exhaust P T w _ _ tail u [] buf hR (by simpa using hlen)
      (by simpa using hno)
  · intro resp p hp hs hend hnd hoob hu hdel
    obtain ⟨buf, he, hR⟩ := step_start P resp p T ⟨w, [], []⟩ hp hs hn hnd (Or.inl hend)
      (by rw [hend]; exact hfit)
    rw [if_pos hend] at he
    have hi : T.length < (discardVariant T NUL).length + 3 := by
      have := discardVariant_length_ge T NUL; omega
    rw [hend] at he hR
    obtain ⟨buf2, h2⟩ := run_fill P resp p T.length ((discardVariant T NUL).length + 3)
      (discardVariant T NUL ++ ['%', 'n']) tail hi hoob u []
      ⟨⟨w.rx, w.txq, w.tx, buf, w.t⟩, [],
        [] ++ [Event.compiled p T.length ((discardVariant T NUL).length + 3)]⟩
      hR hrx hu
      (by
        have : u.length ≠ 0 := fun h => hu (List.length_eq_zero.mp h)
        simp only [List.length_nil]; omega)
      (by simpa using hno) (by simpa using hdel)
    refine ⟨buf2, ?_⟩
    rw [vrecv, run_add, run_one, he]
    simpa using h2

/-- Witness for C13: an 8-byte buffer and the template `"OK"` (`offset = 5`,
two free bytes for input). On the input `"ABOK"`, `scanf` returns `0` after
`"AB"`, leaving `"OK"` unread; `recv` discards `"AB"`, stays in its loop, and
then returns `true` on `"OK"`. -/
theorem C13_scanf_fails_recv_discards_witness :
    (∃ buf, vscanf (stdParser 8 "\r\n".toList []) "OK".toList
        (rxWorld "ABOK".toList (fun _ => NUL)) =
      some ⟨0, { rxWorld "ABOK".toList (fun _ => NUL) with
        rx := [some 'O', some 'K'], buf := buf }, []⟩) ∧
    (∃ buf, vrecv (stdParser 8 "\r\n".toList []) (strMem (fun _ => NUL) "OK".toList) 0 3
        (rxWorld "ABOK".toList (fun _ => NUL)) =
      (Ctl.reading 0 2 5 0,
        ⟨⟨[some 'O', some 'K'], [], [], buf, true⟩, [],
          [Event.compiled 0 2 5, Event.byte 'A', Event.byte 'B',
            Event.discard "AB".toList]⟩)) ∧
    (vrecv (stdParser 8 "\r\n".toList []) (strMem (fun _ => NUL) "OK".toList) 0 6
        (rxWorld "ABOK".toList (fun _ => NUL))).1 = Ctl.ret true :=
  ⟨(C13_scanf_fails_recv_discards (stdParser 8 "\r\n".toList []) "OK".toList "AB".toList
      [some 'O', some 'K'] (rxWorld "ABOK".toList (fun _ => NUL))
      (by decide) (by decide) (by decide) rfl (by decide)).1,
    (C13_scanf_fails_recv_discards (stdParser 8 "\r\n".toList []) "OK".toList "AB".toList
      [some 'O', some 'K'] (rxWorld "ABOK".toList (fun _ => NUL))
      (by decide) (by decide) (by decide) rfl (by decide)).2
      (strMem (fun _ => NUL) "OK".toList) 0 (by decide) (strMem_slice _ _) (by decide)
      (noDelim_clean (strMem_slice _ _) (show NUL ∉ "\r\n".toList by decide)
        (show "\r\n".toList.getLast? = some '\n' by decide) (by decide))
      rfl (by decide) (by decide),
    by decide⟩

/-! ## The buffer bound and the earliest match -/

/-- An iteration of the inner loop of `vrecv` entered with room for the byte
and its terminator makes no write outside the buffer and, if it stays in the
loop, leaves room for the next byte and its terminator. -/
theorem step_reading_bound (P : Parser) (resp : Mem) (p : Int) (i offset j : Nat) (s : St)
    (hb : offset + j + 1 < P.bufferSize) (hi : i < P.bufferSize) :
    (step P resp (Ctl.reading p i offset j) s).1 ≠ Ctl.undef ∧
      ∀ p2 i2 o2 j2, (step P resp (Ctl.reading p i offset j) s).1 = Ctl.reading p2 i2 o2 j2 →
        p2 = p ∧ i2 = i ∧ o2 = offset ∧ o2 + j2 + 1 < P.bufferSize ∧ j2 ≤ j + 1 := by
  simp only [step]
  split
  · exact ⟨by simp, by simp⟩
  · simp only [if_pos hb, if_pos hi]
    split
    · exact ⟨by simp, by simp⟩
    · split
      · exact ⟨by simp, by simp⟩
      · split
        · refine ⟨by simp, ?_⟩
          intro p2 i2 o2 j2 h
          simp only [Ctl.reading.injEq] at h
          obtain ⟨rfl, rfl, rfl, rfl⟩ := h
          exact ⟨rfl, rfl, rfl, by omega, by omega⟩
        · next hr =>
          refine ⟨by simp, ?_⟩
          intro p2 i2 o2 j2 h
          simp only [Ctl.reading.injEq] at h
          obtain ⟨rfl, rfl, rfl, rfl⟩ := h
          have h1 : ¬ ((((j + 1 : Nat) : Int)) + 1 ≥ (P.bufferSize : Int) - offset) :=
            fun h => hr (Or.inl h)
          exact ⟨rfl, rfl, rfl, by omega, by omega⟩

theorem run_succ_last (P : Parser) (resp : Mem) (n : Nat) (c : Ctl) (s : St) :
    run P resp (n + 1) c s = step P resp (run P resp n c s).1 (run P resp n c s).2 := by
  rw [run_add, run_one]

/-- As long as the machine stays in the inner loop of one line, entered with
two free bytes, it makes no write outside the buffer. -/
theorem run_reading_bound (P : Parser) (resp : Mem) (p : Int) (i offset : Nat) (s : St)
    (hoff : offset + 2 ≤ P.bufferSize) (hi : i < offset) :
    ∀ n, (∀ m, m < n → ∃ j, (run P resp m (Ctl.reading p i offset 0) s).1
          = Ctl.reading p i offset j) →
      (run P resp n (Ctl.reading p i offset 0) s).1 ≠ Ctl.undef ∧
        ∀ j, (run P resp n (Ctl.reading p i offset 0) s).1 = Ctl.reading p i offset j →
          offset + j + 1 < P.bufferSize := by
  intro n
  induction n with
  | zero =>
    intro _
    refine ⟨by simp [run], ?_⟩
    intro j h
    simp only [run, Ctl.reading.injEq] at h
    omega
  | succ n ih =>
    intro hstay
    obtain ⟨j, hj⟩ := hstay n (Nat.lt_succ_self n)
    have hb := (ih (fun m hm => hstay m (Nat.lt_succ_of_lt hm))).2 j hj
    rw [run_succ_last, hj]
    have hs := step_reading_bound P resp p i offset j (run P resp n (Ctl.reading p i offset 0) s).2
      hb (by omega)
    refine ⟨hs.1, ?_⟩
    intro j2 h2
    have := hs.2 p i offset j2 h2
    omega

/-- C18: the scratch-buffer bound. In the model a write at an index
`≥ _buffer_size` makes `vscanf` return `none` and sends `vrecv` to
`Ctl.undef`. For a format whose compiled form fits (`offset ≤ _buffer_size`),
`vscanf` returns a result, having read bytes `u` with
`|u| ≤ _buffer_size - offset - 1`. In `vrecv`, for a line with
`offset + 2 ≤ _buffer_size`: an iteration of the inner loop entered with
`offset + j + 1 < _buffer_size` writes inside the buffer and, if the loop
continues, leaves `offset + j + 1 < _buffer_size` again (with `j` grown by at
most one); so from `j = 0`, as long as the machine stays in the inner loop of
that line it never writes outside the buffer, whatever the input. -/
theorem C18_buffer_bound (P : Parser) (format : List Char) (w : World)
    (resp : Mem) (p : Int) (i offset : Nat) (s : St)
    (hfit : (discardVariant (cstrOf format) NUL).length + 3 ≤ P.bufferSize)
    (hoff : offset + 2 ≤ P.bufferSize) (hi : i < offset) :
    (∃ (r : ScanRes) (u : List Char), vscanf P format w = some r ∧
        (w.rx = u.map some ++ r.w.rx ∨ w.rx = u.map some ++ none :: r.w.rx) ∧
        u.length ≤ P.bufferSize - ((discardVariant (cstrOf format) NUL).length + 3) - 1 ∧
        (r.ret = 0 ∨ r.ret = -1 ∨ r.ret = (u.length : Int))) ∧
    (∀ (j : Nat) (s1 : St), offset + j + 1 < P.bufferSize →
      (step P resp (Ctl.reading p i offset j) s1).1 ≠ Ctl.undef ∧
        ∀ p2 i2 o2 j2, (step P resp (Ctl.reading p i offset j) s1).1 = Ctl.reading p2 i2 o2 j2 →
          p2 = p ∧ i2 = i ∧ o2 = offset ∧ o2 + j2 + 1 < P.bufferSize ∧ j2 ≤ j + 1) ∧
    (∀ n, (∀ m, m < n → ∃ j, (run P resp m (Ctl.reading p i offset 0) s).1
          = Ctl.reading p i offset j) →
      (run P resp n (Ctl.reading p i offset 0) s).1 ≠ Ctl.undef ∧
        ∀ j, (run P resp n (Ctl.reading p i offset 0) s).1 = Ctl.reading p i offset j →
          offset + j + 1 < P.bufferSize) := by
  refine ⟨?_, ?_, run_reading_bound P resp p i offset s hoff hi⟩
  · obtain ⟨buf, he, _⟩ := vscanf_eq P format w hfit
    obtain ⟨r, u, h1, h2, h3, h4⟩ := scanLoop_total P format
      ((discardVariant (cstrOf format) NUL).length + 3) w w.rx 0 buf (Nat.zero_le _)
    rw [Nat.zero_add] at h3 h4
    exact ⟨r, u, he.trans h1, h2, h3, h4⟩
  · intro j s1 hb
    exact step_reading_bound P resp p i offset j s1 hb (by omega)

/-- C19: earliest full match. If `vscanf` returns a positive value, then the
channel delivered bytes `u` followed by `rest`, the value returned is `|u|`,
`|u| ≥ 1`, `rest` is left unread, the discard template consumes the `|u|`
accumulated bytes entirely (`count == j`) and no shorter non-empty prefix of
them, and the values stored are those of the second pass on `u`. With a C
library for which `"%n"` alone reports `0` characters consumed, the format is
then not empty: `vscanf` with an empty format never returns a positive
value. -/
theorem C19_earliest_full_match (P : Parser) (format : List Char) (w : World) (r : ScanRes)
    (h : vscanf P format w = some r) (hpos : 0 < r.ret) :
    (∃ (u : List Char) (rest : List (Option Char)), w.rx = u.map some ++ rest ∧
      r.w.rx = rest ∧ r.ret = (u.length : Int) ∧ 1 ≤ u.length ∧
      countOf (P.sscanf (cstrOf u) (discardVariant (cstrOf format) NUL ++ ['%', 'n']))
        = (u.length : Int) ∧
      (∀ m, 1 ≤ m → m < u.length →
        countOf (P.sscanf (cstrOf (u.take m)) (discardVariant (cstrOf format) NUL ++ ['%', 'n']))
          ≠ (m : Int)) ∧
      r.stored = P.sscanf (cstrOf u) (cstrOf format)) ∧
    ((∀ inp, countOf (P.sscanf inp ['%', 'n']) = 0) → cstrOf format ≠ []) := by
  have hfit : (discardVariant (cstrOf format) NUL).length + 3 ≤ P.bufferSize := by
    by_contra hc
    rw [vscanf_unfit P format w (by omega)] at h
    cases h
  obtain ⟨buf, he, hR⟩ := vscanf_eq P format w hfit
  rw [he] at h
  obtain ⟨u, rest, hu, h1, h2, h3, h4, h5, h6⟩ :=
    scanLoop_success P format w _ _ w.rx [] buf r hR h hpos
  have hmain : ∃ (u : List Char) (rest : List (Option Char)), w.rx = u.map some ++ rest ∧
      r.w.rx = rest ∧ r.ret = (u.length : Int) ∧ 1 ≤ u.length ∧
      countOf (P.sscanf (cstrOf u) (discardVariant (cstrOf format) NUL ++ ['%', 'n']))
        = (u.length : Int) ∧
      (∀ m, 1 ≤ m → m < u.length →
        countOf (P.sscanf (cstrOf (u.take m)) (discardVariant (cstrOf format) NUL ++ ['%', 'n']))
          ≠ (m : Int)) ∧
      r.stored = P.sscanf (cstrOf u) (cstrOf format) := by
    refine ⟨u, rest, h1, h2, by simpa using h3, ?_, by simpa using h4, by simpa using h5,
      by simpa using h6⟩
    cases u with
    | nil => exact absurd rfl hu
    | cons c u => simp
  refine ⟨hmain, ?_⟩
  intro hs hempty
  obtain ⟨u2, _, _, _, _, hlen, hfull, _, _⟩ := hmain
  rw [hempty] at hfull
  have := hs (cstrOf u2)
  simp only [discardVariant, List.nil_append] at hfull
  rw [this] at hfull
  have : (u2.length : Int) = 0 := hfull.symm
  omega

theorem libcScan_marker (inp : List Char) : countOf (libcScan inp ['%', 'n']) = 0 := by
  simp [libcScan, libcScanGo, nextDir, scanConv, countOf]

/-- The converse of the success case of `vscanf`: if the bytes `u` at the head
of the channel fit behind the compiled format and `|u|` is the least positive
length that the discard template consumes entirely, `vscanf` returns `|u|`
having read `u` and nothing after it. -/
theorem vscanf_find (P : Parser) (format : List Char) (w : World) (u : List Char)
    (rest : List (Option Char)) (hrx : w.rx = u.map some ++ rest) (hu : u ≠ [])
    (hfit : (discardVariant (cstrOf format) NUL).length + 3 + u.length < P.bufferSize)
    (hfull : countOf (P.sscanf (cstrOf u) (discardVariant (cstrOf format) NUL ++ ['%', 'n']))
      = (u.length : Int))
    (hmin : ∀ m, 1 ≤ m → m < u.length →
      countOf (P.sscanf (cstrOf (u.take m)) (discardVariant (cstrOf format) NUL ++ ['%', 'n']))
        ≠ (m : Int)) :
    ∃ buf, vscanf P format w =
      some ⟨(u.length : Int), { w with rx := rest, buf := buf },
        P.sscanf (cstrOf u) (cstrOf format)⟩ := by
  obtain ⟨buf, he, hR⟩ := vscanf_eq P format w (by omega)
  rw [he, hrx]
  have := scanLoop_find P format w _ _ rest u [] buf hR hu (by simp; omega)
    (by simpa using hfull) (by simpa using hmin)
  simpa using this

/-- Witness for C19: `scanf("VALUE:%d")` on `"VALUE:42\r\n"` returns 7 having
read `"VALUE:4"`, the shortest prefix that `"VALUE:%*d%n"` consumes entirely,
and stores 4. -/
theorem C19_earliest_full_match_witness :
    (∃ (u : List Char) (rest : List (Option Char)),
      (rxWorld "VALUE:42\r\n".toList (fun _ => NUL)).rx = u.map some ++ rest ∧
      [some '2', some '\r', some '\n'] = rest ∧ (7 : Int) = (u.length : Int) ∧ 1 ≤ u.length ∧
      countOf (libcScan (cstrOf u) "VALUE:%*d%n".toList) = (u.length : Int) ∧
      (∀ m, 1 ≤ m → m < u.length →
        countOf (libcScan (cstrOf (u.take m)) "VALUE:%*d%n".toList) ≠ (m : Int)) ∧
      [Val.int 4] = libcScan (cstrOf u) "VALUE:%d".toList) ∧
    "VALUE:%d".toList ≠ [] := by
  obtain ⟨buf, h⟩ := vscanf_find (stdParser 32 "\r\n".toList []) "VALUE:%d".toList
    (rxWorld "VALUE:42\r\n".toList (fun _ => NUL)) "VALUE:4".toList
    [some '2', some '\r', some '\n'] rfl (by decide) (by decide) (by decide) (by decide)
  have h2 := C19_earliest_full_match (stdParser 32 "\r\n".toList []) "VALUE:%d".toList
    (rxWorld "VALUE:42\r\n".toList (fun _ => NUL)) _ h
    (show (0 : Int) < (("VALUE:4".toList.length : Nat) : Int) by decide)
  exact ⟨h2.1, h2.2 libcScan_marker⟩

/-- Witness for C18: an 8-byte buffer with the template `"OK"` (`offset = 5`). -/
theorem C18_buffer_bound_witness :
    (∃ (r : ScanRes) (u : List Char),
        vscanf (stdParser 8 "\r\n".toList []) "OK".toList
          (rxWorld "ABOK".toList (fun _ => NUL)) = some r ∧
        ((rxWorld "ABOK".toList (fun _ => NUL)).rx = u.map some ++ r.w.rx ∨
          (rxWorld "ABOK".toList (fun _ => NUL)).rx = u.map some ++ none :: r.w.rx) ∧
        u.length ≤ 2 ∧ (r.ret = 0 ∨ r.ret = -1 ∨ r.ret = (u.length : Int))) ∧
    ((run (stdParser 8 "\r\n".toList []) (strMem (fun _ => NUL) "OK".toList) 2
          (Ctl.reading 0 2 5 0)
          ⟨rxWorld "ABOK".toList (Mem.write (fun _ => NUL) 0 "OK%n\x00".toList), [], []⟩).1
        ≠ Ctl.undef ∧
      ∀ j, (run (stdParser 8 "\r\n".toList []) (strMem (fun _ => NUL) "OK".toList) 2
          (Ctl.reading 0 2 5 0)
          ⟨rxWorld "ABOK".toList (Mem.write (fun _ => NUL) 0 "OK%n\x00".toList), [], []⟩).1
        = Ctl.reading 0 2 5 j → 5 + j + 1 < 8) :=
  ⟨(C18_buffer_bound (stdParser 8 "\r\n".toList []) "OK".toList
      (rxWorld "ABOK".toList (fun _ => NUL)) (strMem (fun _ => NUL) "OK".toList) 0 2 5
      ⟨rxWorld "ABOK".toList (Mem.write (fun _ => NUL) 0 "OK%n\x00".toList), [], []⟩
      (by decide) (by decide) (by decide)).1,
    (C18_buffer_bound (stdParser 8 "\r\n".toList []) "OK".toList
      (rxWorld "ABOK".toList (fun _ => NUL)) (strMem (fun _ => NUL) "OK".toList) 0 2 5
      ⟨rxWorld "ABOK".toList (Mem.write (fun _ => NUL) 0 "OK%n\x00".toList), [], []⟩
      (by decide) (by decide) (by decide)).2.2 2
      (by
        intro m hm
        interval_cases m
        · exact ⟨0, rfl⟩
        · exact ⟨1, by decide⟩)⟩

end ATParser
